import Mathlib

/-!
# Autolink detection (`autolink.c`): shallow embedding and verified properties

The C functions of `src/src/autolink.c` are embedded as Lean functions that
keep the source's names and control flow.

* Bytes (`uint8_t`) are natural numbers; the `<ctype.h>` classifiers are those
  of the "C" locale.
* A pointer into the document is a `Window`: the bytes before the pointer
  (nearest first) and the bytes from the pointer on.  Reading outside these
  bytes is the fault `Fault.oob`; every function that reads memory returns
  `Except Fault _`.  Addresses are taken modulo `2 ^ 64`: an index that has
  wrapped below zero reads the lookbehind (`Window.rd_wrap`), which
  `autolink_delim` can reach through `link_end - 2`.
* `size_t` is 64 bits wide and `int` 32 bits wide, with two's-complement
  conversions (LP64).  Lengths and indices are natural numbers; wrap-around is
  written out where the source can reach it: `size_t` subtraction
  (`size_sub`), the `(int)` cast on the WWW detector's return value
  (`int_cast`), the `int` counters of the email detector (`int_incr`) and the
  8-bit tilde counter of the username detector.  Sums of lengths of one window
  stay below `2 ^ 64`, as the window lies in one address space.
* Loops are recursive functions with a fuel argument that the caller sets to a
  bound of the iteration count; running out of fuel is `Fault.fuel`.
* An output parameter (`*rewind_p`, `*rndr_del`) and the sink `link` are passed
  in and returned.
-/

namespace Autolink

/-! ## Bytes and `<ctype.h>` in the "C" locale -/

/-- The ASCII codes of a string literal. -/
def bytes (s : String) : List Nat := s.toList.map Char.toNat

def isdigit (c : Nat) : Bool := 48 ≤ c && c ≤ 57

def isupper (c : Nat) : Bool := 65 ≤ c && c ≤ 90

def islower (c : Nat) : Bool := 97 ≤ c && c ≤ 122

def isalpha (c : Nat) : Bool := isupper c || islower c

def isalnum (c : Nat) : Bool := isalpha c || isdigit c

/-- The white-space bytes: space, and `\t \n \v \f \r`. -/
def isspace (c : Nat) : Bool := c == 32 || (9 ≤ c && c ≤ 13)

/-- The printable bytes that are neither alphanumeric nor the space. -/
def ispunct (c : Nat) : Bool :=
  (33 ≤ c && c ≤ 47) || (58 ≤ c && c ≤ 64) || (91 ≤ c && c ≤ 96) || (123 ≤ c && c ≤ 126)

def tolower (c : Nat) : Nat := if isupper c then c + 32 else c

/-- The test `strchr(s, c) != NULL`: the terminating NUL of `s` counts as part
of the string, so the byte 0 is always found. -/
def strchr (s : List Nat) (c : Nat) : Bool := c == 0 || s.contains c

/-! ## Machine integers -/

/-- The value of `a - b` computed in `size_t`: it wraps modulo `2 ^ 64` below zero. -/
def size_sub (a b : Nat) : Nat := if b ≤ a then a - b else a + 2 ^ 64 - b

/-- The value of `(int)n` converted back to `size_t`, as in `return (int)link_end;`
from a function that returns `size_t`: the low 32 bits, sign-extended. -/
def int_cast (n : Nat) : Nat :=
  if n % 2 ^ 32 < 2 ^ 31 then n % 2 ^ 32 else 2 ^ 64 - 2 ^ 32 + n % 2 ^ 32

/-- The bit pattern of `n + 1` for an `int` counter (two's complement, 32 bits). -/
def int_incr (n : Nat) : Nat := (n + 1) % 2 ^ 32

/-! ## Memory -/

inductive Fault where
  | oob
  | fuel
  deriving DecidableEq, Repr

/-- A pointer into a byte buffer together with the bytes that may be read
through it: `before` holds the bytes in front of the pointer, nearest first
(`before[r]` is `data[-r - 1]`), `after` the bytes from the pointer on
(`after[i]` is `data[i]`). -/
structure Window where
  before : List Nat
  after : List Nat
  deriving DecidableEq, Repr

namespace Window

/-- The number of bytes in front of the pointer. -/
def offset (w : Window) : Nat := w.before.length

/-- The number of bytes from the pointer on. -/
def size (w : Window) : Nat := w.after.length

/-- The pointer at position `pos` of the document `doc`. -/
def mk_at (doc : List Nat) (pos : Nat) : Window :=
  ⟨(doc.take pos).reverse, doc.drop pos⟩

/-- The read `data[i]`. -/
def rd (w : Window) (i : Nat) : Except Fault Nat :=
  match w.after[i]? with
  | some c => .ok c
  | none => .error .oob

/-- The read `data[-r - 1]`. -/
def rdBack (w : Window) (r : Nat) : Except Fault Nat :=
  match w.before[r]? with
  | some c => .ok c
  | none => .error .oob

/-- The read `data[i]` through an index of type `size_t` that may have wrapped
below zero: the address is `data + i` modulo `2 ^ 64`, so the index `2 ^ 64 - k`
reads `data[-k]`.  For `i < size` it is the read `data[i]`. -/
def rd_wrap (w : Window) (i : Nat) : Except Fault Nat :=
  match w.after[i]? with
  | some c => .ok c
  | none => if i < 2 ^ 64 then w.rdBack (2 ^ 64 - 1 - i) else .error .oob

/-- The pointer `data + k`. -/
def add (w : Window) (k : Nat) : Window :=
  ⟨(w.after.take k).reverse ++ w.before, w.after.drop k⟩

/-- The pointer `data - r`. -/
def sub (w : Window) (r : Nat) : Window :=
  ⟨w.before.drop r, (w.before.take r).reverse ++ w.after⟩

end Window

/-- Modelled from the spec: `bufput` of `buffer.h`, which is not among the
sources.  The sink is an append-only byte sequence; `bufput(link, data, len)`
appends the `len` bytes at `data`, all of which it reads. -/
def bufput (link : List Nat) (data : Window) (len : Nat) : Except Fault (List Nat) :=
  if len ≤ data.size then .ok (link ++ data.after.take len) else .error .oob

/-- The value of `strncasecmp(s1 + i, s2, n)` for a string literal `s2` (given
without its terminating NUL): the difference of the first pair of bytes that
differ after `tolower`, or 0. -/
def strncasecmp (s1 : Window) : Nat → List Nat → Nat → Except Fault Int
  | _, _, 0 => .ok 0
  | i, s2, n + 1 => do
    let c1 ← s1.rd i
    let c2 := s2.headD 0
    if tolower c1 ≠ tolower c2 then
      .ok ((tolower c1 : Int) - (tolower c2 : Int))
    else if c1 = 0 then
      .ok 0
    else
      strncasecmp s1 (i + 1) s2.tail n

/-- The value of `memcmp(data, s, n)` compared with 0: `true` when the first
`n` bytes at `data` are those of `s`.  All `n` bytes may be read. -/
def memcmp_eq (data : Window) (s : List Nat) (n : Nat) : Except Fault Bool :=
  if n ≤ data.size then .ok (data.after.take n == s.take n) else .error .oob

/-! ## `sd_autolink_issafe` -/

def valid_uris : List (List Nat) :=
  [bytes "http://", bytes "https://", bytes "ftp://", bytes "mailto://",
   bytes "/", bytes "git://", bytes "steam://", bytes "irc://", bytes "news://",
   bytes "mumble://", bytes "ssh://", bytes "ircs://", bytes "#"]

/-- The `for` loop of `sd_autolink_issafe` over the remaining table entries. -/
def issafe_loop (link : Window) (link_len : Nat) : List (List Nat) → Except Fault Bool
  | [] => .ok false
  | u :: us =>
    if link_len > u.length then do
      let d ← strncasecmp link 0 u u.length
      if d = 0 then do
        let c ← link.rd u.length
        if isalnum c || c = 35 || c = 47 || c = 63 then .ok true
        else issafe_loop link link_len us
      else issafe_loop link link_len us
    else issafe_loop link link_len us

def sd_autolink_issafe (link : Window) (link_len : Nat) : Except Fault Bool :=
  issafe_loop link link_len valid_uris

/-! ## `autolink_delim` -/

/-- The first loop of `autolink_delim`: the index of the first `<` below
`link_end`, or `link_end`. -/
def delim_lt (data : Window) (link_end : Nat) : Nat → Nat → Except Fault Nat
  | 0, _ => .error .fuel
  | fuel + 1, i =>
    if i < link_end then do
      let c ← data.rd i
      if c = 60 then .ok i else delim_lt data link_end fuel (i + 1)
    else .ok link_end

/-- The inner loop `while (new_end > 0 && isalpha(data[new_end])) new_end--;`.
Its start `link_end - 2` is `2 ^ 64 - 1` when `link_end = 1`, so the reads go
through `rd_wrap`. -/
def delim_back (data : Window) : Nat → Except Fault Nat
  | 0 => .ok 0
  | new_end + 1 => do
    let c ← data.rd_wrap (new_end + 1)
    if isalpha c then delim_back data new_end else .ok (new_end + 1)

/-- The loop `while (link_end > 0) ...` of `autolink_delim`.  After the step
`link_end = new_end` with a wrapped `new_end` the loop goes on in the
lookbehind, so the reads go through `rd_wrap`. -/
def delim_loop (data : Window) : Nat → Nat → Except Fault Nat
  | 0, _ => .error .fuel
  | fuel + 1, link_end =>
    if link_end > 0 then do
      let c ← data.rd_wrap (link_end - 1)
      if strchr (bytes "?!.,") c then delim_loop data fuel (link_end - 1)
      else if c = 59 then do
        let new_end ← delim_back data (size_sub link_end 2)
        if new_end < size_sub link_end 2 then do
          let c2 ← data.rd_wrap new_end
          if c2 = 38 then delim_loop data fuel new_end
          else delim_loop data fuel (link_end - 1)
        else delim_loop data fuel (link_end - 1)
      else .ok link_end
    else .ok link_end

/-- The `switch (cclose)` of `autolink_delim`; 0 when no case applies. -/
def copen_of (cclose : Nat) : Nat :=
  if cclose = 34 then 34
  else if cclose = 39 then 39
  else if cclose = 41 then 40
  else if cclose = 93 then 91
  else if cclose = 125 then 123
  else 0

/-- The counting loop of `autolink_delim`; the state is `(opening, closing)`. -/
def delim_count (data : Window) (link_end copen cclose : Nat) :
    Nat → Nat → Nat → Nat → Except Fault (Nat × Nat)
  | 0, _, _, _ => .error .fuel
  | fuel + 1, i, opening, closing =>
    if i < link_end then do
      let c ← data.rd_wrap i
      if c = copen then delim_count data link_end copen cclose fuel (i + 1) (opening + 1) closing
      else if c = cclose then
        delim_count data link_end copen cclose fuel (i + 1) opening (closing + 1)
      else delim_count data link_end copen cclose fuel (i + 1) opening closing
    else .ok (opening, closing)

/-- The function `autolink_delim`.  The trimming loop takes at most one turn
for each byte of the span and, once `link_end` has wrapped, one for each byte
of the lookbehind: this bounds its fuel. -/
def autolink_delim (data : Window) (link_end : Nat) (_offset _size : Nat) :
    Except Fault Nat := do
  let link_end ← delim_lt data link_end (link_end + 1) 0
  let link_end ← delim_loop data (link_end + data.before.length + 3) link_end
  if link_end = 0 then .ok 0
  else do
    let cclose ← data.rd_wrap (link_end - 1)
    let copen := copen_of cclose
    if copen ≠ 0 then do
      let (opening, closing) ← delim_count data link_end copen cclose (link_end + 1) 0 0 0
      if closing ≠ opening then .ok (link_end - 1) else .ok link_end
    else .ok link_end

/-- The last step of `autolink_delim`, after its two loops: the test of the
closing byte `data[link_end - 1]` against its opener. -/
def delim_close (data : Window) (link_end : Nat) : Except Fault Nat :=
  if link_end = 0 then .ok 0
  else do
    let cclose ← data.rd_wrap (link_end - 1)
    let copen := copen_of cclose
    if copen ≠ 0 then do
      let (opening, closing) ← delim_count data link_end copen cclose (link_end + 1) 0 0 0
      if closing ≠ opening then .ok (link_end - 1) else .ok link_end
    else .ok link_end

/-! ## `check_domain` -/

/-- The `for` loop of `check_domain`, with `bound` the value of `size - 1`;
the state is `(i, np)`. -/
def domain_loop (data : Window) (bound : Nat) : Nat → Nat → Nat → Except Fault (Nat × Nat)
  | 0, _, _ => .error .fuel
  | fuel + 1, i, np =>
    if i < bound then do
      let c ← data.rd i
      if c = 46 then domain_loop data bound fuel (i + 1) (np + 1)
      else if !isalnum c && c ≠ 45 then .ok (i, np)
      else domain_loop data bound fuel (i + 1) np
    else .ok (i, np)

def check_domain (data : Window) (size : Nat) : Except Fault Nat := do
  let c0 ← data.rd 0
  if !isalnum c0 then .ok 0
  else do
    let (i, np) ← domain_loop data (size_sub size 1) (size_sub size 1 + 1) 1 0
    if np ≠ 0 then .ok i else .ok 0

/-! ## The detectors -/

/-- What a detector hands back: the returned length, the value left in
`*rewind_p` and the contents of the sink `link`. -/
structure Result where
  ret : Nat
  rewind_p : Nat
  link : List Nat
  deriving DecidableEq, Repr

/-- The loop `while (link_end < size && !isspace(data[link_end])) link_end++;`. -/
def skip_nonspace (data : Window) (size : Nat) : Nat → Nat → Except Fault Nat
  | 0, _ => .error .fuel
  | fuel + 1, link_end =>
    if link_end < size then do
      let c ← data.rd link_end
      if !isspace c then skip_nonspace data size fuel (link_end + 1) else .ok link_end
    else .ok link_end

/-- The test `offset > 0 && !ispunct(data[-1]) && !isspace(data[-1])` of the
WWW detector. -/
def www_mid_word (data : Window) (offset : Nat) : Except Fault Bool :=
  if offset > 0 then do
    let c ← data.rdBack 0
    .ok (!ispunct c && !isspace c)
  else .ok false

def sd_autolink__www (rewind_p : Nat) (link : List Nat) (data : Window)
    (offset size : Nat) : Except Fault Result := do
  let mid_word ← www_mid_word data offset
  if mid_word then .ok ⟨0, rewind_p, link⟩
  else if size < 4 then .ok ⟨0, rewind_p, link⟩
  else do
    let same ← memcmp_eq data (bytes "www.") 4
    if !same then .ok ⟨0, rewind_p, link⟩
    else do
      let link_end ← check_domain data size
      if link_end = 0 then .ok ⟨0, rewind_p, link⟩
      else do
        let link_end ← skip_nonspace data size (size + 1) link_end
        let link_end ← autolink_delim data link_end offset size
        if link_end = 0 then .ok ⟨0, rewind_p, link⟩
        else do
          let link ← bufput link data link_end
          .ok ⟨int_cast link_end, 0, link⟩

/-- The lookbehind loop of the email detector. -/
def email_rewind (data : Window) (offset : Nat) : Nat → Nat → Except Fault Nat
  | 0, _ => .error .fuel
  | fuel + 1, rewind =>
    if rewind < offset then do
      let c ← data.rdBack rewind
      if isalnum c then email_rewind data offset fuel (rewind + 1)
      else if strchr (bytes ".+-_") c then email_rewind data offset fuel (rewind + 1)
      else .ok rewind
    else .ok rewind

/-- The forward loop of the email detector; the state is `(link_end, nb, np)`. -/
def email_forward (data : Window) (size : Nat) :
    Nat → Nat → Nat → Nat → Except Fault (Nat × Nat × Nat)
  | 0, _, _, _ => .error .fuel
  | fuel + 1, link_end, nb, np =>
    if link_end < size then do
      let c ← data.rd link_end
      if isalnum c then email_forward data size fuel (link_end + 1) nb np
      else if c = 64 then email_forward data size fuel (link_end + 1) (int_incr nb) np
      else if c = 46 && link_end < size_sub size 1 then
        email_forward data size fuel (link_end + 1) nb (int_incr np)
      else if c ≠ 45 && c ≠ 95 then .ok (link_end, nb, np)
      else email_forward data size fuel (link_end + 1) nb np
    else .ok (link_end, nb, np)

def sd_autolink__email (rewind_p : Nat) (link : List Nat) (data : Window)
    (offset size : Nat) : Except Fault Result := do
  let rewind ← email_rewind data offset (offset + 1) 0
  if rewind = 0 then .ok ⟨0, rewind_p, link⟩
  else do
    let (link_end, nb, np) ← email_forward data size (size + 1) 0 0 0
    if link_end < 2 || nb ≠ 1 || np = 0 then .ok ⟨0, rewind_p, link⟩
    else do
      let link_end ← autolink_delim data link_end offset size
      if link_end = 0 then .ok ⟨0, rewind_p, link⟩
      else do
        let link ← bufput link (data.sub rewind) (link_end + rewind)
        .ok ⟨link_end, rewind, link⟩

/-- The lookbehind loop `while (rewind < offset && isalpha(data[-rewind - 1])) rewind++;`. -/
def url_rewind (data : Window) (offset : Nat) : Nat → Nat → Except Fault Nat
  | 0, _ => .error .fuel
  | fuel + 1, rewind =>
    if rewind < offset then do
      let c ← data.rdBack rewind
      if isalpha c then url_rewind data offset fuel (rewind + 1) else .ok rewind
    else .ok rewind

/-- The test `size < 4 || data[1] != '/' || data[2] != '/'` of the URL detector. -/
def url_no_slashes (data : Window) (size : Nat) : Except Fault Bool :=
  if size < 4 then .ok true
  else do
    let c1 ← data.rd 1
    if c1 ≠ 47 then .ok true
    else do
      let c2 ← data.rd 2
      .ok (decide (c2 ≠ 47))

def sd_autolink__url (rewind_p : Nat) (link : List Nat) (data : Window)
    (offset size : Nat) : Except Fault Result := do
  let no_slashes ← url_no_slashes data size
  if no_slashes then .ok ⟨0, rewind_p, link⟩
  else do
    let rewind ← url_rewind data offset (offset + 1) 0
    let safe ← sd_autolink_issafe (data.sub rewind) (size + rewind)
    if !safe then .ok ⟨0, rewind_p, link⟩
    else do
      let link_end := 3
      let domain_len ← check_domain (data.add link_end) (size_sub size link_end)
      if domain_len = 0 then .ok ⟨0, rewind_p, link⟩
      else do
        let link_end := link_end + domain_len
        let link_end ← skip_nonspace data size (size + 1) link_end
        let link_end ← autolink_delim data link_end offset size
        if link_end = 0 then .ok ⟨0, rewind_p, link⟩
        else do
          let link ← bufput link (data.sub rewind) (link_end + rewind)
          .ok ⟨link_end, rewind, link⟩

/-- The loop of the subreddit detector over `[A-Za-z0-9_+]`. -/
def subreddit_loop (data : Window) (size : Nat) : Nat → Nat → Except Fault Nat
  | 0, _ => .error .fuel
  | fuel + 1, link_end =>
    if link_end < size then do
      let c ← data.rd link_end
      if isalnum c || c = 95 || c = 43 then subreddit_loop data size fuel (link_end + 1)
      else .ok link_end
    else .ok link_end

def sd_autolink__subreddit (rewind_p : Nat) (link : List Nat) (data : Window)
    (_offset size : Nat) : Except Fault Result := do
  if size < 3 then .ok ⟨0, rewind_p, link⟩
  else do
    let d ← strncasecmp data 0 (bytes "/r/") 3
    if d ≠ 0 then .ok ⟨0, rewind_p, link⟩
    else do
      let link_end := 3
      let c ← data.rd link_end
      if !isalnum c then .ok ⟨0, rewind_p, link⟩
      else do
        let link_end := link_end + 1
        let link_end ← subreddit_loop data size (size + 1) link_end
        let link ← bufput link data link_end
        .ok ⟨link_end, 0, link⟩

/-- What the username detector hands back: as `Result`, with the value left
in `*rndr_del`. -/
structure UResult where
  ret : Nat
  rewind_p : Nat
  link : List Nat
  rndr_del : Nat
  deriving DecidableEq, Repr

/-- The scanning loop of the username detector; the state is
`(link_end, tilde_count)`, the counter being a `uint8_t`. -/
def username_loop (data : Window) (size : Nat) : Nat → Nat → Nat → Except Fault (Nat × Nat)
  | 0, _, _ => .error .fuel
  | fuel + 1, link_end, tilde_count =>
    if link_end < size then do
      let c ← data.rd link_end
      if isalnum c || c = 95 || c = 45 || c = 126 then
        if c = 126 then username_loop data size fuel (link_end + 1) ((tilde_count + 1) % 256)
        else username_loop data size fuel (link_end + 1) tilde_count
      else .ok (link_end, tilde_count)
    else .ok (link_end, tilde_count)

/-- The test `link_end > 5 && data[link_end-1] == '~' && data[link_end-2] == '~'
&& data[1] == '~' && data[2] == '~'` that sets `*rndr_del = 1`, read left to right. -/
def username_strike (data : Window) (link_end : Nat) : Except Fault Bool :=
  if link_end > 5 then do
    let a ← data.rd (link_end - 1)
    if a ≠ 126 then .ok false
    else do
      let b ← data.rd (link_end - 2)
      if b ≠ 126 then .ok false
      else do
        let c ← data.rd 1
        if c ≠ 126 then .ok false
        else do
          let d ← data.rd 2
          .ok (decide (d = 126))
  else .ok false

def sd_autolink__username (rewind_p : Nat) (link : List Nat) (data : Window)
    (_offset size : Nat) (rndr_del : Nat) : Except Fault UResult := do
  if size < 1 then .ok ⟨0, rewind_p, link, rndr_del⟩
  else do
    let c0 ← data.rd 0
    if c0 ≠ 126 then .ok ⟨0, rewind_p, link, rndr_del⟩
    else do
      let (link_end, tilde_count) ← username_loop data size (size + 1) 1 0
      if tilde_count ≠ 0 && tilde_count ≠ 4 then .ok ⟨0, rewind_p, link, rndr_del⟩
      else do
        let strike ← username_strike data link_end
        let rndr_del := if strike then 1 else rndr_del
        if tilde_count ≠ 0 && rndr_del = 0 then .ok ⟨0, rewind_p, link, rndr_del⟩
        else do
          if rndr_del ≠ 0 then do
            let link ← bufput link (data.add 2) (size_sub link_end 4)
            .ok ⟨link_end, 0, link, rndr_del⟩
          else do
            let link ← bufput link data link_end
            .ok ⟨link_end, 0, link, rndr_del⟩

/-! ## Definitions that follow the specification's words -/

/-- The allow-list of the specification. -/
def allow_list : List String :=
  ["http://", "https://", "ftp://", "mailto://", "/", "git://", "steam://",
   "irc://", "news://", "mumble://", "ssh://", "ircs://", "#"]

/-- The safety test in the specification's words. -/
def scheme_matches (link s : List Nat) : Prop :=
  link.length > s.length ∧ (link.take s.length).map tolower = s.map tolower ∧
    ∃ c, link[s.length]? = some c ∧ (isalnum c = true ∨ c = 35 ∨ c = 47 ∨ c = 63)

/-- The bytes `check_domain` walks over: alphanumeric, `-` and `.`. -/
def domain_byte (c : Nat) : Bool := c = 46 || isalnum c || c = 45

/-- The value `check_domain` computes on a window of `size` bytes. -/
def domain_len (l : List Nat) : Nat :=
  if isalnum (l.headD 0) then
    if (((l.take (l.length - 1)).drop 1).takeWhile domain_byte).count 46 ≠ 0 then
      1 + (((l.take (l.length - 1)).drop 1).takeWhile domain_byte).length
    else 0
  else 0

/-- The bytes at which the trimming loop of `autolink_delim` stops. -/
def stop_byte (c : Nat) : Prop := strchr (bytes "?!.,") c = false ∧ c ≠ 59

/-- The index of the first white-space byte of `l`, or its length. -/
def nonspace_len (l : List Nat) : Nat := (l.takeWhile (fun c => !isspace c)).length

/-- The byte in front of the window exists and is neither punctuation nor white space. -/
def mid_word (data : Window) : Prop :=
  ∃ c, data.before.head? = some c ∧ ispunct c = false ∧ isspace c = false

/-- The conditions under which the WWW detector gives up before trimming. -/
def www_blocked (data : Window) : Prop :=
  mid_word data ∨ data.after.length < 4 ∨ data.after.take 4 ≠ bytes "www." ∨
    domain_len data.after = 0

/-- The bytes a subreddit name is made of after its first byte. -/
def subreddit_byte (c : Nat) : Bool := isalnum c || c = 95 || c = 43

/-- The window starts with `/r/`, compared without regard to ASCII case. -/
def starts_slash_r (l : List Nat) : Prop :=
  (l.take 3).map tolower = (bytes "/r/").map tolower

/-- The bytes of a user name: alphanumeric, `_` and `-`. -/
def name_byte (c : Nat) : Bool := isalnum c || c = 95 || c = 45

/-- The bytes the username detector scans over: those of a name, and `~`. -/
def username_byte (c : Nat) : Bool := isalnum c || c = 95 || c = 45 || c = 126

/-- The bytes the forward scan of the email detector walks over. -/
def email_byte (c : Nat) : Bool := isalnum c || c = 64 || c = 46 || c = 45 || c = 95

/-- What the email and URL detectors return: 0 with the sink and the rewind
output untouched, or a length `n > 0` within the window with a rewind `r`
within the lookbehind and the window bytes `[-r, n)` appended to the sink. -/
def span_result (rewind_p : Nat) (link : List Nat) (data : Window) (res : Result) : Prop :=
  res = ⟨0, rewind_p, link⟩ ∨
    ∃ n r, 0 < n ∧ n ≤ data.after.length ∧ r ≤ data.before.length ∧
      res = ⟨n, r, link ++ ((data.before.take r).reverse ++ data.after.take n)⟩

/-- The sink and the rewind output after a detector call, in the
specification's words: untouched when the detector returns 0; when it returns
`n > 0` with rewind `r`, the sink is the old sink followed by the window bytes
at the relative indices `[-r, n)`. -/
def appends_match (rewind_p : Nat) (link : List Nat) (data : Window) (res : Result) : Prop :=
  (res.ret = 0 → res.link = link ∧ res.rewind_p = rewind_p) ∧
  (0 < res.ret → res.ret ≤ data.size ∧ res.rewind_p ≤ data.offset ∧
    res.link = link ++ ((data.before.take res.rewind_p).reverse ++ data.after.take res.ret))

/-- The scheme names of the allow-list that end in `://`. -/
def scheme_names : List String :=
  ["http", "https", "ftp", "mailto", "git", "steam", "irc", "news", "mumble", "ssh", "ircs"]

/-- The lookbehind bytes of the email detector in the specification's words:
alphanumeric, or one of `.`, `+`, `-`, `_`. -/
def local_part_byte (c : Nat) : Bool := isalnum c || c = 46 || c = 43 || c = 45 || c = 95

/-- Whether the forward scan of the email detector walks over the byte `p.2`
at index `p.1` of a window of `size` bytes: the byte is alphanumeric, `@`, `-`,
`_` or `.`, and it is not a `.` at the last index. -/
def email_go (size : Nat) (p : Nat × Nat) : Bool :=
  email_byte p.2 && !(p.2 == 46 && p.1 == size - 1)

/-- The index at which the forward scan of the email detector stops, in the
specification's words: the first index whose byte is not alphanumeric, `@`,
`-`, `_` or `.`, where a `.` at the last index also stops the scan; the size of
the window when there is none. -/
def email_scan (l : List Nat) : Nat := (l.enum.takeWhile (email_go l.length)).length

/-- The number of `.` bytes at the end of `l`. -/
def trailing_dots (l : List Nat) : Nat := (l.reverse.takeWhile (fun c => c == 46)).length

/-- The strikethrough test of the username detector, read off the window. -/
def strike_cond (l : List Nat) (n : Nat) : Prop :=
  5 < n ∧ l[n - 1]? = some 126 ∧ l[n - 2]? = some 126 ∧ l[1]? = some 126 ∧ l[2]? = some 126

instance (l : List Nat) (n : Nat) : Decidable (strike_cond l n) := by
  unfold strike_cond; infer_instance

/-- The index `i` of the claim about `check_domain`: the least index in
`[1, size - 1)` whose byte is not alphanumeric, `-` or `.`, or `size - 1` when
there is none. -/
def domain_stop (l : List Nat) (i : Nat) : Prop :=
  (1 ≤ i ∧ i < l.length - 1 ∧ domain_byte (l.getD i 0) = false ∧
      ∀ j < i, 1 ≤ j → domain_byte (l.getD j 0) = true) ∨
    (i = l.length - 1 ∧ ∀ j < l.length - 1, 1 ≤ j → domain_byte (l.getD j 0) = true)

instance (l : List Nat) (i : Nat) : Decidable (domain_stop l i) := by
  unfold domain_stop; infer_instance

/-- At least one `.` occurs among the bytes `[1, i)`. -/
def dot_before (l : List Nat) (i : Nat) : Prop := ∃ j < i, 1 ≤ j ∧ l.getD j 0 = 46

instance (l : List Nat) (i : Nat) : Decidable (dot_before l i) := by
  unfold dot_before; infer_instance

/-- The window `d1` continues the window `d2`: both have the same lookbehind,
the bytes of `d2` are the first bytes of `d1`, and the buffer of `d1` fits the
address space. -/
def continues (d1 d2 : Window) : Prop :=
  d1.before = d2.before ∧ d2.after.length ≤ d1.after.length ∧
    (∀ j, j < d2.after.length → d1.after[j]? = d2.after[j]?) ∧
    d1.before.length + d1.after.length < 2 ^ 64

/-- The fuel `f` suffices for the trimming loop at `link_end = l`: `l` is a
length within the window, or a wrapped value above it. -/
def enough (d : Window) (f l : Nat) : Prop :=
  (l ≤ d.after.length ∧ l + d.before.length + 2 < f) ∨
    (d.after.length < l ∧ l < 2 ^ 64 ∧ 0 < f ∧ l + d.before.length + 1 < f + 2 ^ 64)

/-! ## Lemmas: reads, `strncasecmp`, `sd_autolink_issafe` -/

@[simp] theorem ok_bind {α β : Type} (a : α) (f : α → Except Fault β) :
    (Except.ok a >>= f) = f a := rfl

@[simp] theorem error_bind {α β : Type} (e : Fault) (f : α → Except Fault β) :
    (Except.error e >>= f) = Except.error e := rfl

theorem rd_of_lt (w : Window) {i : Nat} (h : i < w.after.length) :
    w.rd i = .ok (w.after[i]) := by
  simp [Window.rd, List.getElem?_eq_getElem h]

theorem rd_wrap_of_lt (w : Window) {i : Nat} (h : i < w.after.length) :
    w.rd_wrap i = .ok (w.after[i]) := by
  unfold Window.rd_wrap
  rw [List.getElem?_eq_getElem h]

theorem rd_of_drop (w : Window) {i c : Nat} {t : List Nat} (h : w.after.drop i = c :: t) :
    w.rd i = .ok c := by
  have : w.after[i]? = some c := by
    have := congrArg List.head? h
    simpa [List.head?_drop] using this
  simp [Window.rd, this]

theorem tolower_eq_zero {c : Nat} (h : tolower c = 0) : c = 0 := by
  unfold tolower at h
  split at h <;> omega

theorem strncasecmp_spec (s1 : Window) :
    ∀ (n i : Nat) (s2 : List Nat), n ≤ s2.length → (∀ c ∈ s2, c ≠ 0) →
      i + n ≤ s1.after.length →
      ∃ d, strncasecmp s1 i s2 n = .ok d ∧
        (d = 0 ↔ ((s1.after.drop i).take n).map tolower = (s2.take n).map tolower) := by
  intro n
  induction n with
  | zero => intro i s2 _ _ _; exact ⟨0, rfl, by simp⟩
  | succ n ih =>
    intro i s2 hlen hnz hi
    obtain ⟨c2, t, rfl⟩ : ∃ c2 t, s2 = c2 :: t := by
      cases s2 with
      | nil => simp at hlen
      | cons c2 t => exact ⟨c2, t, rfl⟩
    have hlt : i < s1.after.length := by omega
    have hdrop : s1.after.drop i = s1.after[i] :: s1.after.drop (i + 1) :=
      List.drop_eq_getElem_cons hlt
    have hrd := rd_of_drop s1 hdrop
    simp only [strncasecmp, hrd, ok_bind, List.headD_cons, List.tail_cons]
    by_cases hne : tolower s1.after[i] = tolower c2
    · have hc2 : c2 ≠ 0 := hnz c2 (by simp)
      have ha : s1.after[i] ≠ 0 := by
        intro h0
        rw [h0] at hne
        exact hc2 (tolower_eq_zero hne.symm)
      obtain ⟨d, hd, hiff⟩ := ih (i + 1) t (by simpa using hlen)
        (fun c hc => hnz c (by simp [hc])) (by omega)
      refine ⟨d, ?_, ?_⟩
      · simp [hne, ha, hd]
      · rw [hiff, hdrop]
        simp only [List.take_succ_cons, List.map_cons, List.cons.injEq, hne, true_and]
    · refine ⟨(tolower s1.after[i] : Int) - (tolower c2 : Int), ?_, ?_⟩
      · simp [hne]
      · rw [hdrop]
        simp only [List.take_succ_cons, List.map_cons, List.cons.injEq, hne, false_and, iff_false]
        omega

theorem issafe_loop_spec (w : Window) (n : Nat) (hn : n ≤ w.after.length) :
    ∀ us : List (List Nat), (∀ u ∈ us, ∀ c ∈ u, c ≠ 0) →
      ∃ b, issafe_loop w n us = .ok b ∧
        (b = true ↔ ∃ u ∈ us, scheme_matches (w.after.take n) u) := by
  intro us
  induction us with
  | nil => intro _; exact ⟨false, rfl, by simp⟩
  | cons u us ih =>
    intro hnz
    obtain ⟨b, hb, hiff⟩ := ih (fun v hv => hnz v (by simp [hv]))
    have hnot : ¬ scheme_matches (w.after.take n) u →
        ((b = true) ↔ ∃ v ∈ u :: us, scheme_matches (w.after.take n) v) := by
      intro hu
      rw [hiff]
      constructor
      · rintro ⟨v, hv, h⟩; exact ⟨v, by simp [hv], h⟩
      · rintro ⟨v, hv, h⟩
        rcases List.mem_cons.1 hv with rfl | hv
        · exact absurd h hu
        · exact ⟨v, hv, h⟩
    by_cases hlen : n > u.length
    · obtain ⟨d, hd, hd0⟩ := strncasecmp_spec w u.length 0 u (le_refl _)
        (hnz u (by simp)) (by omega)
      have hlt : u.length < w.after.length := by omega
      have hrd := rd_of_lt w hlt
      have htake : List.take u.length (List.take n w.after) = List.take u.length w.after := by
        rw [List.take_take]; congr 1; omega
      have hget : (List.take n w.after)[u.length]? = some w.after[u.length] := by
        rw [List.getElem?_take_of_lt hlen, List.getElem?_eq_getElem hlt]
      simp only [List.drop_zero, List.take_length] at hd0
      by_cases hz : d = 0
      · by_cases hc : (isalnum w.after[u.length] || decide (w.after[u.length] = 35) ||
            decide (w.after[u.length] = 47) || decide (w.after[u.length] = 63)) = true
        · refine ⟨true, ?_, ?_⟩
          · simp only [issafe_loop, hlen, if_true, hd, ok_bind, hz, hrd, hc]
          · simp only [true_iff]
            refine ⟨u, by simp, ?_, ?_, w.after[u.length], hget, ?_⟩
            · rw [List.length_take, Nat.min_eq_left hn]; exact hlen
            · rw [htake]; exact hd0.1 hz
            · simpa [or_assoc] using hc
        · refine ⟨b, ?_, hnot ?_⟩
          · simp only [issafe_loop, hlen, if_true, hd, ok_bind, hz, hrd, hc]
            simpa using hb
          · rintro ⟨_, _, c, hc1, hc2⟩
            rw [hget] at hc1
            cases hc1
            exact hc (by simpa [or_assoc] using hc2)
      · refine ⟨b, ?_, hnot ?_⟩
        · simp only [issafe_loop, hlen, if_true, hd, ok_bind, hz]
          simpa using hb
        · rintro ⟨_, h2, _⟩
          rw [htake] at h2
          exact hz (hd0.2 h2)
    · refine ⟨b, ?_, hnot ?_⟩
      · simp only [issafe_loop, hlen]
        simpa using hb
      · rintro ⟨h1, _⟩
        rw [List.length_take, Nat.min_eq_left hn] at h1
        exact hlen h1

theorem valid_uris_nonzero : ∀ u ∈ valid_uris, ∀ c ∈ u, c ≠ 0 := by
  decide

theorem valid_uris_eq : valid_uris = allow_list.map bytes := rfl

/-- C1. `sd_autolink_issafe(link, n)` is true exactly when one of the 13
allow-listed prefixes `s` satisfies: `n > |s|`, the first `|s|` bytes of `link`
equal `s` up to ASCII case, and the byte `link[|s|]` is alphanumeric or one of
`#`, `/`, `?`.  It is true for "HTTP://a" and false for "httpx://". -/
theorem issafe_iff_allow_listed :
    (∀ (link : Window) (n : Nat), n ≤ link.size →
      ∃ b, sd_autolink_issafe link n = .ok b ∧
        (b = true ↔ ∃ s ∈ allow_list, scheme_matches (link.after.take n) (bytes s))) ∧
    sd_autolink_issafe ⟨[], bytes "HTTP://a"⟩ 8 = .ok true ∧
    sd_autolink_issafe ⟨[], bytes "httpx://"⟩ 8 = .ok false := by
  refine ⟨?_, rfl, rfl⟩
  intro link n hn
  obtain ⟨b, hb, hiff⟩ := issafe_loop_spec link n hn valid_uris valid_uris_nonzero
  refine ⟨b, hb, ?_⟩
  rw [hiff, valid_uris_eq]
  simp only [List.mem_map, exists_exists_and_eq_and]

theorem issafe_iff_allow_listed_witness :
    ∃ b, sd_autolink_issafe ⟨[], bytes "HTTP://a"⟩ 8 = .ok b ∧
        (b = true ↔ ∃ s ∈ allow_list,
          scheme_matches ((⟨[], bytes "HTTP://a"⟩ : Window).after.take 8) (bytes s)) :=
  issafe_iff_allow_listed.1 ⟨[], bytes "HTTP://a"⟩ 8 (by decide)

/-! ## Lemmas: the scanning loops -/

theorem rdBack_of_lt (w : Window) {r : Nat} (h : r < w.before.length) :
    w.rdBack r = .ok (w.before[r]) := by
  simp [Window.rdBack, List.getElem?_eq_getElem h]

theorem skip_nonspace_spec (data : Window) :
    ∀ (fuel i : Nat), 0 < fuel → data.after.length < fuel + i →
      skip_nonspace data data.after.length fuel i =
        .ok (i + ((data.after.drop i).takeWhile (fun c => !isspace c)).length) := by
  intro fuel
  induction fuel with
  | zero => intro i h; omega
  | succ f ih =>
    intro i _ hf
    by_cases h : i < data.after.length
    · have hdrop := List.drop_eq_getElem_cons h
      rw [hdrop]
      simp only [skip_nonspace, h, if_true, rd_of_lt data h, ok_bind, List.takeWhile_cons]
      by_cases hp : isspace data.after[i] = true
      · simp [hp]
      · simp only [hp, Bool.not_false, if_true, Bool.false_eq_true, if_false]
        rw [ih (i + 1) (by omega) (by omega)]
        simp only [List.length_cons]
        congr 1; omega
    · rw [List.drop_eq_nil_of_le (by omega)]
      simp [skip_nonspace, h]

theorem subreddit_loop_spec (data : Window) :
    ∀ (fuel i : Nat), 0 < fuel → data.after.length < fuel + i →
      subreddit_loop data data.after.length fuel i =
        .ok (i + ((data.after.drop i).takeWhile
          (fun c => isalnum c || c = 95 || c = 43)).length) := by
  intro fuel
  induction fuel with
  | zero => intro i h; omega
  | succ f ih =>
    intro i _ hf
    by_cases h : i < data.after.length
    · have hdrop := List.drop_eq_getElem_cons h
      rw [hdrop]
      simp only [subreddit_loop, h, if_true, rd_of_lt data h, ok_bind, List.takeWhile_cons]
      by_cases hp : (isalnum data.after[i] || decide (data.after[i] = 95) ||
          decide (data.after[i] = 43)) = true
      · simp only [hp, if_true]
        rw [ih (i + 1) (by omega) (by omega)]
        simp only [List.length_cons]
        congr 1; omega
      · simp [hp]
    · rw [List.drop_eq_nil_of_le (by omega)]
      simp [subreddit_loop, h]

theorem url_rewind_spec (data : Window) :
    ∀ (fuel r : Nat), 0 < fuel → data.before.length < fuel + r →
      url_rewind data data.before.length fuel r =
        .ok (r + ((data.before.drop r).takeWhile isalpha).length) := by
  intro fuel
  induction fuel with
  | zero => intro i h; omega
  | succ f ih =>
    intro i _ hf
    by_cases h : i < data.before.length
    · have hdrop := List.drop_eq_getElem_cons h
      rw [hdrop]
      simp only [url_rewind, h, if_true, rdBack_of_lt data h, ok_bind, List.takeWhile_cons]
      by_cases hp : isalpha data.before[i] = true
      · simp only [hp, if_true]
        rw [ih (i + 1) (by omega) (by omega)]
        simp only [List.length_cons]
        congr 1; omega
      · simp [hp]
    · rw [List.drop_eq_nil_of_le (by omega)]
      simp [url_rewind, h]

theorem email_rewind_spec (data : Window) :
    ∀ (fuel r : Nat), 0 < fuel → data.before.length < fuel + r →
      email_rewind data data.before.length fuel r =
        .ok (r + ((data.before.drop r).takeWhile
          (fun c => isalnum c || strchr (bytes ".+-_") c)).length) := by
  intro fuel
  induction fuel with
  | zero => intro i h; omega
  | succ f ih =>
    intro i _ hf
    by_cases h : i < data.before.length
    · have hdrop := List.drop_eq_getElem_cons h
      rw [hdrop]
      simp only [email_rewind, h, if_true, rdBack_of_lt data h, ok_bind, List.takeWhile_cons]
      by_cases hp : isalnum data.before[i] = true
      · simp only [hp, if_true, Bool.true_or]
        rw [ih (i + 1) (by omega) (by omega)]
        simp only [List.length_cons]
        congr 1; omega
      · by_cases hq : strchr (bytes ".+-_") data.before[i] = true
        · simp only [hp, hq, if_true, Bool.or_true, Bool.false_eq_true, if_false]
          rw [ih (i + 1) (by omega) (by omega)]
          simp only [List.length_cons]
          congr 1; omega
        · simp [hp, hq]
    · rw [List.drop_eq_nil_of_le (by omega)]
      simp [email_rewind, h]

theorem domain_loop_spec (data : Window) (bound : Nat) (hb : bound ≤ data.after.length) :
    ∀ (fuel i np : Nat), bound < fuel + i → 0 < fuel →
      domain_loop data bound fuel i np =
        .ok (i + (((data.after.take bound).drop i).takeWhile domain_byte).length,
             np + (((data.after.take bound).drop i).takeWhile domain_byte).count 46) := by
  intro fuel
  induction fuel with
  | zero => intro i np h; omega
  | succ f ih =>
    intro i np hf _
    by_cases h : i < bound
    · have hlt : i < data.after.length := by omega
      have hlt2 : i < (data.after.take bound).length := by
        rw [List.length_take]; omega
      have hdrop := List.drop_eq_getElem_cons hlt2
      have hget : (data.after.take bound)[i] = data.after[i] := by
        simp [List.getElem_take]
      rw [hdrop, hget]
      simp only [domain_loop, h, if_true, rd_of_lt data hlt, ok_bind, List.takeWhile_cons]
      by_cases h46 : data.after[i] = 46
      · have hd : domain_byte data.after[i] = true := by simp [domain_byte, h46]
        rw [if_pos h46, hd, ih (i + 1) (np + 1) (by omega) (by omega)]
        simp only [if_true, List.length_cons, h46, List.count_cons_self]
        have e1 : ∀ x : Nat, i + 1 + x = i + (x + 1) := fun x => by omega
        have e2 : ∀ x : Nat, np + 1 + x = np + (x + 1) := fun x => by omega
        rw [e1, e2]
      · rw [if_neg h46]
        by_cases hd : domain_byte data.after[i] = true
        · have hc : ¬ ((!isalnum data.after[i] && decide (data.after[i] ≠ 45)) = true) := by
            simp only [domain_byte, h46, decide_False, Bool.false_or, Bool.or_eq_true,
              decide_eq_true_eq] at hd
            rcases hd with hd | hd <;> simp [hd]
          rw [if_neg hc, hd, ih (i + 1) np (by omega) (by omega)]
          simp only [if_true, List.length_cons, List.count_cons_of_ne (Ne.symm h46)]
          have e1 : ∀ x : Nat, i + 1 + x = i + (x + 1) := fun x => by omega
          rw [e1]
        · have hc : (!isalnum data.after[i] && decide (data.after[i] ≠ 45)) = true := by
            simp only [domain_byte, h46, decide_False, Bool.false_or, Bool.or_eq_true,
              decide_eq_true_eq, not_or] at hd
            simp [hd.1, hd.2]
          rw [if_pos hc]
          simp [hd]
    · have hnil : List.drop i (List.take bound data.after) = [] :=
        List.drop_eq_nil_of_le (by rw [List.length_take]; omega)
      rw [hnil]
      simp [domain_loop, h]

theorem size_sub_of_le {a b : Nat} (h : b ≤ a) : size_sub a b = a - b := by
  simp [size_sub, h]

theorem check_domain_spec (data : Window) (h : 0 < data.after.length) :
    check_domain data data.after.length = .ok (domain_len data.after) := by
  obtain ⟨a, t, hl⟩ : ∃ a t, data.after = a :: t := by
    cases hl : data.after with
    | nil => simp [hl] at h
    | cons a t => exact ⟨a, t, rfl⟩
  have h0 : data.rd 0 = .ok a := rd_of_drop data (by simpa using hl)
  unfold check_domain
  rw [h0, size_sub_of_le (by omega)]
  simp only [ok_bind]
  rw [domain_loop_spec data (data.after.length - 1) (by omega) _ 1 0 (by omega)
        (by omega)]
  unfold domain_len
  simp only [hl, List.headD_cons, ok_bind, Nat.zero_add]
  by_cases ha : isalnum a = true
  · simp only [ha, Bool.not_true, Bool.false_eq_true, if_false, if_true]
    split <;> rfl
  · simp [ha]

/-! ## Lemmas: `autolink_delim` -/

theorem delim_lt_spec (data : Window) (link_end : Nat) (hle : link_end ≤ data.after.length) :
    ∀ (fuel i : Nat), i ≤ link_end → link_end < fuel + i →
      delim_lt data link_end fuel i =
        .ok (i + (((data.after.take link_end).drop i).takeWhile (fun c => c ≠ 60)).length) := by
  intro fuel
  induction fuel with
  | zero => intro i h1 h2; omega
  | succ f ih =>
    intro i hi hf
    by_cases h : i < link_end
    · have hlt : i < data.after.length := by omega
      have hlt2 : i < (data.after.take link_end).length := by
        rw [List.length_take]; omega
      have hdrop := List.drop_eq_getElem_cons hlt2
      have hget : (data.after.take link_end)[i] = data.after[i] := by
        simp [List.getElem_take]
      rw [hdrop, hget]
      simp only [delim_lt, h, if_true, rd_of_lt data hlt, ok_bind, List.takeWhile_cons]
      by_cases h60 : data.after[i] = 60
      · simp [h60]
      · rw [if_neg h60, ih (i + 1) (by omega) (by omega)]
        simp only [ne_eq, h60, not_false_eq_true, decide_True, if_true, List.length_cons]
        have e1 : ∀ x : Nat, i + 1 + x = i + (x + 1) := fun x => by omega
        rw [e1]
    · have hnil : List.drop i (List.take link_end data.after) = [] :=
        List.drop_eq_nil_of_le (by rw [List.length_take]; omega)
      rw [hnil]
      simp only [delim_lt, h, if_false, List.takeWhile_nil, List.length_nil]
      congr 1; omega

theorem delim_back_spec (data : Window) :
    ∀ n : Nat, n = 0 ∨ n < data.after.length →
      ∃ r, delim_back data n = .ok r ∧ r ≤ n ∧
        (∀ j, r < j → j ≤ n → ∃ c, data.after[j]? = some c ∧ isalpha c = true) ∧
        (r ≠ 0 → ∃ c, data.after[r]? = some c ∧ isalpha c = false) := by
  intro n
  induction n with
  | zero =>
    intro _
    exact ⟨0, rfl, le_refl _, fun j h1 h2 => by omega, fun h => absurd rfl h⟩
  | succ n ih =>
    intro hn
    have hlt : n + 1 < data.after.length := by omega
    have hget := List.getElem?_eq_getElem hlt
    simp only [delim_back, rd_wrap_of_lt data hlt, ok_bind]
    by_cases ha : isalpha data.after[n + 1] = true
    · obtain ⟨r, hr, hle, hall, hstop⟩ := ih (by omega)
      refine ⟨r, by simp [ha, hr], by omega, ?_, hstop⟩
      intro j hj1 hj2
      by_cases hj : j = n + 1
      · subst hj; exact ⟨_, hget, ha⟩
      · exact hall j hj1 (by omega)
    · refine ⟨n + 1, by simp [ha], le_refl _, fun j h1 h2 => by omega, fun _ => ?_⟩
      exact ⟨_, hget, by simpa using ha⟩

theorem delim_loop_spec (data : Window) (h59 : data.after.head? ≠ some 59) :
    ∀ (fuel link_end : Nat), link_end < fuel → link_end ≤ data.after.length →
      ∃ r, delim_loop data fuel link_end = .ok r ∧ r ≤ link_end ∧
        (∀ m, 0 < m → m ≤ link_end →
          (∃ c, data.after[m - 1]? = some c ∧ stop_byte c) →
          (∀ j, j < m → data.after[j]? ≠ some 38) → m ≤ r) ∧
        (r = 0 ∨ ∃ c, data.after[r - 1]? = some c ∧ stop_byte c) := by
  intro fuel
  induction fuel with
  | zero => intro l h; omega
  | succ f ih =>
    intro l hf hl
    by_cases h0 : l > 0
    · have hlt : l - 1 < data.after.length := by omega
      have hget := List.getElem?_eq_getElem hlt
      simp only [delim_loop, h0, if_true, rd_wrap_of_lt data hlt, ok_bind]
      by_cases hs : strchr (bytes "?!.,") data.after[l - 1] = true
      · obtain ⟨r, hr, hle, hlow, hend⟩ := ih (l - 1) (by omega) (by omega)
        refine ⟨r, by simp [hs, hr], by omega, ?_, hend⟩
        intro m hm0 hm hstop hamp
        have hne : m ≠ l := by
          rintro rfl
          obtain ⟨c, hc, hc1, _⟩ := hstop
          rw [hget] at hc; cases hc
          rw [hs] at hc1; cases hc1
        exact hlow m hm0 (by omega) hstop hamp
      · rw [if_neg hs]
        by_cases hsemi : data.after[l - 1] = 59
        · rw [if_pos hsemi]
          have hl2 : 2 ≤ l := by
            by_contra hcon
            have hl1 : l = 1 := by omega
            subst hl1
            apply h59
            have : data.after[0]? = some 59 := by
              rw [← hsemi]; exact hget
            rw [List.head?_eq_getElem?]; exact this
          rw [size_sub_of_le hl2]
          obtain ⟨ne, hne, hnle, hnall, hnstop⟩ := delim_back_spec data (l - 2) (by omega)
          rw [hne]
          simp only [ok_bind]
          have hnotl : ∀ m, 0 < m → m ≤ l →
              (∃ c, data.after[m - 1]? = some c ∧ stop_byte c) → m ≤ l - 1 := by
            intro m hm0 hm hstop
            have hne : m ≠ l := by
              rintro rfl
              obtain ⟨c, hc, _, hc2⟩ := hstop
              rw [hget] at hc; cases hc
              exact hc2 hsemi
            omega
          by_cases hlt2 : ne < l - 2
          · have hnlt : ne < data.after.length := by omega
            rw [if_pos hlt2, rd_wrap_of_lt data hnlt]
            simp only [ok_bind]
            by_cases hamp : data.after[ne] = 38
            · rw [if_pos hamp]
              obtain ⟨r, hr, hle, hlow, hend⟩ := ih ne (by omega) (by omega)
              refine ⟨r, hr, by omega, ?_, hend⟩
              intro m hm0 hm hstop hno
              have : m ≤ ne := by
                by_contra hcon
                apply hno ne (by omega)
                rw [List.getElem?_eq_getElem hnlt, hamp]
              exact hlow m hm0 this hstop hno
            · rw [if_neg hamp]
              obtain ⟨r, hr, hle, hlow, hend⟩ := ih (l - 1) (by omega) (by omega)
              refine ⟨r, hr, by omega, ?_, hend⟩
              intro m hm0 hm hstop hno
              exact hlow m hm0 (hnotl m hm0 hm hstop) hstop hno
          · rw [if_neg hlt2]
            obtain ⟨r, hr, hle, hlow, hend⟩ := ih (l - 1) (by omega) (by omega)
            refine ⟨r, hr, by omega, ?_, hend⟩
            intro m hm0 hm hstop hno
            exact hlow m hm0 (hnotl m hm0 hm hstop) hstop hno
        · rw [if_neg hsemi]
          refine ⟨l, rfl, le_refl _, fun m _ hm _ _ => hm, Or.inr ⟨_, hget, ?_, hsemi⟩⟩
          simpa using hs
    · refine ⟨l, by simp [delim_loop, h0], le_refl _, fun m _ hm _ _ => hm, Or.inl (by omega)⟩

theorem delim_count_spec (data : Window) (link_end copen cclose : Nat)
    (hle : link_end ≤ data.after.length) :
    ∀ (fuel i o c : Nat), 0 < fuel → link_end < fuel + i →
      delim_count data link_end copen cclose fuel i o c =
        .ok (o + ((data.after.take link_end).drop i).count copen,
             c + ((data.after.take link_end).drop i).countP
               (fun x => decide (x ≠ copen) && decide (x = cclose))) := by
  intro fuel
  induction fuel with
  | zero => intro i o c h; omega
  | succ f ih =>
    intro i o c _ hf
    by_cases h : i < link_end
    · have hlt : i < data.after.length := by omega
      have hlt2 : i < (data.after.take link_end).length := by
        rw [List.length_take]; omega
      have hdrop := List.drop_eq_getElem_cons hlt2
      have hget : (data.after.take link_end)[i] = data.after[i] := by
        simp [List.getElem_take]
      rw [hdrop, hget]
      simp only [delim_count, h, if_true, rd_wrap_of_lt data hlt, ok_bind]
      by_cases ho : data.after[i] = copen
      · rw [if_pos ho, ih (i + 1) (o + 1) c (by omega) (by omega)]
        rw [← ho, List.count_cons_self, List.countP_cons_of_neg]
        · have e1 : ∀ x : Nat, o + 1 + x = o + (x + 1) := fun x => by omega
          rw [e1]
        · simp
      · rw [if_neg ho]
        by_cases hc : data.after[i] = cclose
        · rw [if_pos hc, ih (i + 1) o (c + 1) (by omega) (by omega)]
          rw [List.count_cons_of_ne (Ne.symm ho), List.countP_cons_of_pos]
          · have e1 : ∀ x : Nat, c + 1 + x = c + (x + 1) := fun x => by omega
            rw [e1]
          · simpa using ⟨ho, hc⟩
        · rw [if_neg hc, ih (i + 1) o c (by omega) (by omega)]
          rw [List.count_cons_of_ne (Ne.symm ho), List.countP_cons_of_neg]
          simp [hc]
    · have hnil : List.drop i (List.take link_end data.after) = [] :=
        List.drop_eq_nil_of_le (by rw [List.length_take]; omega)
      rw [hnil]
      simp [delim_count, h]

theorem le_length_takeWhile (p : Nat → Bool) :
    ∀ (L : List Nat) (m : Nat), m ≤ L.length →
      (∀ j, j < m → ∃ c, L[j]? = some c ∧ p c = true) → m ≤ (L.takeWhile p).length := by
  intro L
  induction L with
  | nil => intro m hm _; simpa using hm
  | cons a t ih =>
    intro m hm h
    cases m with
    | zero => omega
    | succ m =>
      obtain ⟨c, hc, hp⟩ := h 0 (by omega)
      simp only [List.getElem?_cons_zero, Option.some.injEq] at hc
      subst hc
      simp only [List.takeWhile_cons, hp, if_true, List.length_cons]
      have := ih m (by simpa using hm) (fun j hj => by
        have := h (j + 1) (by omega)
        simpa using this)
      omega

theorem stop_byte_of_copen {c : Nat} (h : copen_of c ≠ 0) : stop_byte c := by
  unfold copen_of at h
  unfold stop_byte
  split at h
  · subst c; decide
  · split at h
    · subst c; decide
    · split at h
      · subst c; decide
      · split at h
        · subst c; decide
        · split at h
          · subst c; decide
          · exact absurd rfl h

theorem autolink_delim_spec (data : Window) (link_end o s : Nat)
    (hle : link_end ≤ data.after.length) (h59 : data.after.head? ≠ some 59) :
    ∃ r, autolink_delim data link_end o s = .ok r ∧ r ≤ link_end ∧
      (∀ m, 0 < m → m ≤ link_end →
        (∃ c, data.after[m - 1]? = some c ∧ stop_byte c ∧ copen_of c = 0) →
        (∀ j, j < m → data.after[j]? ≠ some 38 ∧ data.after[j]? ≠ some 60) → m ≤ r) := by
  have h1 := delim_lt_spec data link_end hle (link_end + 1) 0 (by omega) (by omega)
  simp only [Nat.zero_add, List.drop_zero] at h1
  have hl1 : ((data.after.take link_end).takeWhile (fun c => decide (c ≠ 60))).length
      ≤ link_end := by
    have := (List.takeWhile_sublist (l := data.after.take link_end)
      (fun c => decide (c ≠ 60))).length_le
    rw [List.length_take] at this
    omega
  have hm1 : ∀ m, m ≤ link_end → (∀ j, j < m → data.after[j]? ≠ some 60) →
      m ≤ ((data.after.take link_end).takeWhile (fun c => decide (c ≠ 60))).length := by
    intro m hm hno
    apply le_length_takeWhile
    · rw [List.length_take]; omega
    · intro j hj
      have hjl : j < data.after.length := by omega
      refine ⟨data.after[j], ?_, ?_⟩
      · rw [List.getElem?_take_of_lt (by omega), List.getElem?_eq_getElem hjl]
      · have := hno j hj
        rw [List.getElem?_eq_getElem hjl] at this
        simpa using this
  generalize ((data.after.take link_end).takeWhile (fun c => decide (c ≠ 60))).length = l1
    at h1 hl1 hm1
  obtain ⟨r1, hr1, hle1, hlow1, _⟩ := delim_loop_spec data h59 (l1 + data.before.length + 3) l1
    (by omega) (by omega)
  unfold autolink_delim
  rw [h1]
  simp only [ok_bind]
  rw [hr1]
  simp only [ok_bind]
  have hlow : ∀ m, 0 < m → m ≤ link_end →
      (∃ c, data.after[m - 1]? = some c ∧ stop_byte c ∧ copen_of c = 0) →
      (∀ j, j < m → data.after[j]? ≠ some 38 ∧ data.after[j]? ≠ some 60) → m ≤ r1 := by
    intro m hm0 hm hstop hno
    obtain ⟨c, hc, hsb, _⟩ := hstop
    exact hlow1 m hm0 (hm1 m hm (fun j hj => (hno j hj).2)) ⟨c, hc, hsb⟩
      (fun j hj => (hno j hj).1)
  by_cases hz : r1 = 0
  · subst hz
    refine ⟨0, by simp, by omega, ?_⟩
    intro m hm0 hm hstop hno
    have := hlow m hm0 hm hstop hno
    omega
  · have hlt : r1 - 1 < data.after.length := by omega
    rw [if_neg hz, rd_wrap_of_lt data hlt]
    simp only [ok_bind]
    by_cases hco : copen_of data.after[r1 - 1] = 0
    · refine ⟨r1, by simp [hco], by omega, hlow⟩
    · rw [if_pos hco, delim_count_spec data r1 _ _ (by omega) (r1 + 1) 0 0 0 (by omega)
        (by omega)]
      simp only [ok_bind, Nat.zero_add, List.drop_zero]
      have hlow' : ∀ m, 0 < m → m ≤ link_end →
          (∃ c, data.after[m - 1]? = some c ∧ stop_byte c ∧ copen_of c = 0) →
          (∀ j, j < m → data.after[j]? ≠ some 38 ∧ data.after[j]? ≠ some 60) →
          m ≤ r1 - 1 := by
        intro m hm0 hm hstop hno
        have h2 := hlow m hm0 hm hstop hno
        have hne : m ≠ r1 := by
          rintro rfl
          obtain ⟨c, hc, _, hc0⟩ := hstop
          rw [List.getElem?_eq_getElem hlt] at hc
          cases hc
          exact hco hc0
        omega
      split
      · exact ⟨r1 - 1, rfl, by omega, hlow'⟩
      · exact ⟨r1, rfl, by omega, hlow⟩

/-! ## Lemmas: the WWW detector -/

theorem domain_byte_not_space {c : Nat} (h : domain_byte c = true) : isspace c = false := by
  simp only [domain_byte, isalnum, isalpha, isupper, islower, isdigit, Bool.or_eq_true,
    decide_eq_true_eq, Bool.and_eq_true] at h
  simp only [isspace, Bool.or_eq_false_iff, beq_eq_false_iff_ne, ne_eq, Bool.and_eq_false_iff,
    decide_eq_false_iff_not]
  omega

theorem isalnum_domain_byte {c : Nat} (h : isalnum c = true) : domain_byte c = true := by
  simp [domain_byte, h]

theorem takeWhile_length_split (p : Nat → Bool) (l : List Nat) (d : Nat)
    (h : ∀ a ∈ l.take d, p a = true) :
    (l.takeWhile p).length = (l.take d).length + ((l.drop d).takeWhile p).length := by
  conv_lhs => rw [← List.take_append_drop d l]
  rw [List.takeWhile_append_of_pos h, List.length_append]

theorem domain_len_run (l : List Nat) (h : domain_len l ≠ 0) :
    domain_len l < l.length ∧ ∀ a ∈ l.take (domain_len l), domain_byte a = true := by
  unfold domain_len at h ⊢
  cases l with
  | nil => simp [isalnum, isalpha, isupper, islower, isdigit] at h
  | cons a t =>
    simp only [List.headD_cons, List.length_cons, Nat.add_sub_cancel] at h ⊢
    by_cases ha : isalnum a = true
    · rw [if_pos ha] at h ⊢
      by_cases hc : List.count 46 (List.takeWhile domain_byte
          (List.drop 1 (List.take t.length (a :: t)))) = 0
      · rw [if_neg (not_not.2 hc)] at h
        exact absurd rfl h
      · rw [if_pos hc]
        cases t with
        | nil => simp at hc
        | cons b t' =>
          simp only [List.length_cons, List.take_succ_cons, List.drop_succ_cons, List.drop_zero]
          have hsub := (List.takeWhile_prefix (l := List.take t'.length (b :: t')) domain_byte)
          have hlen := hsub.length_le
          rw [List.length_take] at hlen
          simp only [List.length_cons] at hlen
          refine ⟨by omega, ?_⟩
          intro x hx
          rw [Nat.add_comm 1, List.take_succ_cons] at hx
          rcases List.mem_cons.1 hx with rfl | hx
          · exact isalnum_domain_byte ha
          · have hpre : List.takeWhile domain_byte (List.take t'.length (b :: t')) <+: (b :: t') :=
              hsub.trans (List.take_prefix _ _)
            have := List.prefix_iff_eq_take.1 hpre
            rw [← this] at hx
            exact List.mem_takeWhile_imp hx
    · rw [if_neg ha] at h
      exact absurd rfl h

theorem skip_after_domain (l : List Nat) (h : domain_len l ≠ 0) :
    domain_len l + ((l.drop (domain_len l)).takeWhile (fun c => !isspace c)).length =
      nonspace_len l := by
  obtain ⟨hlt, hall⟩ := domain_len_run l h
  unfold nonspace_len
  rw [takeWhile_length_split (fun c => !isspace c) l (domain_len l)
    (fun a ha => by simp [domain_byte_not_space (hall a ha)])]
  rw [List.length_take, Nat.min_eq_left (by omega)]

theorem nonspace_len_le (l : List Nat) : nonspace_len l ≤ l.length :=
  (List.takeWhile_sublist _).length_le

theorem append_of_take_eq {l p : List Nat} (h : l.take p.length = p) :
    ∃ rest, l = p ++ rest :=
  ⟨l.drop p.length, by conv_lhs => rw [← List.take_append_drop p.length l, h]⟩

theorem mid_word_eval (data : Window) :
    ∃ b, www_mid_word data data.before.length = .ok b ∧ (b = true ↔ mid_word data) := by
  unfold mid_word www_mid_word
  cases hb : data.before with
  | nil => exact ⟨false, by simp, by simp⟩
  | cons c t =>
    have hrd : data.rdBack 0 = .ok c := by simp [Window.rdBack, hb]
    refine ⟨!ispunct c && !isspace c, by simp [hrd], ?_⟩
    simp

theorem www_cases (rewind_p : Nat) (link : List Nat) (data : Window) :
    ∃ res, sd_autolink__www rewind_p link data data.before.length data.after.length = .ok res ∧
      ((www_blocked data ∧ res = ⟨0, rewind_p, link⟩) ∨
       (¬ www_blocked data ∧
          ∃ n, autolink_delim data (nonspace_len data.after) data.before.length
                 data.after.length = .ok n ∧
            3 ≤ n ∧ n ≤ nonspace_len data.after ∧
            res = ⟨int_cast n, 0, link ++ data.after.take n⟩)) := by
  obtain ⟨b, hb, hbiff⟩ := mid_word_eval data
  unfold sd_autolink__www
  rw [hb]
  simp only [ok_bind]
  by_cases hmid : b = true
  · rw [if_pos hmid]
    exact ⟨_, rfl, Or.inl ⟨Or.inl (hbiff.1 hmid), rfl⟩⟩
  rw [if_neg hmid]
  by_cases hsz : data.after.length < 4
  · rw [if_pos hsz]
    exact ⟨_, rfl, Or.inl ⟨Or.inr (Or.inl hsz), rfl⟩⟩
  rw [if_neg hsz]
  have hmem : memcmp_eq data (bytes "www.") 4 = .ok (data.after.take 4 == bytes "www.") := by
    unfold memcmp_eq Window.size
    rw [if_pos (by omega)]
    rfl
  rw [hmem]
  simp only [ok_bind]
  by_cases hw : data.after.take 4 = bytes "www."
  swap
  · have : (data.after.take 4 == bytes "www.") = false := by simpa using hw
    rw [this]
    exact ⟨_, rfl, Or.inl ⟨Or.inr (Or.inr (Or.inl hw)), rfl⟩⟩
  have hbeq : (data.after.take 4 == bytes "www.") = true := by simpa using hw
  rw [hbeq, check_domain_spec data (by omega)]
  simp only [Bool.not_true, Bool.false_eq_true, if_false, ok_bind]
  by_cases hd : domain_len data.after = 0
  · rw [if_pos hd]
    exact ⟨_, rfl, Or.inl ⟨Or.inr (Or.inr (Or.inr hd)), rfl⟩⟩
  rw [if_neg hd, skip_nonspace_spec data _ _ (by omega) (by omega), skip_after_domain _ hd]
  simp only [ok_bind]
  obtain ⟨rest, hrest⟩ := append_of_take_eq (p := bytes "www.") hw
  have hrest' : data.after = 119 :: 119 :: 119 :: 46 :: rest := hrest
  have h59 : data.after.head? ≠ some 59 := by rw [hrest']; simp
  have he4 : 4 ≤ nonspace_len data.after := by
    unfold nonspace_len
    rw [hrest']
    simp [isspace]
  obtain ⟨n, hn, hle, hlow⟩ := autolink_delim_spec data (nonspace_len data.after)
    data.before.length data.after.length (nonspace_len_le _) h59
  have h3 : 3 ≤ n := by
    apply hlow 3 (by omega) (by omega)
    · refine ⟨119, by rw [hrest']; rfl, by unfold stop_byte; decide, by decide⟩
    · intro j hj
      rw [hrest']
      have : j = 0 ∨ j = 1 ∨ j = 2 := by omega
      rcases this with rfl | rfl | rfl <;> simp
  rw [hn]
  simp only [ok_bind]
  rw [if_neg (by omega)]
  have hput : bufput link data n = .ok (link ++ data.after.take n) := by
    unfold bufput Window.size
    rw [if_pos (le_trans hle (nonspace_len_le _))]
  rw [hput]
  refine ⟨_, rfl, Or.inr ⟨?_, n, rfl, h3, hle, rfl⟩⟩
  rintro (h | h | h | h)
  · exact hmid (hbiff.2 h)
  · exact hsz h
  · exact h hw
  · exact hd h

/-! ## Lemmas: the subreddit detector -/

theorem strncasecmp_r (data : Window) (h : 3 ≤ data.after.length) :
    ∃ d, strncasecmp data 0 (bytes "/r/") 3 = .ok d ∧ (d = 0 ↔ starts_slash_r data.after) := by
  obtain ⟨d, hd, hiff⟩ := strncasecmp_spec data 3 0 (bytes "/r/") (by decide) (by decide)
    (by omega)
  exact ⟨d, hd, by simpa [starts_slash_r] using hiff⟩

theorem subreddit_short (rewind_p : Nat) (link : List Nat) (data : Window) (o : Nat)
    (h : data.after.length < 3 ∨ (3 ≤ data.after.length ∧ ¬ starts_slash_r data.after)) :
    sd_autolink__subreddit rewind_p link data o data.after.length =
      .ok ⟨0, rewind_p, link⟩ := by
  unfold sd_autolink__subreddit
  rcases h with h | ⟨h3, hp⟩
  · rw [if_pos h]
  · rw [if_neg (by omega)]
    obtain ⟨d, hd, hiff⟩ := strncasecmp_r data h3
    rw [hd]
    simp only [ok_bind]
    rw [if_pos (fun h0 => hp (hiff.1 h0))]

theorem subreddit_three (rewind_p : Nat) (link : List Nat) (data : Window) (o : Nat)
    (h3 : data.after.length = 3) (hp : starts_slash_r data.after) :
    sd_autolink__subreddit rewind_p link data o data.after.length = .error .oob := by
  unfold sd_autolink__subreddit
  rw [if_neg (by omega)]
  obtain ⟨d, hd, hiff⟩ := strncasecmp_r data (by omega)
  rw [hd]
  simp only [ok_bind]
  rw [if_neg (not_not.2 (hiff.2 hp))]
  have : data.rd 3 = .error .oob := by
    unfold Window.rd
    rw [List.getElem?_eq_none (by omega)]
  rw [this]
  rfl

theorem subreddit_long (rewind_p : Nat) (link : List Nat) (data : Window) (o : Nat)
    (c : Nat) (hc : data.after[3]? = some c) (hp : starts_slash_r data.after) :
    sd_autolink__subreddit rewind_p link data o data.after.length =
      .ok (if isalnum c then
            ⟨3 + ((data.after.drop 3).takeWhile subreddit_byte).length, 0,
              link ++ data.after.take (3 + ((data.after.drop 3).takeWhile subreddit_byte).length)⟩
          else ⟨0, rewind_p, link⟩) := by
  have h4 : 3 < data.after.length := by
    by_contra hcon
    rw [List.getElem?_eq_none (by omega)] at hc
    cases hc
  have hc' : data.after[3] = c := by
    rw [List.getElem?_eq_getElem h4] at hc
    exact Option.some.inj hc
  unfold sd_autolink__subreddit
  rw [if_neg (by omega)]
  obtain ⟨d, hd, hiff⟩ := strncasecmp_r data (by omega)
  rw [hd]
  simp only [ok_bind]
  rw [if_neg (not_not.2 (hiff.2 hp)), rd_of_lt data h4, hc']
  simp only [ok_bind]
  by_cases ha : isalnum c = true
  · have hsb : subreddit_byte c = true := by simp [subreddit_byte, ha]
    have hrun : ((data.after.drop 3).takeWhile subreddit_byte).length =
        1 + ((data.after.drop 4).takeWhile subreddit_byte).length := by
      rw [List.drop_eq_getElem_cons h4, hc', List.takeWhile_cons, hsb]
      simp only [if_true, List.length_cons]
      exact Nat.add_comm _ _
    have hle : 3 + ((data.after.drop 3).takeWhile subreddit_byte).length ≤ data.after.length := by
      have := (List.takeWhile_sublist (l := data.after.drop 3) subreddit_byte).length_le
      rw [List.length_drop] at this
      omega
    have hloop := subreddit_loop_spec data (data.after.length + 1) 4 (by omega) (by omega)
    simp only [ha, Bool.not_true, Bool.false_eq_true, if_false, if_true]
    rw [show (3 : Nat) + 1 = 4 from rfl, show (fun c => isalnum c || decide (c = 95) ||
      decide (c = 43)) = subreddit_byte from rfl] at *
    rw [hloop]
    simp only [ok_bind]
    rw [show 4 + ((data.after.drop 4).takeWhile subreddit_byte).length =
        3 + ((data.after.drop 3).takeWhile subreddit_byte).length by omega]
    unfold bufput Window.size
    rw [if_pos hle]
    rfl
  · simp [ha]

/-- C8. On a window of at least 4 bytes that starts with `/r/` (any ASCII case)
and whose byte 3 is alphanumeric, the subreddit detector returns `3 + m`, where
`m ≥ 1` is the length of the longest run from index 3 of alphanumeric bytes,
`_` and `+` (within the window); the rewind is 0 and the sink receives the
window bytes `[0, 3 + m)` unchanged, with no trimming.  On every other window
of at least 4 bytes it returns 0 and leaves the sink and the rewind alone. -/
theorem subreddit_matches_name (rewind_p : Nat) (link : List Nat) (data : Window)
    (h4 : 4 ≤ data.size) :
    ((starts_slash_r data.after ∧ ∃ c, data.after[3]? = some c ∧ isalnum c = true) →
      1 ≤ ((data.after.drop 3).takeWhile subreddit_byte).length ∧
      3 + ((data.after.drop 3).takeWhile subreddit_byte).length ≤ data.size ∧
      sd_autolink__subreddit rewind_p link data data.offset data.size =
        .ok ⟨3 + ((data.after.drop 3).takeWhile subreddit_byte).length, 0,
          link ++ data.after.take
            (3 + ((data.after.drop 3).takeWhile subreddit_byte).length)⟩) ∧
    (¬ (starts_slash_r data.after ∧ ∃ c, data.after[3]? = some c ∧ isalnum c = true) →
      sd_autolink__subreddit rewind_p link data data.offset data.size =
        .ok ⟨0, rewind_p, link⟩) := by
  unfold Window.size at h4
  have h3 : 3 < data.after.length := by omega
  have hget : data.after[3]? = some data.after[3] := List.getElem?_eq_getElem h3
  constructor
  · rintro ⟨hp, c, hc, ha⟩
    have hcc : data.after[3] = c := by
      rw [hget] at hc; exact Option.some.inj hc
    have hrun : 1 ≤ ((data.after.drop 3).takeWhile subreddit_byte).length := by
      rw [List.drop_eq_getElem_cons h3, hcc, List.takeWhile_cons]
      simp [subreddit_byte, ha]
    have hle : 3 + ((data.after.drop 3).takeWhile subreddit_byte).length
        ≤ data.after.length := by
      have := (List.takeWhile_sublist (l := data.after.drop 3) subreddit_byte).length_le
      rw [List.length_drop] at this
      omega
    refine ⟨hrun, hle, ?_⟩
    have := subreddit_long rewind_p link data data.offset c hc hp
    rw [if_pos ha] at this
    exact this
  · intro hno
    by_cases hp : starts_slash_r data.after
    · have := subreddit_long rewind_p link data data.offset _ hget hp
      rw [if_neg (fun ha => hno ⟨hp, _, hget, ha⟩)] at this
      exact this
    · exact subreddit_short rewind_p link data data.offset (Or.inr ⟨by omega, hp⟩)

theorem subreddit_matches_name_witness :
    4 ≤ (⟨[], bytes "/r/programming!"⟩ : Window).size ∧
    sd_autolink__subreddit 0 [] ⟨[], bytes "/r/programming!"⟩ 0 15 =
      .ok ⟨14, 0, bytes "/r/programming"⟩ :=
  ⟨by decide,
   ((subreddit_matches_name 0 [] ⟨[], bytes "/r/programming!"⟩ (by decide)).1
      ⟨rfl, 112, rfl, rfl⟩).2.2⟩

/-- C4 (failing input). On the three-byte window `/r/` the subreddit detector
reads `data[3]`, one byte past the window. -/
theorem subreddit_reads_past_three_bytes :
    sd_autolink__subreddit 0 [] ⟨[], bytes "/r/"⟩ 0 3 = .error .oob := rfl

/-! ## Lemmas: the username detector -/

theorem username_loop_spec (data : Window) :
    ∀ (fuel i tc : Nat), 0 < fuel → data.after.length < fuel + i → tc < 256 →
      username_loop data data.after.length fuel i tc =
        .ok (i + ((data.after.drop i).takeWhile username_byte).length,
             (tc + ((data.after.drop i).takeWhile username_byte).count 126) % 256) := by
  intro fuel
  induction fuel with
  | zero => intro i tc h; omega
  | succ f ih =>
    intro i tc _ hf htc
    by_cases h : i < data.after.length
    · have hdrop := List.drop_eq_getElem_cons h
      rw [hdrop]
      simp only [username_loop, h, if_true, rd_of_lt data h, ok_bind, List.takeWhile_cons]
      by_cases hp : username_byte data.after[i] = true
      · have hp' : (isalnum data.after[i] || decide (data.after[i] = 95) ||
            decide (data.after[i] = 45) || decide (data.after[i] = 126)) = true := hp
        rw [if_pos hp', hp]
        simp only [if_true, List.length_cons]
        have e1 : ∀ x : Nat, i + 1 + x = i + (x + 1) := fun x => by omega
        by_cases ht : data.after[i] = 126
        · rw [if_pos ht, ih (i + 1) _ (by omega) (by omega) (Nat.mod_lt _ (by omega))]
          rw [ht, List.count_cons_self, e1]
          congr 2
          omega
        · rw [if_neg ht, ih (i + 1) _ (by omega) (by omega) htc]
          rw [List.count_cons_of_ne (Ne.symm ht), e1]
      · have hp' : ¬ (isalnum data.after[i] || decide (data.after[i] = 95) ||
            decide (data.after[i] = 45) || decide (data.after[i] = 126)) = true := hp
        rw [if_neg hp']
        simp [hp, Nat.mod_eq_of_lt htc]
    · rw [List.drop_eq_nil_of_le (by omega)]
      simp [username_loop, h, Nat.mod_eq_of_lt htc]

theorem name_byte_username {c : Nat} (h : name_byte c = true) : username_byte c = true := by
  unfold name_byte at h
  unfold username_byte
  rw [h]; rfl

theorem name_byte_ne_tilde {c : Nat} (h : name_byte c = true) : c ≠ 126 := by
  simp only [name_byte, isalnum, isalpha, isupper, islower, isdigit, Bool.or_eq_true,
    decide_eq_true_eq, Bool.and_eq_true] at h
  omega

theorem count_tilde_name {name : List Nat} (h : ∀ c ∈ name, name_byte c = true) :
    name.count 126 = 0 :=
  List.count_eq_zero.2 (fun hm => name_byte_ne_tilde (h _ hm) rfl)

/-- The scan of the username detector over a window that consists of `~`
followed by bytes it accepts. -/
theorem username_loop_all (before X : List Nat) (hX : ∀ c ∈ X, username_byte c = true) :
    username_loop ⟨before, 126 :: X⟩ (X.length + 1) (X.length + 1 + 1) 1 0 =
      .ok (X.length + 1, X.count 126 % 256) := by
  have := username_loop_spec ⟨before, 126 :: X⟩ (X.length + 1 + 1) 1 0 (by omega)
    (by simp) (by omega)
  simp only [List.length_cons, List.drop_succ_cons, List.drop_zero,
    List.takeWhile_eq_self_iff.2 hX, Nat.zero_add] at this
  rw [this, Nat.add_comm]

theorem username_tilde_count_reject (rewind_p : Nat) (link before X : List Nat) (o : Nat)
    (hX : ∀ c ∈ X, username_byte c = true)
    (hcnt : X.count 126 % 256 ≠ 0 ∧ X.count 126 % 256 ≠ 4) :
    sd_autolink__username rewind_p link ⟨before, 126 :: X⟩ o (X.length + 1) 0 =
      .ok ⟨0, rewind_p, link, 0⟩ := by
  unfold sd_autolink__username
  rw [if_neg (by omega)]
  have h0 : (⟨before, 126 :: X⟩ : Window).rd 0 = .ok 126 := by simp [Window.rd]
  rw [h0]
  simp only [ok_bind]
  rw [if_neg (by decide), username_loop_all before X hX]
  simp only [ok_bind]
  rw [if_pos (by simp [hcnt.1, hcnt.2])]

/-- C10 (as amended). For every non-empty name made of alphanumeric, `_` and `-`
bytes, on the window `~name~` (deletion flag clear on entry) the username
detector returns 0: it appends nothing to the sink, leaves the rewind output
untouched and leaves the deletion flag clear. -/
theorem username_tilde_pair_rejected (rewind_p : Nat) (link before name : List Nat)
    (offset : Nat) (_hne : name ≠ []) (hname : ∀ c ∈ name, name_byte c = true) :
    sd_autolink__username rewind_p link ⟨before, bytes "~" ++ name ++ bytes "~"⟩ offset
      (name.length + 2) 0 = .ok ⟨0, rewind_p, link, 0⟩ := by
  have e : bytes "~" ++ name ++ bytes "~" = 126 :: (name ++ [126]) := rfl
  have hs : name.length + 2 = (name ++ [126]).length + 1 := by simp
  rw [e, hs]
  apply username_tilde_count_reject
  · intro c hc
    rcases List.mem_append.1 hc with hc | hc
    · exact name_byte_username (hname c hc)
    · simp only [List.mem_singleton] at hc
      subst hc; rfl
  · rw [List.count_append, count_tilde_name hname]
    decide

theorem username_tilde_pair_rejected_witness :
    sd_autolink__username 0 [] ⟨[], bytes "~" ++ bytes "alice" ++ bytes "~"⟩ 0
      ((bytes "alice").length + 2) 0 = .ok ⟨0, 0, [], 0⟩ :=
  username_tilde_pair_rejected 0 [] [] (bytes "alice") 0 (by decide) (by decide)

/-- C10 (counterexample). On `~alice~` the username detector returns 0 and
appends nothing; it does not return the window length 7 with `~alice~` in the sink. -/
theorem username_tilde_alice_no_match :
    ∃ r, sd_autolink__username 0 [] ⟨[], bytes "~alice~"⟩ 0 7 0 = .ok r ∧
      r.ret = 0 ∧ r.link = [] ∧ r.ret ≠ 7 ∧ r.link ≠ bytes "~alice~" :=
  ⟨⟨0, 0, [], 0⟩, rfl, rfl, rfl, by decide, by decide⟩

theorem rd_append (before a : List Nat) (c : Nat) (t : List Nat) (n : Nat)
    (hn : n = a.length) : (⟨before, a ++ c :: t⟩ : Window).rd n = .ok c := by
  subst hn
  exact rd_of_drop _ (t := t) (by simp)

theorem username_strike_shape (before name : List Nat) (hne : name ≠ []) :
    username_strike ⟨before, 126 :: 126 :: 126 :: (name ++ [126, 126])⟩ (name.length + 5) =
      .ok true := by
  have hpos : 0 < name.length := List.length_pos.2 hne
  have e1 : 126 :: 126 :: 126 :: (name ++ [126, 126]) =
      (126 :: 126 :: 126 :: (name ++ [126])) ++ 126 :: [] := by simp
  have e2 : 126 :: 126 :: 126 :: (name ++ [126, 126]) =
      (126 :: 126 :: 126 :: name) ++ 126 :: [126] := by simp
  have ha : (⟨before, 126 :: 126 :: 126 :: (name ++ [126, 126])⟩ : Window).rd
      (name.length + 5 - 1) = .ok 126 := by
    rw [e1]
    exact rd_append _ _ _ _ _ (by simp)
  have hb : (⟨before, 126 :: 126 :: 126 :: (name ++ [126, 126])⟩ : Window).rd
      (name.length + 5 - 2) = .ok 126 := by
    rw [e2]
    exact rd_append _ _ _ _ _ (by simp)
  have hc : (⟨before, 126 :: 126 :: 126 :: (name ++ [126, 126])⟩ : Window).rd 1 = .ok 126 := by
    simp [Window.rd]
  have hd : (⟨before, 126 :: 126 :: 126 :: (name ++ [126, 126])⟩ : Window).rd 2 = .ok 126 := by
    simp [Window.rd]
  unfold username_strike
  rw [if_pos (by omega), ha]
  simp only [ok_bind]
  rw [if_neg (by decide), hb]
  simp only [ok_bind]
  rw [if_neg (by decide), hc]
  simp only [ok_bind]
  rw [if_neg (by decide), hd]
  rfl

/-- C9 (as amended). For every non-empty name made of alphanumeric, `_` and `-`
bytes (deletion flag clear on entry): on the window `~~name~~` the username
detector returns 0 and leaves the sink, the rewind output and the flag alone;
the strikethrough shape it accepts has three leading tildes: on `~~~name~~` it
returns the window length `|name| + 5` with rewind 0, raises the deletion flag
and appends `~name` to the sink. -/
theorem username_strikethrough_shape (rewind_p : Nat) (link before name : List Nat)
    (offset : Nat) (hne : name ≠ []) (hname : ∀ c ∈ name, name_byte c = true) :
    sd_autolink__username rewind_p link ⟨before, bytes "~~" ++ name ++ bytes "~~"⟩ offset
        (name.length + 4) 0 = .ok ⟨0, rewind_p, link, 0⟩ ∧
    sd_autolink__username rewind_p link ⟨before, bytes "~~~" ++ name ++ bytes "~~"⟩ offset
        (name.length + 5) 0 = .ok ⟨name.length + 5, 0, link ++ (bytes "~" ++ name), 1⟩ := by
  have hmem : ∀ (pre suf : List Nat), (∀ c ∈ pre, c = 126) → (∀ c ∈ suf, c = 126) →
      ∀ c ∈ pre ++ (name ++ suf), username_byte c = true := by
    intro pre suf hpre hsuf c hc
    rcases List.mem_append.1 hc with hc | hc
    · rw [hpre c hc]; rfl
    · rcases List.mem_append.1 hc with hc | hc
      · exact name_byte_username (hname c hc)
      · rw [hsuf c hc]; rfl
  constructor
  · have e : bytes "~~" ++ name ++ bytes "~~" = 126 :: ([126] ++ (name ++ [126, 126])) := by
      show [126, 126] ++ name ++ [126, 126] = _
      simp
    have hs : name.length + 4 = ([126] ++ (name ++ [126, 126])).length + 1 := by
      simp
    rw [e, hs]
    apply username_tilde_count_reject
    · exact hmem [126] [126, 126] (by simp) (by simp)
    · rw [List.count_append, List.count_append, count_tilde_name hname]
      decide
  · have e : bytes "~~~" ++ name ++ bytes "~~" = 126 :: ([126, 126] ++ (name ++ [126, 126])) := by
      show [126, 126, 126] ++ name ++ [126, 126] = _
      simp
    have hs : name.length + 5 = ([126, 126] ++ (name ++ [126, 126])).length + 1 := by
      simp
    have hloop := username_loop_all before ([126, 126] ++ (name ++ [126, 126]))
      (hmem [126, 126] [126, 126] (by simp) (by simp))
    have hcnt : ([126, 126] ++ (name ++ [126, 126])).count 126 % 256 = 4 := by
      rw [List.count_append, List.count_append, count_tilde_name hname]
      decide
    rw [hcnt, ← hs] at hloop
    rw [e]
    unfold sd_autolink__username
    rw [if_neg (by omega)]
    have h0 : (⟨before, 126 :: ([126, 126] ++ (name ++ [126, 126]))⟩ : Window).rd 0 =
        .ok 126 := by simp [Window.rd]
    rw [h0]
    simp only [ok_bind]
    rw [if_neg (by decide), hloop]
    simp only [ok_bind]
    rw [if_neg (by decide : ¬ (decide ((4 : Nat) ≠ 0) && decide ((4 : Nat) ≠ 4)) = true)]
    have hst := username_strike_shape before name hne
    simp only [List.cons_append, List.nil_append] at hst ⊢
    rw [hst]
    simp only [ok_bind, if_true]
    rw [if_neg (by decide : ¬ (decide ((4 : Nat) ≠ 0) && decide ((1 : Nat) = 0)) = true),
      if_pos (by decide : (1 : Nat) ≠ 0)]
    have hput : bufput link (Window.add ⟨before, 126 :: 126 :: 126 :: (name ++ [126, 126])⟩ 2)
        (size_sub (name.length + 5) 4) = .ok (link ++ (bytes "~" ++ name)) := by
      rw [size_sub_of_le (by omega)]
      unfold bufput Window.add Window.size
      simp only [List.drop_succ_cons, List.drop_zero, List.length_cons, List.length_append,
        List.length_nil]
      rw [if_pos (by omega)]
      have : name.length + 5 - 4 = name.length + 1 := by omega
      rw [this, List.take_succ_cons, List.take_left']
      · rfl
      · rfl
    rw [hput]
    rfl

theorem username_strikethrough_shape_witness :
    sd_autolink__username 0 [] ⟨[], bytes "~~" ++ bytes "bob" ++ bytes "~~"⟩ 0
        ((bytes "bob").length + 4) 0 = .ok ⟨0, 0, [], 0⟩ ∧
    sd_autolink__username 0 [] ⟨[], bytes "~~~" ++ bytes "bob" ++ bytes "~~"⟩ 0
        ((bytes "bob").length + 5) 0 =
      .ok ⟨(bytes "bob").length + 5, 0, [] ++ (bytes "~" ++ bytes "bob"), 1⟩ :=
  username_strikethrough_shape 0 [] [] (bytes "bob") 0 (by decide) (by decide)

/-- C9 (counterexample). On `~~bob~~` the username detector returns 0, does not
raise the deletion flag and appends nothing. -/
theorem username_strike_bob_no_match :
    ∃ r, sd_autolink__username 0 [] ⟨[], bytes "~~bob~~"⟩ 0 7 0 = .ok r ∧
      r.ret = 0 ∧ r.rndr_del = 0 ∧ r.link = [] ∧ r.link ≠ bytes "bob" :=
  ⟨⟨0, 0, [], 0⟩, rfl, rfl, rfl, rfl, by decide⟩

/-! ## Lemmas: the email detector -/

theorem email_forward_spec (data : Window) :
    ∀ (fuel i nb np : Nat), 0 < fuel → data.after.length < fuel + i → i ≤ data.after.length →
      ∃ e nb' np', email_forward data data.after.length fuel i nb np = .ok (e, nb', np') ∧
        i ≤ e ∧ e ≤ data.after.length ∧
        ∀ j, i ≤ j → j < e → ∃ c, data.after[j]? = some c ∧ email_byte c = true := by
  intro fuel
  induction fuel with
  | zero => intro i nb np h; omega
  | succ f ih =>
    intro i nb np _ hf hi
    by_cases h : i < data.after.length
    · have hget := List.getElem?_eq_getElem h
      have step : ∀ nb1 np1, email_byte data.after[i] = true →
          ∃ e nb' np', email_forward data data.after.length f (i + 1) nb1 np1 =
              .ok (e, nb', np') ∧
            i ≤ e ∧ e ≤ data.after.length ∧
            ∀ j, i ≤ j → j < e → ∃ c, data.after[j]? = some c ∧ email_byte c = true := by
        intro nb1 np1 hb
        obtain ⟨e, nb', np', he, h1, h2, h3⟩ := ih (i + 1) nb1 np1 (by omega) (by omega) (by omega)
        refine ⟨e, nb', np', he, by omega, h2, ?_⟩
        intro j hj1 hj2
        by_cases hji : j = i
        · subst hji; exact ⟨_, hget, hb⟩
        · exact h3 j (by omega) hj2
      simp only [email_forward, h, if_true, rd_of_lt data h, ok_bind]
      by_cases ha : isalnum data.after[i] = true
      · rw [if_pos ha]
        exact step nb np (by simp [email_byte, ha])
      · rw [if_neg ha]
        by_cases hat : data.after[i] = 64
        · rw [if_pos hat]
          exact step _ np (by simp [email_byte, hat])
        · rw [if_neg hat]
          by_cases hdot : (decide (data.after[i] = 46) &&
              decide (i < size_sub data.after.length 1)) = true
          · rw [if_pos hdot]
            have : data.after[i] = 46 := by
              simp only [Bool.and_eq_true, decide_eq_true_eq] at hdot
              exact hdot.1
            exact step nb _ (by simp [email_byte, this])
          · rw [if_neg hdot]
            by_cases hstop : (decide (data.after[i] ≠ 45) && decide (data.after[i] ≠ 95)) = true
            · rw [if_pos hstop]
              exact ⟨i, nb, np, rfl, le_refl _, hi, fun j h1 h2 => by omega⟩
            · rw [if_neg hstop]
              have : data.after[i] = 45 ∨ data.after[i] = 95 := by
                simp only [Bool.and_eq_true, decide_eq_true_eq, not_and, ne_eq,
                  Decidable.not_not] at hstop
                by_cases h45 : data.after[i] = 45
                · exact Or.inl h45
                · exact Or.inr (hstop h45)
              exact step nb np (by rcases this with h | h <;> simp [email_byte, h])
    · exact ⟨i, nb, np, by simp [email_forward, h], le_refl _, hi, fun j h1 h2 => by omega⟩

theorem email_byte_ne_semicolon {c : Nat} (h : email_byte c = true) : c ≠ 59 := by
  simp only [email_byte, isalnum, isalpha, isupper, islower, isdigit, Bool.or_eq_true,
    decide_eq_true_eq, Bool.and_eq_true] at h
  omega

theorem bufput_sub (link : List Nat) (data : Window) (n r : Nat)
    (hr : r ≤ data.before.length) (hn : n ≤ data.after.length) :
    bufput link (data.sub r) (n + r) =
      .ok (link ++ ((data.before.take r).reverse ++ data.after.take n)) := by
  unfold bufput Window.sub Window.size
  have hlen : ((data.before.take r).reverse).length = r := by
    rw [List.length_reverse, List.length_take, Nat.min_eq_left hr]
  simp only [List.length_append, hlen]
  rw [if_pos (by omega)]
  congr 2
  rw [List.take_append_eq_append_take, hlen, List.take_of_length_le (by omega)]
  congr 2
  omega

theorem email_cases (rewind_p : Nat) (link : List Nat) (data : Window) :
    ∃ res, sd_autolink__email rewind_p link data data.before.length data.after.length =
        .ok res ∧ span_result rewind_p link data res := by
  unfold sd_autolink__email
  rw [email_rewind_spec data _ 0 (by omega) (by omega)]
  simp only [ok_bind, Nat.zero_add, List.drop_zero]
  have hrle : (data.before.takeWhile (fun c => isalnum c || strchr (bytes ".+-_") c)).length
      ≤ data.before.length := (List.takeWhile_sublist _).length_le
  generalize (data.before.takeWhile (fun c => isalnum c || strchr (bytes ".+-_") c)).length = r
    at hrle
  by_cases hr0 : r = 0
  · rw [if_pos hr0]
    exact ⟨_, rfl, Or.inl rfl⟩
  rw [if_neg hr0]
  obtain ⟨e, nb, np, he, _, hle, hall⟩ :=
    email_forward_spec data (data.after.length + 1) 0 0 0 (by omega) (by omega) (by omega)
  rw [he]
  simp only [ok_bind]
  by_cases hrej : (decide (e < 2) || decide (nb ≠ 1) || decide (np = 0)) = true
  · rw [if_pos hrej]
    exact ⟨_, rfl, Or.inl rfl⟩
  rw [if_neg hrej]
  have he2 : 2 ≤ e := by
    simp only [Bool.or_eq_true, decide_eq_true_eq, not_or] at hrej
    omega
  have h59 : data.after.head? ≠ some 59 := by
    obtain ⟨c, hc, hb⟩ := hall 0 (by omega) (by omega)
    rw [List.head?_eq_getElem?, hc]
    intro h
    exact email_byte_ne_semicolon hb (Option.some.inj h)
  obtain ⟨n, hn, hnle, _⟩ := autolink_delim_spec data e data.before.length data.after.length
    hle h59
  rw [hn]
  simp only [ok_bind]
  by_cases hn0 : n = 0
  · rw [if_pos hn0]
    exact ⟨_, rfl, Or.inl rfl⟩
  rw [if_neg hn0, bufput_sub link data n r hrle (by omega)]
  exact ⟨_, rfl, Or.inr ⟨n, r, by omega, by omega, hrle, rfl⟩⟩

/-! ## Lemmas: the URL detector -/

theorem isalpha_tolower {c : Nat} (h : isalpha c = true) : isalpha (tolower c) = true := by
  unfold tolower
  split
  · rename_i hu
    simp only [isalpha, isupper, islower, Bool.or_eq_true, Bool.and_eq_true,
      decide_eq_true_eq] at hu ⊢
    omega
  · exact h

theorem valid_uris_last : ∀ u ∈ valid_uris, ∃ c, u.getLast? = some c ∧
    isalpha (tolower c) = false := by
  decide

theorem valid_uris_no_semicolon : ∀ u ∈ valid_uris, ∀ c ∈ u, tolower c ≠ 59 := by
  decide

/-- When the bytes `pre ++ l` pass the safety test with scheme `u` and `pre`
is alphabetic, the scheme reaches beyond `pre`: the first byte of `l` is matched
against a byte of `u`. -/
theorem scheme_head (pre l u : List Nat) (hpre : ∀ c ∈ pre, isalpha c = true)
    (hu : u ∈ valid_uris) (hm : scheme_matches (pre ++ l) u) :
    pre.length < u.length ∧
      ∃ c0 t c, l = c0 :: t ∧ c ∈ u ∧ tolower c0 = tolower c := by
  obtain ⟨hlen, hmap, _⟩ := hm
  obtain ⟨cl, hcl, hna⟩ := valid_uris_last u hu
  have hu0 : 0 < u.length := by
    cases u with
    | nil => simp at hcl
    | cons a t => simp
  have hidx : ∀ k, k < u.length →
      Option.map tolower (pre ++ l)[k]? = Option.map tolower u[k]? := by
    intro k hk
    have := congrArg (fun x => x[k]?) hmap
    simp only [List.getElem?_map, List.getElem?_take_of_lt hk] at this
    exact this
  have hlt : pre.length < u.length := by
    by_contra hcon
    have hk : u.length - 1 < pre.length := by omega
    have h1 := hidx (u.length - 1) (by omega)
    rw [List.getElem?_append_left hk, List.getElem?_eq_getElem hk,
      ← List.getLast?_eq_getElem?, hcl] at h1
    simp only [Option.map_some', Option.some.injEq] at h1
    have := isalpha_tolower (hpre _ (List.getElem_mem hk))
    rw [h1, hna] at this
    cases this
  refine ⟨hlt, ?_⟩
  have h2 := hidx pre.length hlt
  rw [List.getElem?_append_right (le_refl _), Nat.sub_self, List.getElem?_eq_getElem hlt] at h2
  cases l with
  | nil => simp at h2
  | cons c0 t =>
    simp only [List.getElem?_cons_zero, Option.map_some', Option.some.injEq] at h2
    exact ⟨c0, t, u[pre.length], rfl, List.getElem_mem hlt, h2⟩

theorem url_no_slashes_eval (data : Window) :
    ∃ b, url_no_slashes data data.after.length = .ok b ∧
      (b = false ↔ 4 ≤ data.after.length ∧ data.after[1]? = some 47 ∧
        data.after[2]? = some 47) := by
  unfold url_no_slashes
  by_cases h4 : data.after.length < 4
  · rw [if_pos h4]
    exact ⟨true, rfl, by simp; omega⟩
  rw [if_neg h4]
  have h1 : 1 < data.after.length := by omega
  have h2 : 2 < data.after.length := by omega
  rw [rd_of_lt data h1]
  simp only [ok_bind]
  by_cases c1 : data.after[1] = 47
  · rw [if_neg (not_not.2 c1), rd_of_lt data h2]
    simp only [ok_bind]
    refine ⟨_, rfl, ?_⟩
    rw [List.getElem?_eq_getElem h1, List.getElem?_eq_getElem h2]
    simp [c1]
    omega
  · rw [if_pos c1]
    refine ⟨true, rfl, ?_⟩
    rw [List.getElem?_eq_getElem h1]
    simp [c1]

theorem sub_after_take (data : Window) (r : Nat) (hr : r ≤ data.before.length) :
    (data.sub r).after.take (data.after.length + r) =
      (data.before.take r).reverse ++ data.after := by
  unfold Window.sub
  apply List.take_of_length_le
  simp only [List.length_append, List.length_reverse, List.length_take]
  omega

theorem url_cases (rewind_p : Nat) (link : List Nat) (data : Window) :
    ∃ res, sd_autolink__url rewind_p link data data.before.length data.after.length =
        .ok res ∧ span_result rewind_p link data res := by
  obtain ⟨b, hb, hbiff⟩ := url_no_slashes_eval data
  unfold sd_autolink__url
  rw [hb]
  simp only [ok_bind]
  by_cases hb1 : b = true
  · rw [if_pos hb1]
    exact ⟨_, rfl, Or.inl rfl⟩
  rw [if_neg hb1]
  obtain ⟨h4, _, _⟩ := hbiff.1 (by simpa using hb1)
  rw [url_rewind_spec data _ 0 (by omega) (by omega)]
  simp only [ok_bind, Nat.zero_add, List.drop_zero]
  have hrle : (data.before.takeWhile isalpha).length ≤ data.before.length :=
    (List.takeWhile_sublist _).length_le
  have hpre : ∀ c ∈ (data.before.take (data.before.takeWhile isalpha).length).reverse,
      isalpha c = true := by
    intro c hc
    rw [List.mem_reverse, ← List.prefix_iff_eq_take.1 (List.takeWhile_prefix isalpha)] at hc
    exact List.mem_takeWhile_imp hc
  generalize (data.before.takeWhile isalpha).length = r at hrle hpre
  have hsz : data.after.length + r ≤ (data.sub r).after.length := by
    unfold Window.sub
    simp only [List.length_append, List.length_reverse, List.length_take]
    omega
  obtain ⟨s, hs, hsiff⟩ := issafe_loop_spec (data.sub r) (data.after.length + r) hsz
    valid_uris valid_uris_nonzero
  unfold sd_autolink_issafe
  rw [hs]
  simp only [ok_bind]
  by_cases hs1 : s = true
  swap
  · rw [if_pos (by simpa using hs1)]
    exact ⟨_, rfl, Or.inl rfl⟩
  rw [if_neg (by simp [hs1])]
  obtain ⟨u, hu, hm⟩ := hsiff.1 hs1
  rw [sub_after_take data r hrle] at hm
  obtain ⟨_, c0, t, c, hl, hcu, hc0⟩ := scheme_head _ _ u hpre hu hm
  have h59 : data.after.head? ≠ some 59 := by
    rw [hl]
    simp only [List.head?_cons, ne_eq, Option.some.injEq]
    intro h
    rw [h] at hc0
    exact valid_uris_no_semicolon u hu c hcu hc0.symm
  have hadd : (data.add 3).after.length = data.after.length - 3 := by
    unfold Window.add
    simp
  have hcd := check_domain_spec (data.add 3) (by omega)
  rw [hadd] at hcd
  rw [size_sub_of_le (by omega), hcd]
  simp only [ok_bind]
  by_cases hd : domain_len (data.add 3).after = 0
  · rw [if_pos hd]
    exact ⟨_, rfl, Or.inl rfl⟩
  rw [if_neg hd, skip_nonspace_spec data _ _ (by omega) (by omega)]
  simp only [ok_bind]
  have hele : 3 + domain_len (data.add 3).after +
      ((data.after.drop (3 + domain_len (data.add 3).after)).takeWhile
        (fun c => !isspace c)).length ≤ data.after.length := by
    have h1 := (domain_len_run _ hd).1
    rw [hadd] at h1
    have h2 := (List.takeWhile_sublist (l := data.after.drop (3 + domain_len (data.add 3).after))
      (fun c => !isspace c)).length_le
    rw [List.length_drop] at h2
    omega
  generalize 3 + domain_len (data.add 3).after +
      ((data.after.drop (3 + domain_len (data.add 3).after)).takeWhile
        (fun c => !isspace c)).length = e at hele
  obtain ⟨n, hn, hnle, _⟩ := autolink_delim_spec data e data.before.length data.after.length
    hele h59
  rw [hn]
  simp only [ok_bind]
  by_cases hn0 : n = 0
  · rw [if_pos hn0]
    exact ⟨_, rfl, Or.inl rfl⟩
  rw [if_neg hn0, bufput_sub link data n r hrle (by omega)]
  exact ⟨_, rfl, Or.inr ⟨n, r, by omega, by omega, hrle, rfl⟩⟩

theorem domain_len_www (rest : List Nat) :
    domain_len (119 :: 119 :: 119 :: 46 :: rest) = 0 ↔ rest = [] := by
  cases rest with
  | nil => simp [domain_len, domain_byte, isalnum, isalpha, isupper, islower, isdigit]
  | cons x r =>
    have ha : isalnum 119 = true := by decide
    have hd : domain_byte 119 = true := by decide
    have hd' : domain_byte 46 = true := by decide
    simp only [domain_len, List.headD_cons, ha, if_true, List.length_cons,
      Nat.add_sub_cancel, List.take_succ_cons, List.drop_succ_cons, List.drop_zero,
      List.takeWhile_cons, hd, hd', List.count_cons_self, List.count_cons]
    simp

theorem isalnum_not_punct_space {c : Nat} (h : isalnum c = true) :
    ispunct c = false ∧ isspace c = false := by
  simp only [isalnum, isalpha, isupper, islower, isdigit, Bool.or_eq_true,
    decide_eq_true_eq, Bool.and_eq_true] at h
  simp only [ispunct, isspace, Bool.or_eq_false_iff, beq_eq_false_iff_ne, ne_eq,
    Bool.and_eq_false_iff, decide_eq_false_iff_not]
  omega

theorem int_cast_of_lt {n : Nat} (h : n < 2 ^ 31) : int_cast n = n := by
  unfold int_cast
  have : n % 2 ^ 32 = n := Nat.mod_eq_of_lt (by omega)
  rw [this, if_pos h]

theorem www_success (rewind_p : Nat) (link : List Nat) (data : Window)
    (h5 : 5 ≤ data.after.length) (hw : data.after.take 4 = bytes "www.")
    (hb : data.before = [] ∨
      ∃ c, data.before.head? = some c ∧ (ispunct c = true ∨ isspace c = true)) :
    ∃ n, autolink_delim data (nonspace_len data.after) data.before.length
          data.after.length = .ok n ∧ 3 ≤ n ∧ n ≤ nonspace_len data.after ∧
      sd_autolink__www rewind_p link data data.before.length data.after.length =
        .ok ⟨int_cast n, 0, link ++ data.after.take n⟩ := by
  obtain ⟨res, hres, hcase⟩ := www_cases rewind_p link data
  have hnb : ¬ www_blocked data := by
    rintro (⟨c, hc, hp, hs⟩ | h | h | h)
    · rcases hb with hb | ⟨c', hc', hps⟩
      · rw [hb] at hc; cases hc
      · rw [hc] at hc'
        cases hc'
        rcases hps with h | h
        · rw [hp] at h; cases h
        · rw [hs] at h; cases h
    · omega
    · exact h hw
    · obtain ⟨rest, hrest⟩ := append_of_take_eq (p := bytes "www.") hw
      have hrest' : data.after = 119 :: 119 :: 119 :: 46 :: rest := hrest
      rw [hrest'] at h h5
      have := (domain_len_www rest).1 h
      subst this
      simp at h5
  rcases hcase with ⟨hbl, _⟩ | ⟨_, n, hn, h3, hle, hr⟩
  · exact absurd hbl hnb
  · exact ⟨n, hn, h3, hle, by rw [hres, hr]⟩

theorem www_failure (rewind_p : Nat) (link : List Nat) (data : Window)
    (h : (∃ c, data.before.head? = some c ∧ isalnum c = true) ∨
      data.after.take 4 ≠ bytes "www." ∨ data.after.length ≤ 4) :
    sd_autolink__www rewind_p link data data.before.length data.after.length =
      .ok ⟨0, rewind_p, link⟩ := by
  obtain ⟨res, hres, hcase⟩ := www_cases rewind_p link data
  have hbl : www_blocked data := by
    rcases h with ⟨c, hc, ha⟩ | h | h
    · exact Or.inl ⟨c, hc, isalnum_not_punct_space ha⟩
    · exact Or.inr (Or.inr (Or.inl h))
    · by_cases hw : data.after.take 4 = bytes "www."
      · obtain ⟨rest, hrest⟩ := append_of_take_eq (p := bytes "www.") hw
        have hrest' : data.after = 119 :: 119 :: 119 :: 46 :: rest := hrest
        refine Or.inr (Or.inr (Or.inr ?_))
        rw [hrest'] at h ⊢
        apply (domain_len_www rest).2
        cases rest with
        | nil => rfl
        | cons x r => simp at h
      · exact Or.inr (Or.inr (Or.inl hw))
  rcases hcase with ⟨_, hr⟩ | ⟨hnb, _⟩
  · rw [hres, hr]
  · exact absurd hbl hnb

theorem nonspace_len_all {l : List Nat} (h : ∀ c ∈ l, isspace c = false) :
    nonspace_len l = l.length := by
  unfold nonspace_len
  rw [List.takeWhile_eq_self_iff.2 (fun c hc => by simp [h c hc])]

/-- The trimmer keeps a span that holds no `<` and no `&` and ends in a byte
that is neither trailing punctuation nor a closer. -/
theorem autolink_delim_keep (data : Window) (n o s : Nat) (hn : 0 < n)
    (hle : n ≤ data.after.length) (h59 : data.after.head? ≠ some 59)
    (hlast : ∃ c, data.after[n - 1]? = some c ∧ stop_byte c ∧ copen_of c = 0)
    (hno : ∀ j, j < n → data.after[j]? ≠ some 38 ∧ data.after[j]? ≠ some 60) :
    autolink_delim data n o s = .ok n := by
  obtain ⟨r, hr, hrle, hlow⟩ := autolink_delim_spec data n o s hle h59
  have := hlow n hn (le_refl _) hlast hno
  rw [hr]
  congr 1
  omega

/-- The WWW detector on `www.` followed by `k ≥ 1` letters `a`: nothing is
trimmed, the whole window is appended and its length goes through `(int)`. -/
theorem www_letters (rewind_p : Nat) (link : List Nat) (k : Nat) (hk : 1 ≤ k) :
    nonspace_len (bytes "www." ++ List.replicate k 97) = k + 4 ∧
    autolink_delim ⟨[], bytes "www." ++ List.replicate k 97⟩ (k + 4) 0 (k + 4) = .ok (k + 4) ∧
    sd_autolink__www rewind_p link ⟨[], bytes "www." ++ List.replicate k 97⟩ 0 (k + 4) =
      .ok ⟨int_cast (k + 4), 0, link ++ (bytes "www." ++ List.replicate k 97)⟩ := by
  have hl : (bytes "www." ++ List.replicate k 97).length = k + 4 := by
    rw [List.length_append, List.length_replicate]
    show 4 + k = k + 4
    omega
  have hmem : ∀ c ∈ bytes "www." ++ List.replicate k 97, c = 119 ∨ c = 46 ∨ c = 97 := by
    intro c hc
    rcases List.mem_append.1 hc with h | h
    · have : c ∈ [119, 119, 119, 46] := h
      simp only [List.mem_cons, List.mem_singleton, List.not_mem_nil, or_false] at this
      omega
    · exact Or.inr (Or.inr (List.eq_of_mem_replicate h))
  have hns : nonspace_len (bytes "www." ++ List.replicate k 97) = k + 4 := by
    rw [nonspace_len_all, hl]
    intro c hc
    rcases hmem c hc with h | h | h <;> subst h <;> decide
  have hget : ∀ j, j < k + 4 → ∃ c, (bytes "www." ++ List.replicate k 97)[j]? = some c ∧
      (c = 119 ∨ c = 46 ∨ c = 97) := by
    intro j hj
    have hj' : j < (bytes "www." ++ List.replicate k 97).length := by omega
    exact ⟨_, List.getElem?_eq_getElem hj', hmem _ (List.getElem_mem hj')⟩
  have hlastb : (bytes "www." ++ List.replicate k 97)[k + 4 - 1]? = some 97 := by
    have : k + 4 - 1 = (bytes "www.").length + (k - 1) := by
      show k + 4 - 1 = 4 + (k - 1)
      omega
    rw [this, List.getElem?_append_right (by omega), Nat.add_sub_cancel_left,
      List.getElem?_replicate, if_pos (by omega)]
  have hdelim : autolink_delim ⟨[], bytes "www." ++ List.replicate k 97⟩ (k + 4) 0 (k + 4) =
      .ok (k + 4) := by
    apply autolink_delim_keep
    · omega
    · show k + 4 ≤ (bytes "www." ++ List.replicate k 97).length
      omega
    · show ([119, 119, 119, 46] ++ List.replicate k 97).head? ≠ some 59
      simp
    · exact ⟨97, hlastb, by unfold stop_byte; decide, by decide⟩
    · intro j hj
      obtain ⟨c, hc, hv⟩ := hget j hj
      show (bytes "www." ++ List.replicate k 97)[j]? ≠ some 38 ∧
        (bytes "www." ++ List.replicate k 97)[j]? ≠ some 60
      rw [hc]
      simp only [ne_eq, Option.some.injEq]
      omega
  refine ⟨hns, hdelim, ?_⟩
  obtain ⟨n, hn, _, _, hres⟩ := www_success rewind_p link
    ⟨[], bytes "www." ++ List.replicate k 97⟩ (by rw [hl]; omega)
    (List.take_left' rfl) (Or.inl rfl)
  simp only [hns, hl, List.length_nil] at hn hres
  rw [hdelim] at hn
  cases hn
  rw [hres]
  congr 2
  rw [List.take_of_length_le (by omega)]

/-- Supports C6: what the WWW detector does on windows whose lengths fit its
`(int)` return value.  On every window of at least 5 and fewer than `2 ^ 31`
bytes whose first four bytes are `www.` and that starts the buffer or follows a
punctuation or white-space byte, the WWW detector succeeds: with `e` the index
of the first white-space byte of the window (or its size) it returns
`n = autolink_delim(data, e)`, where `n ≥ 3`; the rewind is 0 and the sink
receives the window bytes `[0, n)`.  If the byte in front of the window is
alphanumeric, or the window does not start with `www.`, or its size is at most
4, the detector returns 0 and leaves the sink and the rewind output alone. -/
theorem www_match (rewind_p : Nat) (link : List Nat) (data : Window) :
    (5 ≤ data.size → data.size < 2 ^ 31 → data.after.take 4 = bytes "www." →
      (data.offset = 0 ∨
        ∃ c, data.before.head? = some c ∧ (ispunct c = true ∨ isspace c = true)) →
      ∃ n, autolink_delim data (nonspace_len data.after) data.offset data.size = .ok n ∧
        3 ≤ n ∧ n ≤ data.size ∧
        sd_autolink__www rewind_p link data data.offset data.size =
          .ok ⟨n, 0, link ++ data.after.take n⟩) ∧
    (((∃ c, data.before.head? = some c ∧ isalnum c = true) ∨
        data.after.take 4 ≠ bytes "www." ∨ data.size ≤ 4) →
      sd_autolink__www rewind_p link data data.offset data.size =
        .ok ⟨0, rewind_p, link⟩) := by
  unfold Window.size Window.offset
  constructor
  · intro h5 h31 hw hb
    have hb' : data.before = [] ∨
        ∃ c, data.before.head? = some c ∧ (ispunct c = true ∨ isspace c = true) := by
      rcases hb with h | h
      · exact Or.inl (List.length_eq_zero.1 h)
      · exact Or.inr h
    obtain ⟨n, hn, h3, hle, hres⟩ := www_success rewind_p link data h5 hw hb'
    have hns := nonspace_len_le data.after
    refine ⟨n, hn, h3, by omega, ?_⟩
    rw [hres, int_cast_of_lt (by omega)]
  · exact www_failure rewind_p link data

theorem www_match_witness :
    (∃ n, autolink_delim (Window.mk_at (bytes "see www.example.com/page. next") 4)
          (nonspace_len (Window.mk_at (bytes "see www.example.com/page. next") 4).after)
          (Window.mk_at (bytes "see www.example.com/page. next") 4).offset
          (Window.mk_at (bytes "see www.example.com/page. next") 4).size = .ok n ∧
        3 ≤ n ∧ n ≤ (Window.mk_at (bytes "see www.example.com/page. next") 4).size ∧
        sd_autolink__www 0 [] (Window.mk_at (bytes "see www.example.com/page. next") 4)
            (Window.mk_at (bytes "see www.example.com/page. next") 4).offset
            (Window.mk_at (bytes "see www.example.com/page. next") 4).size =
          .ok ⟨n, 0, [] ++ (Window.mk_at (bytes "see www.example.com/page. next") 4).after.take n⟩) ∧
    sd_autolink__www 0 [] (Window.mk_at (bytes "see www.example.com/page. next") 4) 4 26 =
      .ok ⟨20, 0, bytes "www.example.com/page"⟩ :=
  ⟨(www_match 0 [] (Window.mk_at (bytes "see www.example.com/page. next") 4)).1
      (by decide) (by decide) rfl (Or.inr ⟨32, rfl, Or.inr rfl⟩), rfl⟩

/-- C6 (failing input). On the window `www.` followed by `2 ^ 31 - 4` letters
`a` (size `2 ^ 31`, offset 0) the trimmer gives `2 ^ 31`, and the WWW detector,
whose result goes through `(int)`, returns `2 ^ 64 - 2 ^ 31` instead. -/
theorem www_return_truncated :
    ∃ res, sd_autolink__www 0 [] ⟨[], bytes "www." ++ List.replicate (2 ^ 31 - 4) 97⟩ 0
        (2 ^ 31) = .ok res ∧
      autolink_delim ⟨[], bytes "www." ++ List.replicate (2 ^ 31 - 4) 97⟩
        (nonspace_len (bytes "www." ++ List.replicate (2 ^ 31 - 4) 97)) 0 (2 ^ 31) =
          .ok (2 ^ 31) ∧
      res.ret = 2 ^ 64 - 2 ^ 31 ∧ res.ret ≠ 2 ^ 31 := by
  obtain ⟨h1, h2, h3⟩ := www_letters 0 [] (2 ^ 31 - 4) (by norm_num)
  have e : 2 ^ 31 - 4 + 4 = 2 ^ 31 := by norm_num
  rw [e] at h1 h2 h3
  refine ⟨_, h3, ?_, ?_, ?_⟩
  · rw [h1]; exact h2
  · show int_cast (2 ^ 31) = 2 ^ 64 - 2 ^ 31
    decide
  · show int_cast (2 ^ 31) ≠ 2 ^ 31
    decide

theorem appends_match_of_span {rewind_p : Nat} {link : List Nat} {data : Window}
    {res : Result} (h : span_result rewind_p link data res) :
    appends_match rewind_p link data res := by
  rcases h with rfl | ⟨n, r, hn, hle, hr, rfl⟩
  · exact ⟨fun _ => ⟨rfl, rfl⟩, fun h => absurd h (Nat.lt_irrefl 0)⟩
  · exact ⟨fun h => by simp only at h; omega, fun _ => ⟨hle, hr, rfl⟩⟩

theorem subreddit_cases (rewind_p : Nat) (link : List Nat) (data : Window) (o : Nat) :
    (data.after.length ≠ 3 →
      ∃ res, sd_autolink__subreddit rewind_p link data o data.after.length = .ok res) ∧
    ∀ res, sd_autolink__subreddit rewind_p link data o data.after.length = .ok res →
      res = ⟨0, rewind_p, link⟩ ∨
        ∃ n, 0 < n ∧ n ≤ data.after.length ∧ res = ⟨n, 0, link ++ data.after.take n⟩ := by
  by_cases hs : data.after.length < 3 ∨ (3 ≤ data.after.length ∧ ¬ starts_slash_r data.after)
  · have := subreddit_short rewind_p link data o hs
    rw [this]
    exact ⟨fun _ => ⟨_, rfl⟩, fun res h => Or.inl (Except.ok.inj h).symm⟩
  · have h3 : 3 ≤ data.after.length := by
      by_contra hcon
      exact hs (Or.inl (by omega))
    have hp : starts_slash_r data.after := by
      by_contra hcon
      exact hs (Or.inr ⟨h3, hcon⟩)
    by_cases h4 : data.after.length = 3
    · rw [subreddit_three rewind_p link data o h4 hp]
      exact ⟨fun h => absurd h4 h, fun res h => by cases h⟩
    · have hlt : 3 < data.after.length := by omega
      have := subreddit_long rewind_p link data o _ (List.getElem?_eq_getElem hlt) hp
      rw [this]
      refine ⟨fun _ => ⟨_, rfl⟩, fun res h => ?_⟩
      have hres := (Except.ok.inj h).symm
      by_cases ha : isalnum data.after[3] = true
      · rw [if_pos ha] at hres
        refine Or.inr ⟨_, by omega, ?_, hres⟩
        have := (List.takeWhile_sublist (l := data.after.drop 3) subreddit_byte).length_le
        rw [List.length_drop] at this
        omega
      · rw [if_neg ha] at hres
        exact Or.inl hres

/-- Supports C2: the sink and the rewind output of the four detectors.  For
the email and URL detectors on every window, for the WWW detector on every
window shorter than `2 ^ 31` bytes, and for the subreddit detector whenever it
returns: if the detector returns 0 the sink and the rewind output are as the
caller left them; if it returns `n > 0` with reported rewind `r`, then `n` and
`r` lie within the window and the sink is the old sink followed by exactly the
window bytes `[-r, n)`, with `r = 0` for WWW and subreddit.  The email, URL and
WWW detectors always return; the subreddit detector returns on every window
whose size is not 3. -/
theorem detectors_append_match_or_nothing (rewind_p : Nat) (link : List Nat) (data : Window) :
    (data.size < 2 ^ 31 →
      ∃ res, sd_autolink__www rewind_p link data data.offset data.size = .ok res ∧
        appends_match rewind_p link data res ∧ (0 < res.ret → res.rewind_p = 0)) ∧
    (∃ res, sd_autolink__email rewind_p link data data.offset data.size = .ok res ∧
        appends_match rewind_p link data res) ∧
    (∃ res, sd_autolink__url rewind_p link data data.offset data.size = .ok res ∧
        appends_match rewind_p link data res) ∧
    (data.size ≠ 3 →
      ∃ res, sd_autolink__subreddit rewind_p link data data.offset data.size = .ok res) ∧
    (∀ res, sd_autolink__subreddit rewind_p link data data.offset data.size = .ok res →
      appends_match rewind_p link data res ∧ (0 < res.ret → res.rewind_p = 0)) := by
  refine ⟨?_, ?_, ?_, ?_, ?_⟩
  · intro h31
    obtain ⟨res, hres, hcase⟩ := www_cases rewind_p link data
    refine ⟨res, hres, ?_⟩
    rcases hcase with ⟨_, rfl⟩ | ⟨_, n, _, h3, hle, rfl⟩
    · exact ⟨⟨fun _ => ⟨rfl, rfl⟩, fun h => absurd h (Nat.lt_irrefl 0)⟩,
        fun h => absurd h (Nat.lt_irrefl 0)⟩
    · have hns := nonspace_len_le data.after
      unfold Window.size at h31
      have hc : int_cast n = n := int_cast_of_lt (by omega)
      refine ⟨⟨fun h => ?_, fun _ => ⟨?_, Nat.zero_le _, ?_⟩⟩, fun _ => rfl⟩
      · simp only [hc] at h; omega
      · show int_cast n ≤ data.after.length
        omega
      · show link ++ data.after.take n =
          link ++ ((data.before.take 0).reverse ++ data.after.take (int_cast n))
        rw [hc]; rfl
  · obtain ⟨res, hres, hspan⟩ := email_cases rewind_p link data
    exact ⟨res, hres, appends_match_of_span hspan⟩
  · obtain ⟨res, hres, hspan⟩ := url_cases rewind_p link data
    exact ⟨res, hres, appends_match_of_span hspan⟩
  · exact (subreddit_cases rewind_p link data data.offset).1
  · intro res hres
    rcases (subreddit_cases rewind_p link data data.offset).2 res hres with
      rfl | ⟨n, hn, hle, rfl⟩
    · exact ⟨⟨fun _ => ⟨rfl, rfl⟩, fun h => absurd h (Nat.lt_irrefl 0)⟩,
        fun h => absurd h (Nat.lt_irrefl 0)⟩
    · exact ⟨⟨fun h => by simp only at h; omega, fun _ => ⟨hle, Nat.zero_le _, rfl⟩⟩,
        fun _ => rfl⟩

theorem detectors_append_match_or_nothing_witness :
    ∃ res, sd_autolink__www 0 [] (Window.mk_at (bytes "see www.example.com/page. next") 4)
        (Window.mk_at (bytes "see www.example.com/page. next") 4).offset
        (Window.mk_at (bytes "see www.example.com/page. next") 4).size = .ok res ∧
      appends_match 0 [] (Window.mk_at (bytes "see www.example.com/page. next") 4) res ∧
      (0 < res.ret → res.rewind_p = 0) :=
  (detectors_append_match_or_nothing 0 []
    (Window.mk_at (bytes "see www.example.com/page. next") 4)).1 (by decide)

/-- C2 (failing input). On the window `www.` followed by `2 ^ 32 - 4` letters
`a` (size `2 ^ 32`, offset 0) the WWW detector appends the whole window to the
sink and returns 0: `(int)link_end` keeps the low 32 bits of `2 ^ 32`. -/
theorem www_appends_and_returns_zero :
    ∃ res, sd_autolink__www 0 [] ⟨[], bytes "www." ++ List.replicate (2 ^ 32 - 4) 97⟩ 0
        (2 ^ 32) = .ok res ∧
      res.ret = 0 ∧ res.link = bytes "www." ++ List.replicate (2 ^ 32 - 4) 97 ∧
      res.link ≠ [] := by
  obtain ⟨_, _, h3⟩ := www_letters 0 [] (2 ^ 32 - 4) (by norm_num)
  have e : 2 ^ 32 - 4 + 4 = 2 ^ 32 := by norm_num
  rw [e] at h3
  refine ⟨_, h3, ?_, ?_, ?_⟩
  · show int_cast (2 ^ 32) = 0
    decide
  · exact List.nil_append _
  · exact List.append_ne_nil_of_right_ne_nil _
      (List.append_ne_nil_of_left_ne_nil (List.cons_ne_nil _ _) _)

/-- The trimmer on a span without `<` that ends in a closer `c`: the closer is
dropped exactly when the counting loop finds different numbers of openers and
closers. -/
theorem autolink_delim_closer (data : Window) (n o s : Nat) (hn : 0 < n)
    (hle : n ≤ data.after.length) (hlt : ∀ c ∈ data.after.take n, c ≠ 60)
    (c : Nat) (hc : data.after[n - 1]? = some c) (hco : copen_of c ≠ 0) :
    autolink_delim data n o s =
      .ok (if (data.after.take n).countP (fun x => decide (x ≠ copen_of c) && decide (x = c)) ≠
              (data.after.take n).count (copen_of c)
           then n - 1 else n) := by
  have h1 := delim_lt_spec data n hle (n + 1) 0 (by omega) (by omega)
  simp only [Nat.zero_add, List.drop_zero] at h1
  rw [List.takeWhile_eq_self_iff.2 (fun x hx => by simpa using hlt x hx), List.length_take,
    Nat.min_eq_left hle] at h1
  have hlt1 : n - 1 < data.after.length := by omega
  have hc' : data.after[n - 1] = c := by
    rw [List.getElem?_eq_getElem hlt1] at hc
    exact Option.some.inj hc
  have hrd : data.rd_wrap (n - 1) = .ok c := by rw [rd_wrap_of_lt data hlt1, hc']
  obtain ⟨hs1, hs2⟩ := stop_byte_of_copen hco
  have h2 : delim_loop data (n + data.before.length + 3) n = .ok n := by
    unfold delim_loop
    rw [if_pos hn, hrd]
    simp only [ok_bind]
    rw [if_neg (by rw [hs1]; decide), if_neg hs2]
  unfold autolink_delim
  rw [h1]
  simp only [ok_bind]
  rw [h2]
  simp only [ok_bind]
  rw [if_neg (by omega), hrd]
  simp only [ok_bind]
  rw [if_pos hco, delim_count_spec data n _ _ hle (n + 1) 0 0 0 (by omega) (by omega)]
  simp only [ok_bind, Nat.zero_add, List.drop_zero]
  split <;> rfl

theorem scheme_names_valid : ∀ nm ∈ scheme_names.map bytes,
    nm ++ bytes "://" ∈ valid_uris ∧ (nm ++ bytes "://").map tolower = nm ++ bytes "://" := by
  decide

theorem domain_len_head {l : List Nat} (h : domain_len l ≠ 0) :
    ∃ c t, l = c :: t ∧ isalnum c = true := by
  cases l with
  | nil => exact absurd (by decide) h
  | cons c t =>
    refine ⟨c, t, rfl, ?_⟩
    by_contra hc
    apply h
    unfold domain_len
    rw [List.headD_cons, if_neg hc]


/-- C5. Let the window start with `://` and hold at least 4 bytes, let the
longest run `S` of alphabetic bytes in front of it be, up to ASCII case, one of
http, https, ftp, mailto, git, steam, irc, news, mumble, ssh, ircs, let
`check_domain` accept the bytes after `://`, and let `e` be the index of the
first white-space byte of the window (or its size).  If the bytes `[0, e)` hold
no `<`, end in `)` and hold different numbers of `)` and `(`, the URL detector
returns `e - 1` with rewind `|S|` and appends `S` followed by the window bytes
`[0, e - 1)`: exactly the final `)` is left out. -/
theorem url_drops_unmatched_paren (rewind_p : Nat) (link : List Nat) (data : Window)
    (rest : List Nat) (hstart : data.after = bytes "://" ++ rest) (hrest : rest ≠ [])
    (hscheme : ((data.before.takeWhile isalpha).reverse).map tolower ∈ scheme_names.map bytes)
    (hdom : ∃ d, check_domain (data.add 3) (data.size - 3) = .ok d ∧ d ≠ 0)
    (hlt : 60 ∉ data.after.take (nonspace_len data.after))
    (hlast : (data.after.take (nonspace_len data.after)).getLast? = some 41)
    (hcnt : (data.after.take (nonspace_len data.after)).count 41 ≠
      (data.after.take (nonspace_len data.after)).count 40) :
    sd_autolink__url rewind_p link data data.offset data.size =
      .ok ⟨nonspace_len data.after - 1, (data.before.takeWhile isalpha).length,
        link ++ ((data.before.takeWhile isalpha).reverse ++
          data.after.take (nonspace_len data.after - 1))⟩ := by
  unfold Window.offset Window.size at *
  have hafter : data.after = 58 :: 47 :: 47 :: rest := hstart
  obtain ⟨x, rest', hx⟩ : ∃ x t, rest = x :: t := by
    cases rest with
    | nil => exact absurd rfl hrest
    | cons x t => exact ⟨x, t, rfl⟩
  have hsize : data.after.length = rest.length + 3 := by rw [hafter]; simp
  have h4 : 4 ≤ data.after.length := by rw [hsize, hx]; simp
  -- the slashes
  obtain ⟨b, hb, hbiff⟩ := url_no_slashes_eval data
  have hbf : b = false := hbiff.2 ⟨h4, by rw [hafter]; simp, by rw [hafter]; simp⟩
  -- the lookbehind
  have hrew := url_rewind_spec data (data.before.length + 1) 0 (by omega) (by omega)
  simp only [Nat.zero_add, List.drop_zero] at hrew
  have hrle : (data.before.takeWhile isalpha).length ≤ data.before.length :=
    (List.takeWhile_sublist _).length_le
  have htake : data.before.take (data.before.takeWhile isalpha).length =
      data.before.takeWhile isalpha :=
    (List.prefix_iff_eq_take.1 (List.takeWhile_prefix isalpha)).symm
  -- the domain
  have hadd : (data.add 3).after = rest := by
    unfold Window.add; rw [hafter]; rfl
  have hcd := check_domain_spec (data.add 3) (by rw [hadd, hx]; simp)
  rw [hadd] at hcd
  have hsub3 : data.after.length - 3 = rest.length := by omega
  obtain ⟨d, hd, hd0⟩ := hdom
  rw [hsub3, hcd] at hd
  have hdl : domain_len rest = d := Except.ok.inj hd
  have hdn : domain_len rest ≠ 0 := by rw [hdl]; exact hd0
  obtain ⟨c0, t0, hc0, halnum⟩ := domain_len_head hdn
  -- the safety test
  have hsz : data.after.length + (data.before.takeWhile isalpha).length
      ≤ (data.sub (data.before.takeWhile isalpha).length).after.length := by
    unfold Window.sub
    simp only [List.length_append, List.length_reverse, List.length_take]
    omega
  obtain ⟨s, hs, hsiff⟩ := issafe_loop_spec (data.sub (data.before.takeWhile isalpha).length)
    (data.after.length + (data.before.takeWhile isalpha).length) hsz valid_uris
    valid_uris_nonzero
  rw [sub_after_take data _ hrle, htake] at hsiff
  obtain ⟨huv, hlow⟩ := scheme_names_valid _ hscheme
  have hsafe : s = true := by
    apply hsiff.2
    refine ⟨_, huv, ?_, ?_, c0, ?_, Or.inl halnum⟩
    · simp only [List.length_append, List.length_map, List.length_reverse]
      have : (bytes "://").length = 3 := rfl
      omega
    · rw [hlow, hafter]
      have e1 : (List.map tolower (data.before.takeWhile isalpha).reverse ++ bytes "://").length
          = ((data.before.takeWhile isalpha).reverse ++ [58, 47, 47]).length := by
        simp only [List.length_append, List.length_map]; rfl
      have e2 : (data.before.takeWhile isalpha).reverse ++ 58 :: 47 :: 47 :: rest =
          ((data.before.takeWhile isalpha).reverse ++ [58, 47, 47]) ++ rest := by simp
      rw [e1, e2, List.take_left, List.map_append]
      rfl
    · rw [hafter, hc0]
      have e1 : (List.map tolower (data.before.takeWhile isalpha).reverse ++ bytes "://").length
          = ((data.before.takeWhile isalpha).reverse ++ [58, 47, 47]).length := by
        simp only [List.length_append, List.length_map]; rfl
      have e2 : (data.before.takeWhile isalpha).reverse ++ 58 :: 47 :: 47 :: c0 :: t0 =
          ((data.before.takeWhile isalpha).reverse ++ [58, 47, 47]) ++ c0 :: t0 := by simp
      rw [e1, e2, List.getElem?_append_right (le_refl _), Nat.sub_self]
      simp
  -- the forward scan
  have hpre : ∀ a ∈ data.after.take (3 + domain_len rest), (!isspace a) = true := by
    intro a ha
    rw [hafter] at ha
    have e3 : List.take (3 + domain_len rest) (58 :: 47 :: 47 :: rest) =
        58 :: 47 :: 47 :: List.take (domain_len rest) rest := by
      rw [Nat.add_comm]; rfl
    rw [e3] at ha
    simp only [List.mem_cons] at ha
    rcases ha with rfl | rfl | rfl | ha
    · decide
    · decide
    · decide
    · simp [domain_byte_not_space ((domain_len_run rest hdn).2 a ha)]
  have hdlt := (domain_len_run rest hdn).1
  have hskip : 3 + domain_len rest +
      ((data.after.drop (3 + domain_len rest)).takeWhile (fun c => !isspace c)).length =
        nonspace_len data.after := by
    unfold nonspace_len
    rw [takeWhile_length_split (fun c => !isspace c) data.after (3 + domain_len rest) hpre,
      List.length_take, Nat.min_eq_left (by omega)]
  -- the trimmer
  have hele := nonspace_len_le data.after
  have he4 : 4 ≤ nonspace_len data.after := by
    rw [← hskip]
    have : 0 < domain_len rest := Nat.pos_of_ne_zero hdn
    omega
  have hlastb : data.after[nonspace_len data.after - 1]? = some 41 := by
    rw [List.getLast?_eq_getElem?, List.length_take, Nat.min_eq_left hele,
      List.getElem?_take_of_lt (by omega)] at hlast
    exact hlast
  have hdelim := autolink_delim_closer data (nonspace_len data.after) data.before.length
    data.after.length (by omega) hele (fun c hc h60 => hlt (h60 ▸ hc)) 41 hlastb (by decide)
  have hcountP : (data.after.take (nonspace_len data.after)).countP
      (fun x => decide (x ≠ copen_of 41) && decide (x = 41)) =
      (data.after.take (nonspace_len data.after)).count 41 := by
    rw [List.count, List.countP_congr]
    intro x _
    have : copen_of 41 = 40 := by decide
    rw [this]
    simp only [Bool.and_eq_true, decide_eq_true_eq, beq_iff_eq]
    omega
  rw [hcountP, show copen_of 41 = 40 from by decide, if_pos hcnt] at hdelim
  -- the detector
  unfold sd_autolink__url sd_autolink_issafe
  rw [hb, hbf]
  simp only [ok_bind, Bool.false_eq_true, if_false]
  rw [hrew]
  simp only [ok_bind]
  rw [hs, hsafe]
  simp only [ok_bind, Bool.not_true, Bool.false_eq_true, if_false]
  rw [size_sub_of_le (by omega), hsub3, hcd]
  simp only [ok_bind]
  rw [if_neg hdn, skip_nonspace_spec data _ _ (by omega) (by omega), hskip]
  simp only [ok_bind]
  rw [hdelim]
  simp only [ok_bind]
  rw [if_neg (by omega), bufput_sub link data _ _ hrle (by omega), htake]
  rfl

theorem url_drops_unmatched_paren_witness :
    sd_autolink__url 0 [] (Window.mk_at (bytes "(visit http://example.com/x(y))") 11)
        (Window.mk_at (bytes "(visit http://example.com/x(y))") 11).offset
        (Window.mk_at (bytes "(visit http://example.com/x(y))") 11).size =
      .ok ⟨19, 4, bytes "http://example.com/x(y)"⟩ :=
  url_drops_unmatched_paren 0 [] (Window.mk_at (bytes "(visit http://example.com/x(y))") 11)
    (bytes "example.com/x(y))") rfl (by decide) (by decide) ⟨11, rfl, by decide⟩
    (by decide) rfl (by decide)

/-- C7 (failing input). With a NUL byte in front of `@b.c` the run of
alphanumeric, `.`, `+`, `-`, `_` bytes before the candidate is empty, yet the
email detector matches: `strchr(".+-_", 0)` finds the terminator of the
literal, so the lookbehind walks over the NUL, and the detector returns 4 with
rewind 1 and appends the NUL and `@b.c`. -/
theorem email_rewinds_over_nul :
    (([0] : List Nat).takeWhile local_part_byte).length = 0 ∧
    sd_autolink__email 0 [] ⟨[0], bytes "@b.c"⟩ 1 4 = .ok ⟨4, 1, 0 :: bytes "@b.c"⟩ :=
  ⟨rfl, rfl⟩

theorem email_forward_exact (data : Window) :
    ∀ (fuel i nb np : Nat), 0 < fuel → data.after.length < fuel + i →
      email_forward data data.after.length fuel i (nb % 2 ^ 32) (np % 2 ^ 32) =
        .ok (i + ((List.enumFrom i (data.after.drop i)).takeWhile
                (email_go data.after.length)).length,
             (nb + (((List.enumFrom i (data.after.drop i)).takeWhile
                (email_go data.after.length)).map Prod.snd).count 64) % 2 ^ 32,
             (np + (((List.enumFrom i (data.after.drop i)).takeWhile
                (email_go data.after.length)).map Prod.snd).count 46) % 2 ^ 32) := by
  intro fuel
  induction fuel with
  | zero => intro i nb np h; omega
  | succ f ih =>
    intro i nb np _ hf
    by_cases h : i < data.after.length
    · have hdrop := List.drop_eq_getElem_cons h
      rw [hdrop, List.enumFrom_cons, List.takeWhile_cons]
      simp only [email_forward, h, if_true, rd_of_lt data h, ok_bind]
      have e1 : ∀ x : Nat, i + 1 + x = i + (x + 1) := fun x => by omega
      by_cases ha : isalnum data.after[i] = true
      · have hne : data.after[i] ≠ 46 ∧ data.after[i] ≠ 64 := by
          simp only [isalnum, isalpha, isupper, islower, isdigit, Bool.or_eq_true,
            decide_eq_true_eq, Bool.and_eq_true] at ha
          omega
        have hgo : email_go data.after.length (i, data.after[i]) = true := by
          simp [email_go, email_byte, ha, hne.1]
        rw [if_pos ha, hgo, ih (i + 1) nb np (by omega) (by omega)]
        simp only [if_true, List.length_cons, List.map_cons,
          List.count_cons_of_ne (Ne.symm hne.1), List.count_cons_of_ne (Ne.symm hne.2), e1]
      · rw [if_neg ha]
        by_cases hat : data.after[i] = 64
        · have hgo : email_go data.after.length (i, data.after[i]) = true := by
            simp [email_go, email_byte, hat]
          rw [if_pos hat, hgo]
          have := ih (i + 1) (nb + 1) np (by omega) (by omega)
          have hincr : int_incr (nb % 2 ^ 32) = (nb + 1) % 2 ^ 32 := by
            unfold int_incr; omega
          rw [hincr, this]
          simp only [if_true, List.length_cons, List.map_cons, hat, List.count_cons_self,
            List.count_cons_of_ne (show (46 : Nat) ≠ 64 by decide), e1]
          congr 3
          omega
        · rw [if_neg hat]
          by_cases h46 : data.after[i] = 46
          · by_cases hlast : i < size_sub data.after.length 1
            · have hgo : email_go data.after.length (i, data.after[i]) = true := by
                rw [size_sub_of_le (by omega)] at hlast
                simp [email_go, email_byte, h46]
                omega
              rw [if_pos (by simp [h46, hlast]), hgo]
              have := ih (i + 1) nb (np + 1) (by omega) (by omega)
              have hincr : int_incr (np % 2 ^ 32) = (np + 1) % 2 ^ 32 := by
                unfold int_incr; omega
              rw [hincr, this]
              simp only [if_true, List.length_cons, List.map_cons, h46, List.count_cons_self,
                List.count_cons_of_ne (show (64 : Nat) ≠ 46 by decide), e1]
              congr 3
              omega
            · have hgo : email_go data.after.length (i, data.after[i]) = false := by
                rw [size_sub_of_le (by omega)] at hlast
                simp [email_go, email_byte, h46]
                omega
              rw [if_neg (by simp [hlast]), if_pos (by simp [h46]), hgo]
              simp
          · rw [if_neg (by simp [h46])]
            by_cases hstop : (decide (data.after[i] ≠ 45) && decide (data.after[i] ≠ 95)) = true
            · have hgo : email_go data.after.length (i, data.after[i]) = false := by
                simp only [Bool.and_eq_true, decide_eq_true_eq] at hstop
                simp [email_go, email_byte, ha, hat, h46, hstop.1, hstop.2]
              rw [if_pos hstop, hgo]
              simp
            · have hgo : email_go data.after.length (i, data.after[i]) = true := by
                simp only [Bool.and_eq_true, decide_eq_true_eq, not_and, ne_eq,
                  Decidable.not_not] at hstop
                by_cases h45 : data.after[i] = 45
                · simp [email_go, email_byte, h45]
                · simp [email_go, email_byte, hstop h45]
              rw [if_neg hstop, hgo, ih (i + 1) nb np (by omega) (by omega)]
              simp only [if_true, List.length_cons, List.map_cons,
                List.count_cons_of_ne (Ne.symm h46), List.count_cons_of_ne (Ne.symm hat), e1]
    · rw [List.drop_eq_nil_of_le (by omega)]
      simp [email_forward, h]

theorem map_snd_takeWhile_enumFrom (p : Nat × Nat → Bool) :
    ∀ (l : List Nat) (i : Nat),
      ((List.enumFrom i l).takeWhile p).map Prod.snd =
        l.take ((List.enumFrom i l).takeWhile p).length := by
  intro l
  induction l with
  | nil => intro i; rfl
  | cons a t ih =>
    intro i
    rw [List.enumFrom_cons, List.takeWhile_cons]
    by_cases h : p (i, a) = true
    · simp only [h, if_true, List.map_cons, List.length_cons, List.take_succ_cons, ih (i + 1)]
    · simp [h]

theorem takeWhile_congr_mem {p q : Nat → Bool} :
    ∀ (l : List Nat), (∀ c ∈ l, p c = q c) → l.takeWhile p = l.takeWhile q := by
  intro l
  induction l with
  | nil => intro _; rfl
  | cons a t ih =>
    intro h
    rw [List.takeWhile_cons, List.takeWhile_cons, h a (by simp),
      ih (fun c hc => h c (by simp [hc]))]

theorem email_scan_le (l : List Nat) : email_scan l ≤ l.length := by
  unfold email_scan
  have := (List.takeWhile_sublist (l := l.enum) (email_go l.length)).length_le
  rw [List.enum_length] at this
  exact this

theorem email_scan_bytes (l : List Nat) : ∀ c ∈ l.take (email_scan l), email_byte c = true := by
  intro c hc
  unfold email_scan at hc
  rw [List.enum, ← map_snd_takeWhile_enumFrom] at hc
  obtain ⟨p, hp, rfl⟩ := List.mem_map.1 hc
  have := List.mem_takeWhile_imp hp
  simp only [email_go, Bool.and_eq_true] at this
  exact this.1

theorem email_byte_trim {c : Nat} (h : email_byte c = true) :
    (strchr (bytes "?!.,") c = true ↔ c = 46) ∧ c ≠ 59 ∧ copen_of c = 0 ∧ c ≠ 60 := by
  have hb : c = 64 ∨ c = 46 ∨ c = 45 ∨ c = 95 ∨ isalnum c = true := by
    simp only [email_byte, Bool.or_eq_true, decide_eq_true_eq] at h
    tauto
  have hr : (48 ≤ c ∧ c ≤ 57) ∨ (65 ≤ c ∧ c ≤ 90) ∨ (97 ≤ c ∧ c ≤ 122) ∨
      c = 64 ∨ c = 46 ∨ c = 45 ∨ c = 95 := by
    rcases hb with h | h | h | h | h
    · omega
    · omega
    · omega
    · omega
    · simp only [isalnum, isalpha, isupper, islower, isdigit, Bool.or_eq_true,
        decide_eq_true_eq, Bool.and_eq_true] at h
      omega
  have hs : strchr (bytes "?!.,") c = true ↔ c = 0 ∨ c ∈ [63, 33, 46, 44] := by
    unfold strchr
    show (c == 0 || [63, 33, 46, 44].contains c) = true ↔ _
    rw [Bool.or_eq_true, beq_iff_eq, List.contains, List.elem_iff]
  refine ⟨?_, by omega, ?_, by omega⟩
  · rw [hs]
    simp only [List.mem_cons, List.mem_singleton, List.not_mem_nil, or_false]
    omega
  · unfold copen_of
    rw [if_neg (by omega), if_neg (by omega), if_neg (by omega), if_neg (by omega),
      if_neg (by omega)]

theorem trailing_dots_snoc (l : List Nat) (c : Nat) :
    trailing_dots (l ++ [c]) = if c = 46 then trailing_dots l + 1 else 0 := by
  unfold trailing_dots
  rw [List.reverse_append, List.reverse_singleton, List.singleton_append, List.takeWhile_cons]
  by_cases h : c = 46
  · simp [h]
  · simp [h]

theorem trailing_dots_le (l : List Nat) : trailing_dots l ≤ l.length := by
  unfold trailing_dots
  have := (List.takeWhile_sublist (l := l.reverse) (fun c => c == 46)).length_le
  rw [List.length_reverse] at this
  exact this

theorem delim_loop_email (data : Window) :
    ∀ (fuel l : Nat), l < fuel → l ≤ data.after.length →
      (∀ c ∈ data.after.take l, email_byte c = true) →
      delim_loop data fuel l = .ok (l - trailing_dots (data.after.take l)) := by
  intro fuel
  induction fuel with
  | zero => intro l h; omega
  | succ f ih =>
    intro l hf hl hall
    by_cases h0 : l > 0
    · have hlt : l - 1 < data.after.length := by omega
      have htake : data.after.take l = data.after.take (l - 1) ++ [data.after[l - 1]] := by
        have : l = l - 1 + 1 := by omega
        conv_lhs => rw [this]
        rw [List.take_succ, List.getElem?_eq_getElem hlt]
        rfl
      have hb : email_byte data.after[l - 1] = true :=
        hall _ (by rw [htake]; exact List.mem_append_right _ (List.mem_singleton_self _))
      obtain ⟨hdot, h59, _, _⟩ := email_byte_trim hb
      simp only [delim_loop, h0, if_true, rd_wrap_of_lt data hlt, ok_bind]
      rw [htake, trailing_dots_snoc]
      by_cases hd : data.after[l - 1] = 46
      · rw [if_pos (hdot.2 hd), if_pos hd,
          ih (l - 1) (by omega) (by omega) (fun c hc => hall c (by rw [htake]; exact List.mem_append_left _ hc))]
        congr 1
        have := trailing_dots_le (data.after.take (l - 1))
        rw [List.length_take] at this
        omega
      · rw [if_neg (fun h => hd (hdot.1 h)), if_neg h59, if_neg hd]
        rfl
    · have : l = 0 := by omega
      subst this
      simp [delim_loop, trailing_dots]

theorem autolink_delim_email (data : Window) (k o s : Nat) (hk : k ≤ data.after.length)
    (hall : ∀ c ∈ data.after.take k, email_byte c = true) :
    autolink_delim data k o s = .ok (k - trailing_dots (data.after.take k)) := by
  have h1 := delim_lt_spec data k hk (k + 1) 0 (by omega) (by omega)
  simp only [Nat.zero_add, List.drop_zero] at h1
  rw [List.takeWhile_eq_self_iff.2
    (fun x hx => by simpa using (email_byte_trim (hall x hx)).2.2.2),
    List.length_take, Nat.min_eq_left hk] at h1
  unfold autolink_delim
  rw [h1]
  simp only [ok_bind]
  rw [delim_loop_email data (k + data.before.length + 3) k (by omega) hk hall]
  simp only [ok_bind]
  by_cases hz : k - trailing_dots (data.after.take k) = 0
  · rw [if_pos hz, hz]
  · have hlt : k - trailing_dots (data.after.take k) - 1 < data.after.length := by omega
    rw [if_neg hz, rd_wrap_of_lt data hlt]
    simp only [ok_bind]
    have hmem : data.after[k - trailing_dots (data.after.take k) - 1] ∈ data.after.take k := by
      rw [List.mem_take_iff_getElem]
      exact ⟨k - trailing_dots (data.after.take k) - 1, by omega, rfl⟩
    rw [if_neg (not_not.2 (email_byte_trim (hall _ hmem)).2.2.1)]

theorem local_part_byte_eq {c : Nat} (h : c ≠ 0) :
    (isalnum c || strchr (bytes ".+-_") c) = local_part_byte c := by
  have hs : strchr (bytes ".+-_") c = (decide (c = 46) || decide (c = 43) || decide (c = 45) ||
      decide (c = 95)) := by
    rw [Bool.eq_iff_iff]
    unfold strchr
    show (c == 0 || [46, 43, 45, 95].contains c) = true ↔ _
    rw [Bool.or_eq_true, beq_iff_eq, List.contains, List.elem_iff]
    simp only [List.mem_cons, List.mem_singleton, List.not_mem_nil, or_false, Bool.or_eq_true,
      decide_eq_true_eq]
    omega
  rw [hs]
  unfold local_part_byte
  simp only [Bool.or_assoc]

theorem trailing_dots_lt {l : List Nat} (h : 64 ∈ l) : trailing_dots l < l.length := by
  have hle := trailing_dots_le l
  by_contra hcon
  have heq : (l.reverse.takeWhile (fun c => c == 46)).length = l.reverse.length := by
    rw [List.length_reverse]
    unfold trailing_dots at hle hcon
    omega
  have hself : l.reverse.takeWhile (fun c => c == 46) = l.reverse :=
    (List.takeWhile_prefix _).eq_of_length heq
  have := List.takeWhile_eq_self_iff.1 hself 64 (List.mem_reverse.2 h)
  simp at this

/-- Supports C7: the email detector on windows shorter than `2 ^ 31` bytes
whose lookbehind holds no NUL byte.  Let `r` be the length of the longest run
of alphanumeric, `.`, `+`, `-`, `_` bytes in front of the candidate and `k` the
index at which the forward scan stops.  If `r ≥ 1`, `k ≥ 2` and the bytes
`[0, k)` hold exactly one `@` and at least one `.`, the detector returns `k`
minus the number of `.` bytes that end `[0, k)`, which is positive, reports the
rewind `r` and appends the window bytes from `-r` up to the returned length;
otherwise it returns 0 and leaves the sink and the rewind output alone. -/
theorem email_match (rewind_p : Nat) (link : List Nat) (data : Window)
    (hsz : data.size < 2 ^ 31) (hnul : 0 ∉ data.before) :
    ((1 ≤ (data.before.takeWhile local_part_byte).length ∧ 2 ≤ email_scan data.after ∧
        (data.after.take (email_scan data.after)).count 64 = 1 ∧
        1 ≤ (data.after.take (email_scan data.after)).count 46) →
      0 < email_scan data.after - trailing_dots (data.after.take (email_scan data.after)) ∧
      sd_autolink__email rewind_p link data data.offset data.size =
        .ok ⟨email_scan data.after - trailing_dots (data.after.take (email_scan data.after)),
          (data.before.takeWhile local_part_byte).length,
          link ++ ((data.before.take (data.before.takeWhile local_part_byte).length).reverse ++
            data.after.take (email_scan data.after -
              trailing_dots (data.after.take (email_scan data.after))))⟩) ∧
    (¬ (1 ≤ (data.before.takeWhile local_part_byte).length ∧ 2 ≤ email_scan data.after ∧
        (data.after.take (email_scan data.after)).count 64 = 1 ∧
        1 ≤ (data.after.take (email_scan data.after)).count 46) →
      sd_autolink__email rewind_p link data data.offset data.size =
        .ok ⟨0, rewind_p, link⟩) := by
  unfold Window.size at hsz
  unfold Window.offset Window.size
  have hrew := email_rewind_spec data (data.before.length + 1) 0 (by omega) (by omega)
  simp only [Nat.zero_add, List.drop_zero] at hrew
  rw [takeWhile_congr_mem data.before (fun c hc =>
    local_part_byte_eq (fun h0 => hnul (h0 ▸ hc)))] at hrew
  have hrle : (data.before.takeWhile local_part_byte).length ≤ data.before.length :=
    (List.takeWhile_sublist _).length_le
  have hfwd := email_forward_exact data (data.after.length + 1) 0 0 0 (by omega) (by omega)
  simp only [Nat.zero_mod, Nat.zero_add, List.drop_zero] at hfwd
  have hk : ((List.enumFrom 0 data.after).takeWhile (email_go data.after.length)).length =
      email_scan data.after := rfl
  have hmap := map_snd_takeWhile_enumFrom (email_go data.after.length) data.after 0
  rw [hmap, hk] at hfwd
  have hkle := email_scan_le data.after
  have hc64 : (data.after.take (email_scan data.after)).count 64 % 2 ^ 32 =
      (data.after.take (email_scan data.after)).count 64 := by
    apply Nat.mod_eq_of_lt
    have := List.count_le_length 64 (data.after.take (email_scan data.after))
    rw [List.length_take] at this
    omega
  have hc46 : (data.after.take (email_scan data.after)).count 46 % 2 ^ 32 =
      (data.after.take (email_scan data.after)).count 46 := by
    apply Nat.mod_eq_of_lt
    have := List.count_le_length 46 (data.after.take (email_scan data.after))
    rw [List.length_take] at this
    omega
  rw [hc64, hc46] at hfwd
  have hdelim := autolink_delim_email data (email_scan data.after) data.before.length
    data.after.length hkle (email_scan_bytes data.after)
  constructor
  · rintro ⟨hr, hk2, h64, h46⟩
    have htd : trailing_dots (data.after.take (email_scan data.after)) <
        email_scan data.after := by
      have := trailing_dots_lt (l := data.after.take (email_scan data.after))
        (List.count_pos_iff.1 (by omega))
      rw [List.length_take] at this
      omega
    refine ⟨by omega, ?_⟩
    unfold sd_autolink__email
    rw [hrew]
    simp only [ok_bind]
    rw [if_neg (show ¬ (data.before.takeWhile local_part_byte).length = 0 by omega), hfwd]
    simp only [ok_bind]
    rw [if_neg (by
      simp only [Bool.or_eq_true, decide_eq_true_eq, not_or]
      exact ⟨⟨by omega, by omega⟩, by omega⟩), hdelim]
    simp only [ok_bind]
    rw [if_neg (by omega), bufput_sub link data _ _ hrle (by omega)]
    rfl
  · intro hno
    unfold sd_autolink__email
    rw [hrew]
    simp only [ok_bind]
    by_cases hr : (data.before.takeWhile local_part_byte).length = 0
    · rw [if_pos hr]
    · rw [if_neg hr, hfwd]
      simp only [ok_bind]
      rw [if_pos]
      simp only [Bool.or_eq_true, decide_eq_true_eq]
      by_contra hcon
      apply hno
      omega

theorem email_match_witness :
    sd_autolink__email 0 [] (Window.mk_at (bytes "contact me at a.b-c@example.com.") 19)
        (Window.mk_at (bytes "contact me at a.b-c@example.com.") 19).offset
        (Window.mk_at (bytes "contact me at a.b-c@example.com.") 19).size =
      .ok ⟨12, 5, bytes "a.b-c@example.com"⟩ :=
  ((email_match 0 [] (Window.mk_at (bytes "contact me at a.b-c@example.com.") 19)
    (by decide) (by decide)).1 ⟨by decide, by decide, by decide, by decide⟩).2

/-! ## The username detector on every window that starts with `~` -/

theorem username_strike_spec (data : Window) (n : Nat) (hn : n ≤ data.after.length) :
    username_strike data n = .ok (decide (strike_cond data.after n)) := by
  unfold username_strike strike_cond
  by_cases h5 : 5 < n
  · rw [if_pos h5, rd_of_lt data (show n - 1 < data.after.length by omega),
      rd_of_lt data (show n - 2 < data.after.length by omega),
      rd_of_lt data (show 1 < data.after.length by omega),
      rd_of_lt data (show 2 < data.after.length by omega)]
    simp only [ok_bind]
    have e1 := List.getElem?_eq_getElem (l := data.after) (show n - 1 < data.after.length by omega)
    have e2 := List.getElem?_eq_getElem (l := data.after) (show n - 2 < data.after.length by omega)
    have e3 := List.getElem?_eq_getElem (l := data.after) (show 1 < data.after.length by omega)
    have e4 := List.getElem?_eq_getElem (l := data.after) (show 2 < data.after.length by omega)
    simp only [e1, e2, e3, e4, Option.some.injEq]
    by_cases ha : data.after[n - 1] = 126
    · by_cases hb : data.after[n - 2] = 126
      · by_cases hc : data.after[1] = 126
        · by_cases hd : data.after[2] = 126
          · simp [h5, ha, hb, hc, hd]
          · simp [h5, ha, hb, hc, hd]
        · simp [h5, ha, hb, hc]
      · simp [h5, ha, hb]
    · simp [h5, ha]
  · rw [if_neg h5]
    simp [h5]

/-- The username detector on a window that starts with `~`, flag clear on entry,
in terms of the scanned run. -/
theorem username_eval (rewind_p : Nat) (link : List Nat) (data : Window) (o : Nat)
    (h0 : data.after.head? = some 126) :
    sd_autolink__username rewind_p link data o data.after.length 0 =
      if ((data.after.drop 1).takeWhile username_byte).count 126 % 256 ≠ 0 ∧
          ((data.after.drop 1).takeWhile username_byte).count 126 % 256 ≠ 4 then
        .ok ⟨0, rewind_p, link, 0⟩
      else if strike_cond data.after (1 + ((data.after.drop 1).takeWhile username_byte).length) then
        .ok ⟨1 + ((data.after.drop 1).takeWhile username_byte).length, 0,
          link ++ (data.after.drop 2).take
            (1 + ((data.after.drop 1).takeWhile username_byte).length - 4), 1⟩
      else if ((data.after.drop 1).takeWhile username_byte).count 126 % 256 ≠ 0 then
        .ok ⟨0, rewind_p, link, 0⟩
      else
        .ok ⟨1 + ((data.after.drop 1).takeWhile username_byte).length, 0,
          link ++ data.after.take (1 + ((data.after.drop 1).takeWhile username_byte).length),
          0⟩ := by
  obtain ⟨before, after⟩ := data
  cases after with
  | nil => simp at h0
  | cons a rest =>
    simp only [List.head?_cons, Option.some.injEq] at h0
    subst h0
    have hlen : (((126 :: rest).drop 1).takeWhile username_byte).length ≤ rest.length := by
      simpa using (List.takeWhile_sublist (l := rest) username_byte).length_le
    generalize hseg : ((126 :: rest).drop 1).takeWhile username_byte = seg at hlen
    unfold sd_autolink__username
    rw [if_neg (show ¬ (126 :: rest).length < 1 by simp)]
    have hr0 : (⟨before, 126 :: rest⟩ : Window).rd 0 = .ok 126 := by simp [Window.rd]
    rw [hr0]
    simp only [ok_bind]
    rw [if_neg (by decide)]
    have hloop := username_loop_spec ⟨before, 126 :: rest⟩ ((126 :: rest).length + 1) 1 0
      (by omega) (by simp) (by decide)
    simp only [] at hloop
    rw [hseg] at hloop
    rw [hloop]
    simp only [ok_bind, Nat.zero_add]
    by_cases hrej : seg.count 126 % 256 ≠ 0 ∧ seg.count 126 % 256 ≠ 4
    · rw [if_pos hrej, if_pos (by simp [hrej.1, hrej.2])]
    · rw [if_neg hrej, if_neg (by simpa using hrej)]
      rw [username_strike_spec _ _ (by simp; omega)]
      simp only [ok_bind]
      by_cases hs : strike_cond (126 :: rest) (1 + seg.length)
      · rw [if_pos hs]
        simp only [hs, decide_True, if_true]
        rw [if_neg (by simp), if_pos (by decide)]
        have h5 : 5 < 1 + seg.length := hs.1
        rw [size_sub_of_le (by omega)]
        unfold bufput
        rw [if_pos (by simp [Window.size, Window.add]; omega)]
        rfl
      · rw [if_neg hs]
        simp only [hs, decide_False, Bool.false_eq_true, if_false]
        by_cases ht : seg.count 126 % 256 ≠ 0
        · rw [if_pos ht, if_pos (by simp [ht])]
        · rw [if_neg ht, if_neg (by simpa using ht), if_neg (by decide)]
          unfold bufput
          rw [if_pos (by simp [Window.size]; omega)]
          rfl

theorem two_last (t : List Nat) (x y : Nat) (h : 2 ≤ t.length)
    (h1 : t[t.length - 2]? = some x) (h2 : t[t.length - 1]? = some y) :
    t = t.take (t.length - 2) ++ [x, y] := by
  have e1 := List.getElem?_eq_getElem (l := t) (show t.length - 2 < t.length by omega)
  have e2 := List.getElem?_eq_getElem (l := t) (show t.length - 1 < t.length by omega)
  rw [e1] at h1; rw [e2] at h2
  simp only [Option.some.injEq] at h1 h2
  have d1 : t.drop (t.length - 2) = t[t.length - 2] :: t.drop (t.length - 2 + 1) :=
    List.drop_eq_getElem_cons (by omega)
  have hidx : t.length - 2 + 1 = t.length - 1 := by omega
  have d2 : t.drop (t.length - 1) = t[t.length - 1] :: t.drop (t.length - 1 + 1) :=
    List.drop_eq_getElem_cons (by omega)
  have d3 : t.drop (t.length - 1 + 1) = [] := List.drop_of_length_le (by omega)
  rw [hidx, d2, d3, h1, h2] at d1
  conv_lhs => rw [← List.take_append_drop (t.length - 2) t, d1]

theorem strike_cond_iff (seg tail : List Nat) :
    strike_cond (126 :: (seg ++ tail)) (1 + seg.length) ↔
      ∃ X, X ≠ [] ∧ seg = 126 :: 126 :: (X ++ [126, 126]) := by
  unfold strike_cond
  constructor
  · rintro ⟨h5, ha, hb, hc, hd⟩
    rcases seg with _ | ⟨a, _ | ⟨b, t⟩⟩
    · simp at h5
    · simp at h5
    · simp only [List.length_cons] at h5
      have ia : 1 + (a :: b :: t).length - 1 = (t.length - 1) + 1 + 1 + 1 := by
        simp only [List.length_cons]; omega
      have ib : 1 + (a :: b :: t).length - 2 = (t.length - 2) + 1 + 1 + 1 := by
        simp only [List.length_cons]; omega
      rw [ia] at ha
      rw [ib] at hb
      simp only [List.cons_append, List.getElem?_cons_succ] at ha hb hc hd
      rw [List.getElem?_append_left (by omega)] at ha hb
      simp only [List.getElem?_cons_zero, Option.some.injEq] at hc
      have hd2 : b = 126 := by simpa using hd
      subst hc; subst hd2
      refine ⟨t.take (t.length - 2), ?_, ?_⟩
      · intro hnil
        have := congrArg List.length hnil
        simp only [List.length_take, List.length_nil] at this
        omega
      · have := two_last t 126 126 (by omega) hb ha
        rw [← this]
  · rintro ⟨X, hX, rfl⟩
    have hpos : 0 < X.length := List.length_pos.2 hX
    have ia : 1 + (126 :: 126 :: (X ++ [126, 126])).length - 1 = (X.length + 1) + 1 + 1 + 1 := by
      simp only [List.length_cons, List.length_append, List.length_nil]; omega
    have ib : 1 + (126 :: 126 :: (X ++ [126, 126])).length - 2 = X.length + 1 + 1 + 1 := by
      simp only [List.length_cons, List.length_append, List.length_nil]; omega
    refine ⟨?_, ?_, ?_, ?_, ?_⟩
    · simp only [List.length_cons, List.length_append, List.length_nil]; omega
    · rw [ia]
      simp only [List.cons_append, List.getElem?_cons_succ, List.append_assoc]
      rw [List.getElem?_append_right (by omega)]
      simp
    · rw [ib]
      simp only [List.cons_append, List.getElem?_cons_succ, List.append_assoc]
      rw [List.getElem?_append_right (by omega)]
      simp
    · simp
    · simp

theorem head_tilde {l : List Nat} (h : l.head? = some 126) : l = 126 :: l.drop 1 := by
  cases l with
  | nil => simp at h
  | cons a t =>
    simp only [List.head?_cons, Option.some.injEq] at h
    subst h; rfl

/-- The strikethrough test in terms of the scanned run. -/
theorem strike_cond_run (l : List Nat) (h : l.head? = some 126) :
    strike_cond l (1 + ((l.drop 1).takeWhile username_byte).length) ↔
      ∃ X, X ≠ [] ∧ (l.drop 1).takeWhile username_byte = 126 :: 126 :: (X ++ [126, 126]) := by
  have e : l = 126 :: ((l.drop 1).takeWhile username_byte ++
      (l.drop 1).dropWhile username_byte) := by
    rw [List.takeWhile_append_dropWhile]
    exact head_tilde h
  have := strike_cond_iff ((l.drop 1).takeWhile username_byte)
    ((l.drop 1).dropWhile username_byte)
  rw [← e] at this
  exact this

/-- C11. Let the first byte of the window be `~`, let the maximal run of
alphanumeric, `_`, `-` and `~` bytes after it have length `m` and hold no `~`,
and let the deletion flag be clear on entry: the username detector returns
`1 + m` with rewind 0, appends the window bytes `[0, 1 + m)` to the sink and
leaves the flag clear.  If the first byte is not `~`, or the window is empty,
it returns 0 and leaves sink, rewind output and flag as they were. -/
theorem username_plain_shape (rewind_p : Nat) (link : List Nat) (data : Window) (offset : Nat) :
    (data.after.head? = some 126 → 126 ∉ (data.after.drop 1).takeWhile username_byte →
      sd_autolink__username rewind_p link data offset data.size 0 =
        .ok ⟨1 + ((data.after.drop 1).takeWhile username_byte).length, 0,
          link ++ data.after.take (1 + ((data.after.drop 1).takeWhile username_byte).length),
          0⟩) ∧
    (data.after.head? ≠ some 126 → ∀ flag,
      sd_autolink__username rewind_p link data offset data.size flag =
        .ok ⟨0, rewind_p, link, flag⟩) := by
  constructor
  · intro h0 hno
    unfold Window.size
    rw [username_eval rewind_p link data offset h0]
    have hc : ((data.after.drop 1).takeWhile username_byte).count 126 = 0 :=
      List.count_eq_zero_of_not_mem hno
    have hs : ¬ strike_cond data.after
        (1 + ((data.after.drop 1).takeWhile username_byte).length) := by
      intro hs
      obtain ⟨X, _, hX⟩ := (strike_cond_run data.after h0).1 hs
      apply hno
      rw [hX]
      exact List.mem_cons_self _ _
    rw [hc, if_neg (by decide), if_neg hs, if_neg (by decide)]
  · intro h0 flag
    obtain ⟨before, after⟩ := data
    unfold sd_autolink__username Window.size
    cases after with
    | nil => rw [if_pos (by simp)]
    | cons a t =>
      rw [if_neg (by simp)]
      have hr : (⟨before, a :: t⟩ : Window).rd 0 = .ok a := by simp [Window.rd]
      rw [hr]
      simp only [ok_bind]
      rw [if_pos (by simpa using h0)]

theorem username_plain_shape_witness :
    sd_autolink__username 0 [] ⟨[], bytes "~dave_x-1!"⟩ 0 10 0 =
      .ok ⟨9, 0, bytes "~dave_x-1", 0⟩ :=
  (username_plain_shape 0 [] ⟨[], bytes "~dave_x-1!"⟩ 0).1 rfl (by decide)

set_option maxRecDepth 100000 in
/-- C12 (failing input). On the window of 257 bytes `~` (deletion flag clear on
entry) the scanned run after the opening `~` holds `t = 256` bytes `~`, which
is nonzero and not 4, yet the username detector does not return 0: the 8-bit
counter has wrapped to 0, so it returns 257, raises the flag and appends the
253 bytes `[2, 255)`. -/
theorem username_tilde_count_wraps :
    (((List.replicate 257 126).drop 1).takeWhile username_byte).count 126 = 256 ∧
    sd_autolink__username 0 [] ⟨[], List.replicate 257 126⟩ 0 257 0 =
      .ok ⟨257, 0, List.replicate 253 126, 1⟩ :=
  ⟨rfl, rfl⟩

/-- Supports C12: on a window that starts with `~`, flag clear on entry, when
the number `t` of `~` bytes in the scanned run satisfies `t mod 256 ≠ 0` and
`t mod 256 ≠ 4` the username detector returns 0, appends nothing and leaves
the rewind output and the flag untouched. -/
theorem username_tilde_count_rule (rewind_p : Nat) (link : List Nat) (data : Window)
    (offset : Nat) (h0 : data.after.head? = some 126)
    (ht : ((data.after.drop 1).takeWhile username_byte).count 126 % 256 ≠ 0 ∧
      ((data.after.drop 1).takeWhile username_byte).count 126 % 256 ≠ 4) :
    sd_autolink__username rewind_p link data offset data.size 0 =
      .ok ⟨0, rewind_p, link, 0⟩ := by
  unfold Window.size
  rw [username_eval rewind_p link data offset h0, if_pos ht]

theorem username_tilde_count_rule_witness :
    sd_autolink__username 0 [] ⟨[], bytes "~~~carol~~~"⟩ 0 11 0 = .ok ⟨0, 0, [], 0⟩ :=
  username_tilde_count_rule 0 [] ⟨[], bytes "~~~carol~~~"⟩ 0 rfl (by decide)

theorem count_strike_run (X : List Nat) :
    (126 :: 126 :: (X ++ [126, 126])).count 126 = X.count 126 + 4 := by
  simp [List.count_cons, List.count_append]

/-- C19. Let the first byte of the window be `~`, let the scanned run (the
maximal run of alphanumeric, `_`, `-`, `~` bytes after the first byte) hold
fewer than 256 bytes `~`, and let the deletion flag be clear on entry.  The
username detector returns; it returns non-zero with the flag raised if and only
if the scanned text, first byte included, is `~~~X~~` for a non-empty `X`
without `~`; in that case it returns `|X| + 5` with rewind 0 and appends `~X`,
which is the window bytes `[2, |X| + 3)`; and the flag stays clear whenever it
returns 0. -/
theorem username_strike_exact (rewind_p : Nat) (link : List Nat) (data : Window)
    (offset : Nat) (h0 : data.after.head? = some 126)
    (hlt : ((data.after.drop 1).takeWhile username_byte).count 126 < 256) :
    ∃ res, sd_autolink__username rewind_p link data offset data.size 0 = .ok res ∧
      ((res.ret ≠ 0 ∧ res.rndr_del ≠ 0) ↔
        ∃ X, X ≠ [] ∧ 126 ∉ X ∧
          126 :: (data.after.drop 1).takeWhile username_byte =
            bytes "~~~" ++ X ++ bytes "~~") ∧
      (∀ X, X ≠ [] → 126 ∉ X →
        126 :: (data.after.drop 1).takeWhile username_byte = bytes "~~~" ++ X ++ bytes "~~" →
          res = ⟨X.length + 5, 0, link ++ (bytes "~" ++ X), 1⟩ ∧
            bytes "~" ++ X = (data.after.drop 2).take (X.length + 5 - 4)) ∧
      (res.ret = 0 → res.rndr_del = 0) := by
  unfold Window.size
  rw [username_eval rewind_p link data offset h0]
  have hmod : ((data.after.drop 1).takeWhile username_byte).count 126 % 256 =
      ((data.after.drop 1).takeWhile username_byte).count 126 := Nat.mod_eq_of_lt hlt
  have hrun := strike_cond_run data.after h0
  have hsplit : data.after = 126 :: ((data.after.drop 1).takeWhile username_byte ++
      (data.after.drop 1).dropWhile username_byte) := by
    rw [List.takeWhile_append_dropWhile]
    exact head_tilde h0
  have hb3 : bytes "~~~" = [126, 126, 126] := rfl
  have hb2 : bytes "~~" = [126, 126] := rfl
  have hb1 : bytes "~" = [126] := rfl
  rw [hmod]
  generalize (data.after.drop 1).takeWhile username_byte = seg at *
  generalize (data.after.drop 1).dropWhile username_byte = tail at *
  -- the shape, in both directions
  have shape : ∀ X, 126 :: seg = bytes "~~~" ++ X ++ bytes "~~" ↔
      seg = 126 :: 126 :: (X ++ [126, 126]) := by
    intro X
    rw [hb3, hb2]
    simp
  by_cases hrej : seg.count 126 ≠ 0 ∧ seg.count 126 ≠ 4
  · rw [if_pos hrej]
    refine ⟨_, rfl, ?_, ?_, ?_⟩
    · constructor
      · intro h; exact absurd rfl h.1
      · rintro ⟨X, _, hno, hX⟩
        rw [(shape X).1 hX, count_strike_run, List.count_eq_zero_of_not_mem hno] at hrej
        exact absurd rfl hrej.2
    · intro X _ hno hX
      rw [(shape X).1 hX, count_strike_run, List.count_eq_zero_of_not_mem hno] at hrej
      exact absurd rfl hrej.2
    · intro _; rfl
  · rw [if_neg hrej]
    by_cases hs : strike_cond data.after (1 + seg.length)
    · rw [if_pos hs]
      obtain ⟨X0, hX0, hseg⟩ := hrun.1 hs
      have hcnt : X0.count 126 = 0 := by
        rw [hseg, count_strike_run] at hrej
        omega
      have huniq : ∀ X, 126 :: seg = bytes "~~~" ++ X ++ bytes "~~" → X = X0 := by
        intro X hX
        have := (shape X).1 hX
        rw [hseg] at this
        simp only [List.cons.injEq, true_and] at this
        exact (List.append_cancel_right this).symm
      have hres : (⟨1 + seg.length, 0, link ++ (data.after.drop 2).take (1 + seg.length - 4),
          1⟩ : UResult) = ⟨X0.length + 5, 0, link ++ (bytes "~" ++ X0), 1⟩ ∧
          bytes "~" ++ X0 = (data.after.drop 2).take (X0.length + 5 - 4) := by
        have hl : 1 + seg.length = X0.length + 5 := by
          rw [hseg]; simp only [List.length_cons, List.length_append, List.length_nil]; omega
        have ht : (data.after.drop 2).take (X0.length + 5 - 4) = bytes "~" ++ X0 := by
          rw [hsplit, hseg, hb1]
          have : X0.length + 5 - 4 = X0.length + 1 := by omega
          rw [this]
          simp [List.take_append_eq_append_take]
        rw [hl, ht]
        exact ⟨rfl, rfl⟩
      refine ⟨_, rfl, ?_, ?_, ?_⟩
      · constructor
        · intro _
          exact ⟨X0, hX0, fun hm => by
            have := List.count_pos_iff.2 hm
            omega, (shape X0).2 hseg⟩
        · intro _
          exact ⟨by simp, by simp⟩
      · intro X _ _ hX
        rw [huniq X hX]
        exact hres
      · intro h
        simp at h
    · rw [if_neg hs]
      have hnoshape : ∀ X, X ≠ [] → 126 :: seg = bytes "~~~" ++ X ++ bytes "~~" → False :=
        fun X hX h => hs (hrun.2 ⟨X, hX, (shape X).1 h⟩)
      by_cases ht : seg.count 126 ≠ 0
      · rw [if_pos ht]
        refine ⟨_, rfl, ?_, ?_, ?_⟩
        · constructor
          · intro h; exact absurd rfl h.1
          · rintro ⟨X, hX, _, h⟩
            exact (hnoshape X hX h).elim
        · intro X hX _ h
          exact (hnoshape X hX h).elim
        · intro _; rfl
      · rw [if_neg ht]
        refine ⟨_, rfl, ?_, ?_, ?_⟩
        · constructor
          · intro h; exact absurd rfl h.2
          · rintro ⟨X, hX, _, h⟩
            exact (hnoshape X hX h).elim
        · intro X hX _ h
          exact (hnoshape X hX h).elim
        · intro _; rfl

theorem username_strike_exact_witness :
    ∃ res, sd_autolink__username 0 [] ⟨[], bytes "~~~erin~~ x"⟩ 0 11 0 = .ok res ∧
      ((res.ret ≠ 0 ∧ res.rndr_del ≠ 0) ↔
        ∃ X, X ≠ [] ∧ 126 ∉ X ∧
          126 :: ((bytes "~~~erin~~ x").drop 1).takeWhile username_byte =
            bytes "~~~" ++ X ++ bytes "~~") ∧
      (∀ X, X ≠ [] → 126 ∉ X →
        126 :: ((bytes "~~~erin~~ x").drop 1).takeWhile username_byte =
            bytes "~~~" ++ X ++ bytes "~~" →
          res = ⟨X.length + 5, 0, [] ++ (bytes "~" ++ X), 1⟩ ∧
            bytes "~" ++ X = ((bytes "~~~erin~~ x").drop 2).take (X.length + 5 - 4)) ∧
      (res.ret = 0 → res.rndr_del = 0) :=
  username_strike_exact 0 [] ⟨[], bytes "~~~erin~~ x"⟩ 0 rfl (by decide)

/-! ## The rule of `check_domain` -/

theorem takeWhile_index (p : Nat → Bool) :
    ∀ (L : List Nat),
      (∀ j, j < (L.takeWhile p).length →
        ∃ c, L[j]? = some c ∧ p c = true ∧ (L.takeWhile p)[j]? = some c) ∧
      ((L.takeWhile p).length < L.length →
        ∃ c, L[(L.takeWhile p).length]? = some c ∧ p c = false) := by
  intro L
  induction L with
  | nil => exact ⟨fun j hj => absurd hj (by simp), fun h => absurd h (by simp)⟩
  | cons a t ih =>
    by_cases hp : p a = true
    · rw [List.takeWhile_cons_of_pos hp]
      constructor
      · intro j hj
        cases j with
        | zero => exact ⟨a, by simp, hp, by simp⟩
        | succ k =>
          simp only [List.length_cons, Nat.add_lt_add_iff_right] at hj
          obtain ⟨c, h1, h2, h3⟩ := ih.1 k hj
          exact ⟨c, by simpa using h1, h2, by simpa using h3⟩
      · intro h
        simp only [List.length_cons, Nat.add_lt_add_iff_right] at h
        obtain ⟨c, h1, h2⟩ := ih.2 h
        exact ⟨c, by simpa using h1, h2⟩
    · rw [List.takeWhile_cons_of_neg hp]
      constructor
      · intro j hj; exact absurd hj (by simp)
      · intro _
        exact ⟨a, by simp, by simpa using hp⟩

theorem domain_mid_index (l : List Nat) (j : Nat) (h : j + 1 < l.length - 1) :
    ((l.take (l.length - 1)).drop 1)[j]? = some (l.getD (j + 1) 0) := by
  rw [List.getElem?_drop, List.getD_eq_getElem?_getD, Nat.add_comm 1 j,
    List.getElem?_take_of_lt h, List.getElem?_eq_getElem (by omega)]
  rfl

theorem domain_mid_length (l : List Nat) :
    ((l.take (l.length - 1)).drop 1).length = l.length - 1 - 1 := by
  simp only [List.length_drop, List.length_take]
  omega

/-- The facts about the scanned run of `check_domain` on a window of at least
two bytes, with `i` one more than the length of the run. -/
theorem domain_run_facts (l : List Nat) (h2 : 2 ≤ l.length) :
    (∀ j, 1 ≤ j → j < 1 + (((l.take (l.length - 1)).drop 1).takeWhile domain_byte).length →
      domain_byte (l.getD j 0) = true ∧
        (((l.take (l.length - 1)).drop 1).takeWhile domain_byte)[j - 1]? =
          some (l.getD j 0)) ∧
    (1 + (((l.take (l.length - 1)).drop 1).takeWhile domain_byte).length < l.length - 1 →
      domain_byte
        (l.getD (1 + (((l.take (l.length - 1)).drop 1).takeWhile domain_byte).length) 0) =
          false) ∧
    1 + (((l.take (l.length - 1)).drop 1).takeWhile domain_byte).length ≤ l.length - 1 := by
  have hM := domain_mid_length l
  have hidx := takeWhile_index domain_byte ((l.take (l.length - 1)).drop 1)
  have hle : (((l.take (l.length - 1)).drop 1).takeWhile domain_byte).length ≤
      ((l.take (l.length - 1)).drop 1).length := (List.takeWhile_sublist _).length_le
  refine ⟨?_, ?_, by omega⟩
  · intro j h1 hj
    obtain ⟨c, hc, hp, hs⟩ := hidx.1 (j - 1) (by omega)
    have hm := domain_mid_index l (j - 1) (by omega)
    have e : j - 1 + 1 = j := by omega
    rw [e] at hm
    rw [hm] at hc
    simp only [Option.some.injEq] at hc
    rw [hc]
    exact ⟨hp, hs⟩
  · intro hlt
    obtain ⟨c, hc, hp⟩ := hidx.2 (by omega)
    have hm := domain_mid_index l
      (((l.take (l.length - 1)).drop 1).takeWhile domain_byte).length (by omega)
    rw [hm] at hc
    simp only [Option.some.injEq] at hc
    rw [Nat.add_comm, hc]
    exact hp

theorem domain_run_dot (l : List Nat) (h2 : 2 ≤ l.length) :
    (((l.take (l.length - 1)).drop 1).takeWhile domain_byte).count 46 ≠ 0 ↔
      dot_before l (1 + (((l.take (l.length - 1)).drop 1).takeWhile domain_byte).length) := by
  obtain ⟨hin, _, _⟩ := domain_run_facts l h2
  generalize ((l.take (l.length - 1)).drop 1).takeWhile domain_byte = seg at *
  unfold dot_before
  constructor
  · intro hc
    have hmem : 46 ∈ seg := List.count_pos_iff.1 (Nat.pos_of_ne_zero hc)
    obtain ⟨k, hk, hget⟩ := List.getElem_of_mem hmem
    refine ⟨k + 1, by omega, by omega, ?_⟩
    have := (hin (k + 1) (by omega) (by omega)).2
    rw [Nat.add_sub_cancel, List.getElem?_eq_getElem hk, hget] at this
    simp only [Option.some.injEq] at this
    exact this.symm
  · rintro ⟨j, hj, h1, h46⟩
    have := (hin j h1 hj).2
    rw [h46] at this
    have hmem : 46 ∈ seg := List.mem_iff_getElem?.2 ⟨_, this⟩
    exact Nat.ne_of_gt (List.count_pos_iff.2 hmem)

/-- C13. On a window of `size ≥ 1` bytes `check_domain` returns a value `r`:
`r = 0` when byte 0 is not alphanumeric; otherwise, with `i` the least index in
`[1, size - 1)` whose byte is not alphanumeric, `-` or `.` (or `size - 1` when
there is none; this `i` exists and is unique), `r = i` when a `.` occurs among
the bytes `[1, i)` and `r = 0` when none does.  A non-zero `r` satisfies
`2 ≤ r ≤ size - 1`, and a one-byte window yields 0. -/
theorem check_domain_rule (data : Window) (hsize : 1 ≤ data.size) :
    ∃ r, check_domain data data.size = .ok r ∧
      (isalnum (data.after.headD 0) = false → r = 0) ∧
      (isalnum (data.after.headD 0) = true →
        ∃ i, domain_stop data.after i ∧ (∀ k, domain_stop data.after k → k = i) ∧
          r = if dot_before data.after i then i else 0) ∧
      (r ≠ 0 → 2 ≤ r ∧ r ≤ data.size - 1) ∧
      (data.size = 1 → r = 0) := by
  unfold Window.size at *
  refine ⟨_, check_domain_spec data (by omega), ?_⟩
  unfold domain_len
  by_cases hal : isalnum (data.after.headD 0) = true
  · rw [if_pos hal]
    by_cases h1 : data.after.length = 1
    · have hM : (data.after.take (data.after.length - 1)).drop 1 = [] := by
        rw [h1]; rfl
      rw [hM]
      rw [List.takeWhile_nil, List.count_nil, if_neg (show ¬ (0 ≠ 0) by decide)]
      refine ⟨fun _ => rfl, fun _ => ⟨0, ?_, ?_, ?_⟩, fun h => absurd rfl h, fun _ => rfl⟩
      · right
        exact ⟨by omega, fun j hj => absurd hj (by omega)⟩
      · intro k hk
        rcases hk with ⟨_, hk, _⟩ | ⟨hk, _⟩
        · omega
        · omega
      · rw [ite_self]
    · have h2 : 2 ≤ data.after.length := by omega
      obtain ⟨hin, hstop, hle⟩ := domain_run_facts data.after h2
      have hdot := domain_run_dot data.after h2
      generalize ((data.after.take (data.after.length - 1)).drop 1).takeWhile domain_byte = seg
        at *
      refine ⟨fun h => absurd hal (by rw [h]; decide), fun _ => ⟨1 + seg.length, ?_, ?_, ?_⟩,
        ?_, fun h => absurd h h1⟩
      · by_cases hlt : 1 + seg.length < data.after.length - 1
        · left
          exact ⟨by omega, hlt, hstop hlt, fun j hj h1j => (hin j h1j hj).1⟩
        · right
          exact ⟨by omega, fun j hj h1j => (hin j h1j (by omega)).1⟩
      · intro k hk
        rcases hk with ⟨hk1, hk2, hk3, hk4⟩ | ⟨hk1, hk2⟩
        · rcases Nat.lt_trichotomy k (1 + seg.length) with hlt | heq | hgt
          · have := (hin k hk1 hlt).1
            rw [hk3] at this
            exact absurd this (by decide)
          · exact heq
          · have := hk4 (1 + seg.length) hgt (by omega)
            rw [hstop (by omega)] at this
            exact absurd this (by decide)
        · by_cases hlt : 1 + seg.length < data.after.length - 1
          · have := hk2 (1 + seg.length) hlt (by omega)
            rw [hstop hlt] at this
            exact absurd this (by decide)
          · omega
      · by_cases hd : seg.count 46 ≠ 0
        · rw [if_pos hd, if_pos (hdot.1 hd)]
        · rw [if_neg hd, if_neg (fun h => hd (hdot.2 h))]
      · intro hr
        by_cases hd : seg.count 46 ≠ 0
        · rw [if_pos hd]
          have : 0 < seg.length := by
            rcases seg with _ | ⟨a, t⟩
            · exact absurd rfl hd
            · simp
          omega
        · rw [if_neg hd] at hr
          exact absurd rfl hr
  · rw [if_neg hal]
    refine ⟨fun _ => rfl, fun h => absurd h hal, fun h => absurd rfl h, fun _ => rfl⟩

theorem check_domain_rule_witness :
    ∃ r, check_domain ⟨[], bytes "example.com/path"⟩ 16 = .ok r ∧
      (isalnum ((bytes "example.com/path").headD 0) = false → r = 0) ∧
      (isalnum ((bytes "example.com/path").headD 0) = true →
        ∃ i, domain_stop (bytes "example.com/path") i ∧
          (∀ k, domain_stop (bytes "example.com/path") k → k = i) ∧
          r = if dot_before (bytes "example.com/path") i then i else 0) ∧
      (r ≠ 0 → 2 ≤ r ∧ r ≤ 16 - 1) ∧
      ((16 : Nat) = 1 → r = 0) :=
  check_domain_rule ⟨[], bytes "example.com/path"⟩ (by decide)

/-- The witnesses of C13: `example.com/path` yields 11 (the index of the `/`,
with a `.` before it), `nodotshere` and `-bad.com` yield 0. -/
theorem check_domain_examples :
    check_domain ⟨[], bytes "example.com/path"⟩ 16 = .ok 11 ∧
    domain_stop (bytes "example.com/path") 11 ∧ dot_before (bytes "example.com/path") 11 ∧
    check_domain ⟨[], bytes "nodotshere"⟩ 10 = .ok 0 ∧
    check_domain ⟨[], bytes "-bad.com"⟩ 8 = .ok 0 :=
  ⟨rfl, by decide, by decide, rfl, rfl⟩

/-! ## The trimmer: paired closers and the last byte of the result -/

theorem countP_closer (l : List Nat) (a b : Nat) (h : a ≠ b) :
    l.countP (fun x => decide (x ≠ a) && decide (x = b)) = l.count b := by
  induction l with
  | nil => rfl
  | cons x t ih =>
    rw [List.countP_cons, List.count_cons, ih]
    by_cases hx : x = b
    · subst hx
      simp [Ne.symm h]
    · simp [hx]

theorem countP_same (l : List Nat) (a : Nat) :
    l.countP (fun x => decide (x ≠ a) && decide (x = a)) = 0 := by
  rw [List.countP_eq_zero]
  intro x _
  by_cases hx : x = a <;> simp [hx]

/-- C14 (as amended). Let the span `[0, n)`, `n ≥ 1`, hold no `<` and end in the
byte `c`.  When `c` is `)`, `]` or `}` and `o` is `(`, `[` or `{` respectively,
`autolink_delim` returns `n - 1` if the span holds different numbers of `o` and
`c`, and `n` if it holds as many.  When `c` is `"` or `'` and the span holds an
odd number of bytes `c`, so that the final quote has no partner inside the span,
it returns `n - 1`.  (Nothing is stated for a final quote with an even number
of occurrences.) -/
theorem delim_paired_closer (data : Window) (n o s : Nat) (hn : 0 < n)
    (hle : n ≤ data.after.length) (hlt : ∀ c ∈ data.after.take n, c ≠ 60)
    (c : Nat) (hc : data.after[n - 1]? = some c) :
    (c = 41 → autolink_delim data n o s =
      .ok (if (data.after.take n).count 40 ≠ (data.after.take n).count 41 then n - 1 else n)) ∧
    (c = 93 → autolink_delim data n o s =
      .ok (if (data.after.take n).count 91 ≠ (data.after.take n).count 93 then n - 1 else n)) ∧
    (c = 125 → autolink_delim data n o s =
      .ok (if (data.after.take n).count 123 ≠ (data.after.take n).count 125
        then n - 1 else n)) ∧
    (c = 34 ∨ c = 39 → (data.after.take n).count c % 2 = 1 →
      autolink_delim data n o s = .ok (n - 1)) := by
  have bracket : ∀ a, copen_of c = a → a ≠ 0 → a ≠ c → autolink_delim data n o s =
      .ok (if (data.after.take n).count a ≠ (data.after.take n).count c then n - 1 else n) := by
    intro a ha ha0 hac
    rw [autolink_delim_closer data n o s hn hle hlt c hc (by rw [ha]; exact ha0), ha,
      countP_closer _ a c hac]
    by_cases hcnt : (data.after.take n).count a = (data.after.take n).count c
    · rw [if_neg (by simp [hcnt]), if_neg (by simp [hcnt])]
    · rw [if_pos (fun h => hcnt h.symm), if_pos hcnt]
  have hmem : c ∈ data.after.take n := by
    apply List.mem_iff_getElem?.2
    exact ⟨n - 1, by rw [List.getElem?_take_of_lt (by omega)]; exact hc⟩
  have quote : copen_of c = c → c ≠ 0 → autolink_delim data n o s = .ok (n - 1) := by
    intro ha ha0
    rw [autolink_delim_closer data n o s hn hle hlt c hc (by rw [ha]; exact ha0), ha,
      countP_same]
    have : 0 < (data.after.take n).count c := List.count_pos_iff.2 hmem
    rw [if_pos (by omega)]
  refine ⟨?_, ?_, ?_, ?_⟩
  · rintro rfl; exact bracket 40 rfl (by decide) (by decide)
  · rintro rfl; exact bracket 91 rfl (by decide) (by decide)
  · rintro rfl; exact bracket 123 rfl (by decide) (by decide)
  · rintro (rfl | rfl) _
    · exact quote rfl (by decide)
    · exact quote rfl (by decide)

theorem delim_paired_closer_witness :
    autolink_delim ⟨[], bytes "http://x.com/(y)"⟩ 16 0 16 = .ok 16 ∧
    autolink_delim ⟨[], bytes "http://x.com" ++ [34]⟩ 13 0 13 = .ok (13 - 1) :=
  ⟨(delim_paired_closer ⟨[], bytes "http://x.com/(y)"⟩ 16 0 16 (by decide) (by decide)
      (by decide) 41 rfl).1 rfl,
    (delim_paired_closer ⟨[], bytes "http://x.com" ++ [34]⟩ 13 0 13 (by decide) (by decide)
      (by decide) 34 (by decide)).2.2.2 (Or.inl rfl) (by decide)⟩

/-- C14 (counterexample). The span `http://x.com"` of 13 bytes holds no `<` and
ends in `"`, whose opener is `"` as well, so that the span holds as many openers
as closers (one `"`); `autolink_delim` returns 12, not 13: the final quote is
dropped. -/
theorem delim_drops_final_quote :
    (∀ c ∈ bytes "http://x.com" ++ [34], c ≠ 60) ∧
    (bytes "http://x.com" ++ [34])[13 - 1]? = some 34 ∧
    (bytes "http://x.com" ++ [34]).count 34 = (bytes "http://x.com" ++ [34]).count 34 ∧
    autolink_delim ⟨[], bytes "http://x.com" ++ [34]⟩ 13 0 13 = .ok 12 ∧ (12 : Nat) ≠ 13 :=
  ⟨by decide, rfl, rfl, rfl, by decide⟩

/-- The witnesses of C14: `http://x.com/(y)` is returned unchanged, and
`http://x.com/path).` is cut to `http://x.com/path` (17 bytes). -/
theorem delim_paired_examples :
    autolink_delim ⟨[], bytes "http://x.com/(y)"⟩ 16 0 16 = .ok 16 ∧
    autolink_delim ⟨[], bytes "http://x.com/path)."⟩ 19 0 19 = .ok 17 :=
  ⟨rfl, rfl⟩

theorem copen_of_cases {c : Nat} (h : copen_of c ≠ 0) :
    c = 34 ∨ c = 39 ∨ c = 41 ∨ c = 93 ∨ c = 125 := by
  unfold copen_of at h
  by_cases h1 : c = 34
  · exact Or.inl h1
  · by_cases h2 : c = 39
    · exact Or.inr (Or.inl h2)
    · by_cases h3 : c = 41
      · exact Or.inr (Or.inr (Or.inl h3))
      · by_cases h4 : c = 93
        · exact Or.inr (Or.inr (Or.inr (Or.inl h4)))
        · by_cases h5 : c = 125
          · exact Or.inr (Or.inr (Or.inr (Or.inr h5)))
          · rw [if_neg h1, if_neg h2, if_neg h3, if_neg h4, if_neg h5] at h
            exact absurd rfl h

theorem stop_byte_cases {c : Nat} (h : stop_byte c) :
    c ≠ 63 ∧ c ≠ 33 ∧ c ≠ 46 ∧ c ≠ 44 := by
  obtain ⟨h1, _⟩ := h
  refine ⟨?_, ?_, ?_, ?_⟩ <;> (rintro rfl; exact absurd h1 (by decide))

/-- The end of `autolink_delim`: the result is 0, or its last byte is one at
which the trimming loop stops, or the byte after it is a closer that the final
step dropped. -/
theorem autolink_delim_end (data : Window) (link_end o s : Nat)
    (hle : link_end ≤ data.after.length) (h59 : data.after.head? ≠ some 59) :
    ∃ r, autolink_delim data link_end o s = .ok r ∧
      (r = 0 ∨ (∃ c, data.after[r - 1]? = some c ∧ stop_byte c) ∨
        (r < link_end ∧ ∃ c, data.after[r]? = some c ∧ copen_of c ≠ 0)) := by
  have h1 := delim_lt_spec data link_end hle (link_end + 1) 0 (by omega) (by omega)
  simp only [Nat.zero_add, List.drop_zero] at h1
  have hl1 : ((data.after.take link_end).takeWhile (fun c => decide (c ≠ 60))).length
      ≤ link_end := by
    have := (List.takeWhile_sublist (l := data.after.take link_end)
      (fun c => decide (c ≠ 60))).length_le
    rw [List.length_take] at this
    omega
  generalize ((data.after.take link_end).takeWhile (fun c => decide (c ≠ 60))).length = l1
    at h1 hl1
  obtain ⟨r1, hr1, hle1, _, hend⟩ := delim_loop_spec data h59 (l1 + data.before.length + 3) l1
    (by omega) (by omega)
  unfold autolink_delim
  rw [h1]
  simp only [ok_bind]
  rw [hr1]
  simp only [ok_bind]
  by_cases hz : r1 = 0
  · exact ⟨0, by simp [hz], Or.inl rfl⟩
  · have hlt : r1 - 1 < data.after.length := by omega
    rw [if_neg hz, rd_wrap_of_lt data hlt]
    simp only [ok_bind]
    have hstop : ∃ c, data.after[r1 - 1]? = some c ∧ stop_byte c := by
      rcases hend with h | h
      · exact absurd h hz
      · exact h
    by_cases hco : copen_of data.after[r1 - 1] = 0
    · exact ⟨r1, by simp [hco], Or.inr (Or.inl hstop)⟩
    · rw [if_pos hco, delim_count_spec data r1 _ _ (by omega) (r1 + 1) 0 0 0 (by omega)
        (by omega)]
      simp only [ok_bind, Nat.zero_add, List.drop_zero]
      split
      · refine ⟨r1 - 1, rfl, Or.inr (Or.inr ⟨by omega, data.after[r1 - 1], ?_, hco⟩)⟩
        exact List.getElem?_eq_getElem hlt
      · exact ⟨r1, rfl, Or.inr (Or.inl hstop)⟩

/-- C15 (as amended). For every span `[0, link_end)` of the window whose first
byte is not `;`, `autolink_delim` returns a value `n`, and if `n > 0` then the
byte at index `n - 1` is none of `?`, `!`, `.`, `,`, unless `n < link_end` and
the byte at index `n` is a closing quote or bracket (one of `"`, `'`, `)`, `]`,
`}`) that the final step dropped. -/
theorem delim_result_last_byte (data : Window) (link_end o s : Nat)
    (hle : link_end ≤ data.after.length) (h59 : data.after.head? ≠ some 59) :
    ∃ n, autolink_delim data link_end o s = .ok n ∧
      (0 < n →
        (∃ c, data.after[n - 1]? = some c ∧ c ≠ 63 ∧ c ≠ 33 ∧ c ≠ 46 ∧ c ≠ 44) ∨
        (n < link_end ∧ ∃ c, data.after[n]? = some c ∧
          (c = 34 ∨ c = 39 ∨ c = 41 ∨ c = 93 ∨ c = 125))) := by
  obtain ⟨r, hr, hend⟩ := autolink_delim_end data link_end o s hle h59
  refine ⟨r, hr, fun hpos => ?_⟩
  rcases hend with h | ⟨c, hc, hs⟩ | ⟨hlt, c, hc, hco⟩
  · omega
  · exact Or.inl ⟨c, hc, stop_byte_cases hs⟩
  · exact Or.inr ⟨hlt, c, hc, copen_of_cases hco⟩

theorem delim_result_last_byte_witness :
    ∃ n, autolink_delim ⟨[], bytes "http://x.com/a.)"⟩ 16 0 16 = .ok n ∧
      (0 < n →
        (∃ c, (bytes "http://x.com/a.)")[n - 1]? = some c ∧
          c ≠ 63 ∧ c ≠ 33 ∧ c ≠ 46 ∧ c ≠ 44) ∨
        (n < 16 ∧ ∃ c, (bytes "http://x.com/a.)")[n]? = some c ∧
          (c = 34 ∨ c = 39 ∨ c = 41 ∨ c = 93 ∨ c = 125))) :=
  delim_result_last_byte ⟨[], bytes "http://x.com/a.)"⟩ 16 0 16 (by decide) (by decide)

/-- C15 (counterexample). The span `http://x.com/a.)` does not start with `;`;
`autolink_delim` returns 15 for it, and the byte at index 14 is `.`: after the
unmatched `)` is dropped the span ends in sentence punctuation. -/
theorem delim_result_ends_in_dot :
    (bytes "http://x.com/a.)").head? ≠ some 59 ∧
    autolink_delim ⟨[], bytes "http://x.com/a.)"⟩ 16 0 16 = .ok 15 ∧
    (bytes "http://x.com/a.)")[15 - 1]? = some 46 :=
  ⟨by decide, rfl, rfl⟩

/-! ## The matches of the URL detector -/

theorem valid_uris_slashes : ∀ u ∈ valid_uris, ∀ k < u.length,
    Option.map tolower u[k]? = some 47 → Option.map tolower u[k + 1]? = some 47 →
      u.length = k + 2 := by
  decide

theorem valid_uris_no_amp : ∀ u ∈ valid_uris, ∀ c ∈ u, tolower c ≠ 38 ∧ tolower c ≠ 60 := by
  decide

theorem isalnum_stop {c : Nat} (h : isalnum c = true) :
    stop_byte c ∧ copen_of c = 0 ∧ c ≠ 38 ∧ c ≠ 60 := by
  simp only [isalnum, isalpha, isupper, islower, isdigit, Bool.or_eq_true,
    decide_eq_true_eq, Bool.and_eq_true] at h
  have hne : ∀ k, (k < 48 ∨ (57 < k ∧ k < 65) ∨ (90 < k ∧ k < 97) ∨ 122 < k) → c ≠ k := by
    intro k hk; omega
  refine ⟨⟨?_, hne 59 (by omega)⟩, ?_, hne 38 (by omega), hne 60 (by omega)⟩
  · have e : bytes "?!.," = [63, 33, 46, 44] := rfl
    have h0 := hne 0 (by omega)
    have h1 := hne 63 (by omega)
    have h2 := hne 33 (by omega)
    have h3 := hne 46 (by omega)
    have h4 := hne 44 (by omega)
    rw [e]
    simp [strchr, h0, h1, h2, h3, h4]
  · unfold copen_of
    rw [if_neg (hne 34 (by omega)), if_neg (hne 39 (by omega)), if_neg (hne 41 (by omega)),
      if_neg (hne 93 (by omega)), if_neg (hne 125 (by omega))]

theorem issafe_of_match (w : Window) (k : Nat) (hk : k ≤ w.after.length) (u : List Nat)
    (hu : u ∈ valid_uris) (hm : scheme_matches (w.after.take k) u) :
    sd_autolink_issafe w k = .ok true := by
  obtain ⟨b, hb, hiff⟩ := issafe_loop_spec w k hk valid_uris valid_uris_nonzero
  unfold sd_autolink_issafe
  rw [hb, hiff.2 ⟨u, hu, hm⟩]

/-- The safety test still holds for a link cut down to more than `|u|` bytes. -/
theorem scheme_matches_take (L u : List Nat) (k : Nat) (hk : u.length < k)
    (hm : scheme_matches L u) : scheme_matches (L.take k) u := by
  obtain ⟨hlen, hmap, c, hc, hcc⟩ := hm
  refine ⟨?_, ?_, c, ?_, hcc⟩
  · rw [List.length_take]; omega
  · rw [List.take_take, Nat.min_eq_left (by omega)]
    exact hmap
  · rw [List.getElem?_take_of_lt hk]
    exact hc

/-- C18. The URL detector returns on every window, and if it returns `n > 0`
with rewind `r`, then `n ≥ 4`, `r ≤ offset`, the sink has received the window
bytes `[-r, n)`, and `sd_autolink_issafe` is true on these `n + r` bytes, read
in place at `data - r` or as a buffer of their own. -/
theorem url_match_safe (rewind_p : Nat) (link : List Nat) (data : Window) :
    ∃ res, sd_autolink__url rewind_p link data data.offset data.size = .ok res ∧
      (0 < res.ret →
        4 ≤ res.ret ∧ res.rewind_p ≤ data.offset ∧
        res.link = link ++ ((data.before.take res.rewind_p).reverse ++
          data.after.take res.ret) ∧
        sd_autolink_issafe (data.sub res.rewind_p) (res.ret + res.rewind_p) = .ok true ∧
        sd_autolink_issafe
          ⟨[], (data.before.take res.rewind_p).reverse ++ data.after.take res.ret⟩
          (res.ret + res.rewind_p) = .ok true) := by
  unfold Window.offset Window.size
  obtain ⟨b, hb, hbiff⟩ := url_no_slashes_eval data
  unfold sd_autolink__url
  rw [hb]
  simp only [ok_bind]
  by_cases hb1 : b = true
  · rw [if_pos hb1]
    exact ⟨_, rfl, fun h => absurd h (Nat.lt_irrefl 0)⟩
  rw [if_neg hb1]
  obtain ⟨h4, hs1, hs2⟩ := hbiff.1 (by simpa using hb1)
  rw [url_rewind_spec data _ 0 (by omega) (by omega)]
  simp only [ok_bind, Nat.zero_add, List.drop_zero]
  have hrle : (data.before.takeWhile isalpha).length ≤ data.before.length :=
    (List.takeWhile_sublist _).length_le
  have hpre : ∀ c ∈ (data.before.take (data.before.takeWhile isalpha).length).reverse,
      isalpha c = true := by
    intro c hc
    rw [List.mem_reverse, ← List.prefix_iff_eq_take.1 (List.takeWhile_prefix isalpha)] at hc
    exact List.mem_takeWhile_imp hc
  generalize (data.before.takeWhile isalpha).length = r at hrle hpre
  have hprelen : ((data.before.take r).reverse).length = r := by
    rw [List.length_reverse, List.length_take]; omega
  have hsz : data.after.length + r ≤ (data.sub r).after.length := by
    unfold Window.sub
    simp only [List.length_append, List.length_reverse, List.length_take]
    omega
  obtain ⟨s, hs, hsiff⟩ := issafe_loop_spec (data.sub r) (data.after.length + r) hsz
    valid_uris valid_uris_nonzero
  have hsafe_unfold : sd_autolink_issafe (data.sub r) (data.after.length + r) = .ok s := hs
  rw [hsafe_unfold]
  simp only [ok_bind]
  by_cases hs1' : s = true
  swap
  · rw [if_pos (by simpa using hs1')]
    exact ⟨_, rfl, fun h => absurd h (Nat.lt_irrefl 0)⟩
  rw [if_neg (by simp [hs1'])]
  obtain ⟨u, hu, hm⟩ := hsiff.1 hs1'
  rw [sub_after_take data r hrle] at hm
  obtain ⟨hrlt, c0, t, c, hl, hcu, hc0⟩ := scheme_head _ _ u hpre hu hm
  rw [hprelen] at hrlt
  have h59 : data.after.head? ≠ some 59 := by
    rw [hl]
    simp only [List.head?_cons, ne_eq, Option.some.injEq]
    intro h
    rw [h] at hc0
    exact valid_uris_no_semicolon u hu c hcu hc0.symm
  -- the scheme ends at most three bytes into the window
  have hul : u.length ≤ r + 3 := by
    by_contra hcon
    have hidx : ∀ k, k < u.length →
        Option.map tolower ((data.before.take r).reverse ++ data.after)[k]? =
          Option.map tolower u[k]? := by
      intro k hk
      have := congrArg (fun x => x[k]?) hm.2.1
      simp only [List.getElem?_map, List.getElem?_take_of_lt hk] at this
      exact this
    have e1 := hidx (r + 1) (by omega)
    have e2 := hidx (r + 1 + 1) (by omega)
    rw [List.getElem?_append_right (by omega), hprelen] at e1 e2
    have i1 : r + 1 - r = 1 := by omega
    have i2 : r + 1 + 1 - r = 2 := by omega
    rw [i1, hs1] at e1
    rw [i2, hs2] at e2
    have := valid_uris_slashes u hu (r + 1) (by omega) e1.symm e2.symm
    omega
  have hadd : (data.add 3).after.length = data.after.length - 3 := by
    unfold Window.add
    simp
  have hcd := check_domain_spec (data.add 3) (by omega)
  rw [hadd] at hcd
  rw [size_sub_of_le (by omega), hcd]
  simp only [ok_bind]
  by_cases hd : domain_len (data.add 3).after = 0
  · rw [if_pos hd]
    exact ⟨_, rfl, fun h => absurd h (Nat.lt_irrefl 0)⟩
  rw [if_neg hd, skip_nonspace_spec data _ _ (by omega) (by omega)]
  simp only [ok_bind]
  have hele : 3 + domain_len (data.add 3).after +
      ((data.after.drop (3 + domain_len (data.add 3).after)).takeWhile
        (fun c => !isspace c)).length ≤ data.after.length := by
    have h1 := (domain_len_run _ hd).1
    rw [hadd] at h1
    have h2 := (List.takeWhile_sublist (l := data.after.drop (3 + domain_len (data.add 3).after))
      (fun c => !isspace c)).length_le
    rw [List.length_drop] at h2
    omega
  have he4 : 4 ≤ 3 + domain_len (data.add 3).after +
      ((data.after.drop (3 + domain_len (data.add 3).after)).takeWhile
        (fun c => !isspace c)).length := by omega
  -- the first host byte
  obtain ⟨ch, th, hch, hchal⟩ := domain_len_head hd
  have h3 : data.after[3]? = some ch := by
    have : (data.add 3).after = data.after.drop 3 := rfl
    rw [this] at hch
    have := congrArg List.head? hch
    rw [List.head?_drop] at this
    simpa using this
  generalize 3 + domain_len (data.add 3).after +
      ((data.after.drop (3 + domain_len (data.add 3).after)).takeWhile
        (fun c => !isspace c)).length = e at hele he4
  obtain ⟨n, hn, hnle, hlow⟩ := autolink_delim_spec data e data.before.length
    data.after.length hele h59
  have hn4 : 4 ≤ n := by
    obtain ⟨hst, hco, h38, h60⟩ := isalnum_stop hchal
    apply hlow 4 (by omega) he4 ⟨ch, h3, hst, hco⟩
    intro j hj
    have hj' : j = 0 ∨ j = 1 ∨ j = 2 ∨ j = 3 := by omega
    rcases hj' with rfl | rfl | rfl | rfl
    · rw [hl]
      simp only [List.getElem?_cons_zero, ne_eq, Option.some.injEq]
      have := valid_uris_no_amp u hu c hcu
      rw [← hc0] at this
      constructor
      · intro h; rw [h] at this; exact this.1 rfl
      · intro h; rw [h] at this; exact this.2 rfl
    · rw [hs1]; exact ⟨by decide, by decide⟩
    · rw [hs2]; exact ⟨by decide, by decide⟩
    · rw [h3]
      simp only [ne_eq, Option.some.injEq]
      exact ⟨h38, h60⟩
  rw [hn]
  simp only [ok_bind]
  rw [if_neg (by omega), bufput_sub link data n r hrle (by omega)]
  refine ⟨_, rfl, fun _ => ⟨hn4, hrle, rfl, ?_, ?_⟩⟩
  · show sd_autolink_issafe (data.sub r) (n + r) = .ok true
    have hk : n + r ≤ (data.sub r).after.length := by omega
    apply issafe_of_match _ _ hk u hu
    have e1 : (data.sub r).after.take (n + r) =
        ((data.before.take r).reverse ++ data.after).take (n + r) := by
      rw [← sub_after_take data r hrle, List.take_take, Nat.min_eq_left (by omega)]
    rw [e1]
    exact scheme_matches_take _ u (n + r) (by omega) hm
  · show sd_autolink_issafe ⟨[], (data.before.take r).reverse ++ data.after.take n⟩ (n + r) =
      .ok true
    have e2 : (data.before.take r).reverse ++ data.after.take n =
        ((data.before.take r).reverse ++ data.after).take (n + r) := by
      rw [List.take_append_eq_append_take, hprelen,
        List.take_of_length_le (show ((data.before.take r).reverse).length ≤ n + r by
          rw [hprelen]; omega), Nat.add_sub_cancel]
    have hk : n + r ≤ (⟨[], (data.before.take r).reverse ++ data.after.take n⟩ :
        Window).after.length := by
      show n + r ≤ ((data.before.take r).reverse ++ data.after.take n).length
      rw [List.length_append, hprelen, List.length_take]
      omega
    apply issafe_of_match _ _ hk u hu
    show scheme_matches (((data.before.take r).reverse ++ data.after.take n).take (n + r)) u
    rw [List.take_of_length_le (by
      rw [List.length_append, hprelen, List.length_take]; omega), e2]
    exact scheme_matches_take _ u (n + r) (by omega) hm

theorem url_match_safe_witness :
    ∃ res, sd_autolink__url 0 [] (Window.mk_at (bytes "see http://example.com/x, ok") 8)
        (Window.mk_at (bytes "see http://example.com/x, ok") 8).offset
        (Window.mk_at (bytes "see http://example.com/x, ok") 8).size = .ok res ∧
      (0 < res.ret →
        4 ≤ res.ret ∧
        res.rewind_p ≤ (Window.mk_at (bytes "see http://example.com/x, ok") 8).offset ∧
        res.link = [] ++
          (((Window.mk_at (bytes "see http://example.com/x, ok") 8).before.take
              res.rewind_p).reverse ++
            (Window.mk_at (bytes "see http://example.com/x, ok") 8).after.take res.ret) ∧
        sd_autolink_issafe
          ((Window.mk_at (bytes "see http://example.com/x, ok") 8).sub res.rewind_p)
          (res.ret + res.rewind_p) = .ok true ∧
        sd_autolink_issafe
          ⟨[], ((Window.mk_at (bytes "see http://example.com/x, ok") 8).before.take
              res.rewind_p).reverse ++
            (Window.mk_at (bytes "see http://example.com/x, ok") 8).after.take res.ret⟩
          (res.ret + res.rewind_p) = .ok true) :=
  url_match_safe 0 [] (Window.mk_at (bytes "see http://example.com/x, ok") 8)

/-- An instance of C18: in `see http://example.com/x, ok` the URL detector,
invoked at the colon, returns 16 with rewind 4 and appends
`http://example.com/x`, on which the safety test is true. -/
theorem url_match_safe_example :
    sd_autolink__url 0 [] (Window.mk_at (bytes "see http://example.com/x, ok") 8) 8 20 =
      .ok ⟨16, 4, bytes "http://example.com/x"⟩ ∧
    sd_autolink_issafe ⟨[], bytes "http://example.com/x"⟩ 20 = .ok true :=
  ⟨rfl, rfl⟩

/-- C17 (failing input). In `foo http://www.pokemon.com/Pikachu_(Electric)) bar`
the text before the link holds no `(`; the URL detector, invoked at the colon
(offset 8, size 42), returns 37 with rewind 4 and appends
`http://www.pokemon.com/Pikachu_(Electric)`: the last `)` is dropped, where the
comment in the source gives `http://www.pokemon.com/Pikachu_(Electric))`.  The
match is the same as in `foo (http://www.pokemon.com/Pikachu_(Electric)) bar`. -/
theorem url_drops_paren_kept_by_comment :
    40 ∉ (bytes "foo http://www.pokemon.com/Pikachu_(Electric)) bar").take 4 ∧
    sd_autolink__url 0 []
        (Window.mk_at (bytes "foo http://www.pokemon.com/Pikachu_(Electric)) bar") 8) 8 42 =
      .ok ⟨37, 4, bytes "http://www.pokemon.com/Pikachu_(Electric)"⟩ ∧
    bytes "http://www.pokemon.com/Pikachu_(Electric)" ≠
      bytes "http://www.pokemon.com/Pikachu_(Electric))" ∧
    sd_autolink__url 0 []
        (Window.mk_at (bytes "foo (http://www.pokemon.com/Pikachu_(Electric)) bar") 9) 9 42 =
      .ok ⟨37, 4, bytes "http://www.pokemon.com/Pikachu_(Electric)"⟩ :=
  ⟨by decide, rfl, by decide, rfl⟩

/-! ## The matches of the email detector -/

/-- C20 (counterexample). In `x@a. ` the email detector, invoked at the `@`
(offset 1, size 4), returns 2 with rewind 1 and appends `x@a`, which holds no
`.`: the `.` that the scan counted is trimmed off afterwards.  In `x@.. ` it
returns 1 with rewind 1 and appends `x@`, whose last byte is the `@`. -/
theorem email_match_without_dot :
    sd_autolink__email 0 [] (Window.mk_at (bytes "x@a. ") 1) 1 4 = .ok ⟨2, 1, bytes "x@a"⟩ ∧
    46 ∉ bytes "x@a" ∧
    sd_autolink__email 0 [] (Window.mk_at (bytes "x@.. ") 1) 1 4 = .ok ⟨1, 1, bytes "x@"⟩ ∧
    (bytes "x@").getLast? = some 64 :=
  ⟨rfl, by decide, rfl, rfl⟩

theorem trailing_dots_split (l : List Nat) :
    l = l.take (l.length - trailing_dots l) ++ List.replicate (trailing_dots l) 46 := by
  unfold trailing_dots
  have h1 : l.reverse.takeWhile (fun c => c == 46) =
      List.replicate (l.reverse.takeWhile (fun c => c == 46)).length 46 := by
    rw [List.eq_replicate_iff]
    refine ⟨rfl, fun b hb => ?_⟩
    have := List.mem_takeWhile_imp hb
    simpa using this
  have h2 := List.takeWhile_append_dropWhile (fun c => c == 46) l.reverse
  have h3 : l = (l.reverse.dropWhile (fun c => c == 46)).reverse ++
      (l.reverse.takeWhile (fun c => c == 46)).reverse := by
    rw [← List.reverse_append, h2, List.reverse_reverse]
  have hlen : l.length = (l.reverse.dropWhile (fun c => c == 46)).length +
      (l.reverse.takeWhile (fun c => c == 46)).length := by
    have := congrArg List.length h3
    simpa using this
  have h4 : l.take (l.length - (l.reverse.takeWhile (fun c => c == 46)).length) =
      (l.reverse.dropWhile (fun c => c == 46)).reverse := by
    conv_lhs => rw [h3]
    rw [List.take_append_of_le_length (by simp)]
    apply List.take_of_length_le
    simp
  rw [h4]
  conv_lhs => rw [h3, h1]
  rw [List.reverse_replicate]

theorem lookbehind_no_at {c : Nat} (h : (isalnum c || strchr (bytes ".+-_") c) = true) :
    c ≠ 64 := by
  rintro rfl
  exact absurd h (by decide)

/-- C20 (as amended). On a window shorter than `2 ^ 32` bytes the email
detector returns, and if it returns `n > 0` with rewind `r`, then `r ≥ 1`, the
sink has received the window bytes `[-r, n)`, these bytes hold exactly one `@`,
which is not their first byte, and the scanned bytes `[0, e)` hold at least one
`.`, where `e` is the index at which the forward scan stops and `n` is `e`
less the number of `.` bytes at the end of the scanned bytes: the bytes `[n, e)`
that the trimmer cuts off are all `.`. -/
theorem email_match_bytes (rewind_p : Nat) (link : List Nat) (data : Window)
    (hsz : data.size < 2 ^ 32) :
    ∃ res, sd_autolink__email rewind_p link data data.offset data.size = .ok res ∧
      (0 < res.ret →
        1 ≤ res.rewind_p ∧ res.rewind_p ≤ data.offset ∧
        res.link = link ++ ((data.before.take res.rewind_p).reverse ++
          data.after.take res.ret) ∧
        ((data.before.take res.rewind_p).reverse ++ data.after.take res.ret).count 64 = 1 ∧
        ((data.before.take res.rewind_p).reverse ++ data.after.take res.ret).head? ≠
          some 64 ∧
        46 ∈ data.after.take (email_scan data.after) ∧
        res.ret = email_scan data.after -
          trailing_dots (data.after.take (email_scan data.after)) ∧
        data.after.take (email_scan data.after) =
          data.after.take res.ret ++ List.replicate (email_scan data.after - res.ret) 46) := by
  unfold Window.size at hsz
  unfold Window.offset Window.size
  have hrew := email_rewind_spec data (data.before.length + 1) 0 (by omega) (by omega)
  simp only [Nat.zero_add, List.drop_zero] at hrew
  have hrle : (data.before.takeWhile
      (fun c => isalnum c || strchr (bytes ".+-_") c)).length ≤ data.before.length :=
    (List.takeWhile_sublist _).length_le
  have hpre : ∀ c ∈ (data.before.take (data.before.takeWhile
      (fun c => isalnum c || strchr (bytes ".+-_") c)).length).reverse, c ≠ 64 := by
    intro c hc
    rw [List.mem_reverse, ← List.prefix_iff_eq_take.1 (List.takeWhile_prefix _)] at hc
    have hp := List.mem_takeWhile_imp hc
    exact lookbehind_no_at hp
  generalize (data.before.takeWhile
      (fun c => isalnum c || strchr (bytes ".+-_") c)).length = r at hrew hrle hpre
  have hfwd := email_forward_exact data (data.after.length + 1) 0 0 0 (by omega) (by omega)
  simp only [Nat.zero_mod, Nat.zero_add, List.drop_zero] at hfwd
  have hk : ((List.enumFrom 0 data.after).takeWhile (email_go data.after.length)).length =
      email_scan data.after := rfl
  have hmap := map_snd_takeWhile_enumFrom (email_go data.after.length) data.after 0
  rw [hmap, hk] at hfwd
  have hkle := email_scan_le data.after
  have hc64 : (data.after.take (email_scan data.after)).count 64 % 2 ^ 32 =
      (data.after.take (email_scan data.after)).count 64 := by
    apply Nat.mod_eq_of_lt
    have := List.count_le_length 64 (data.after.take (email_scan data.after))
    rw [List.length_take] at this
    omega
  have hc46 : (data.after.take (email_scan data.after)).count 46 % 2 ^ 32 =
      (data.after.take (email_scan data.after)).count 46 := by
    apply Nat.mod_eq_of_lt
    have := List.count_le_length 46 (data.after.take (email_scan data.after))
    rw [List.length_take] at this
    omega
  rw [hc64, hc46] at hfwd
  have hdelim := autolink_delim_email data (email_scan data.after) data.before.length
    data.after.length hkle (email_scan_bytes data.after)
  have hsplit := trailing_dots_split (data.after.take (email_scan data.after))
  have hlen : (data.after.take (email_scan data.after)).length = email_scan data.after := by
    rw [List.length_take]; omega
  rw [hlen, List.take_take, Nat.min_eq_left (Nat.sub_le _ _)] at hsplit
  have htd := trailing_dots_le (data.after.take (email_scan data.after))
  rw [hlen] at htd
  generalize trailing_dots (data.after.take (email_scan data.after)) = td at hdelim hsplit htd
  unfold sd_autolink__email
  rw [hrew]
  simp only [ok_bind]
  by_cases hr : r = 0
  · rw [if_pos hr]
    exact ⟨_, rfl, fun h => absurd h (Nat.lt_irrefl 0)⟩
  rw [if_neg hr, hfwd]
  simp only [ok_bind]
  by_cases hcond : (decide (email_scan data.after < 2) ||
      decide ((data.after.take (email_scan data.after)).count 64 ≠ 1) ||
      decide ((data.after.take (email_scan data.after)).count 46 = 0)) = true
  · rw [if_pos hcond]
    exact ⟨_, rfl, fun h => absurd h (Nat.lt_irrefl 0)⟩
  rw [if_neg hcond, hdelim]
  simp only [ok_bind]
  by_cases hn : email_scan data.after - td = 0
  · rw [if_pos hn]
    exact ⟨_, rfl, fun h => absurd h (Nat.lt_irrefl 0)⟩
  rw [if_neg hn, bufput_sub link data _ _ hrle (by omega)]
  simp only [Bool.or_eq_true, decide_eq_true_eq, not_or, not_lt, not_not] at hcond
  obtain ⟨⟨_, h64⟩, h46⟩ := hcond
  have hcnt : (data.after.take (email_scan data.after - td)).count 64 = 1 := by
    rw [hsplit, List.count_append, List.count_replicate] at h64
    simpa using h64
  have hsub : email_scan data.after - (email_scan data.after - td) = td :=
    Nat.sub_sub_self htd
  refine ⟨_, rfl, fun _ => ⟨Nat.pos_of_ne_zero hr, hrle, rfl, ?_, ?_, ?_, rfl, ?_⟩⟩
  · show ((data.before.take r).reverse ++ data.after.take (email_scan data.after - td)).count 64
      = 1
    rw [List.count_append, hcnt, List.count_eq_zero_of_not_mem (fun h => hpre 64 h rfl)]
  · show ((data.before.take r).reverse ++
      data.after.take (email_scan data.after - td)).head? ≠ some 64
    intro hh
    have hne : (data.before.take r).reverse ≠ [] := by
      intro hnil
      have := congrArg List.length hnil
      rw [List.length_reverse, List.length_take] at this
      simp only [List.length_nil] at this
      omega
    rw [List.head?_append_of_ne_nil _ hne] at hh
    exact hpre 64 (List.mem_of_mem_head? hh) rfl
  · exact List.count_pos_iff.1 (Nat.pos_of_ne_zero h46)
  · show data.after.take (email_scan data.after) =
      data.after.take (email_scan data.after - td) ++
        List.replicate (email_scan data.after - (email_scan data.after - td)) 46
    rw [hsub]
    exact hsplit

theorem email_match_bytes_witness :
    ∃ res, sd_autolink__email 0 [] (Window.mk_at (bytes "x@a. ") 1)
        (Window.mk_at (bytes "x@a. ") 1).offset (Window.mk_at (bytes "x@a. ") 1).size =
          .ok res ∧
      (0 < res.ret →
        1 ≤ res.rewind_p ∧ res.rewind_p ≤ (Window.mk_at (bytes "x@a. ") 1).offset ∧
        res.link = [] ++ (((Window.mk_at (bytes "x@a. ") 1).before.take res.rewind_p).reverse ++
          (Window.mk_at (bytes "x@a. ") 1).after.take res.ret) ∧
        (((Window.mk_at (bytes "x@a. ") 1).before.take res.rewind_p).reverse ++
          (Window.mk_at (bytes "x@a. ") 1).after.take res.ret).count 64 = 1 ∧
        (((Window.mk_at (bytes "x@a. ") 1).before.take res.rewind_p).reverse ++
          (Window.mk_at (bytes "x@a. ") 1).after.take res.ret).head? ≠ some 64 ∧
        46 ∈ (Window.mk_at (bytes "x@a. ") 1).after.take
          (email_scan (Window.mk_at (bytes "x@a. ") 1).after) ∧
        res.ret = email_scan (Window.mk_at (bytes "x@a. ") 1).after -
          trailing_dots ((Window.mk_at (bytes "x@a. ") 1).after.take
            (email_scan (Window.mk_at (bytes "x@a. ") 1).after)) ∧
        (Window.mk_at (bytes "x@a. ") 1).after.take
            (email_scan (Window.mk_at (bytes "x@a. ") 1).after) =
          (Window.mk_at (bytes "x@a. ") 1).after.take res.ret ++
            List.replicate (email_scan (Window.mk_at (bytes "x@a. ") 1).after - res.ret) 46) :=
  email_match_bytes 0 [] (Window.mk_at (bytes "x@a. ") 1) (by decide)

/-! ## The trimmer at a `;` -/

theorem autolink_delim_steps (data : Window) (link_end o s : Nat) :
    autolink_delim data link_end o s =
      (delim_lt data link_end (link_end + 1) 0 >>= fun l =>
        delim_loop data (l + data.before.length + 3) l >>= fun r => delim_close data r) := rfl

/-- A read through a wrapped index that succeeds lies in the lookbehind. -/
theorem rd_wrap_high (d : Window) (j c : Nat) (h : d.rd_wrap j = .ok c)
    (hj : d.after.length ≤ j) : 2 ^ 64 ≤ j + d.before.length ∧ j < 2 ^ 64 := by
  unfold Window.rd_wrap at h
  rw [List.getElem?_eq_none hj] at h
  simp only [] at h
  by_cases hlt : j < 2 ^ 64
  · rw [if_pos hlt] at h
    unfold Window.rdBack at h
    by_cases hb : 2 ^ 64 - 1 - j < d.before.length
    · exact ⟨by omega, hlt⟩
    · rw [List.getElem?_eq_none (by omega)] at h
      cases h
  · rw [if_neg hlt] at h
    cases h

theorem rd_wrap_agree (d1 d2 : Window) (h : continues d1 d2) (j : Nat)
    (hj : j < d2.after.length ∨ d1.after.length ≤ j) : d1.rd_wrap j = d2.rd_wrap j := by
  obtain ⟨hb, hle, hag, _⟩ := h
  unfold Window.rd_wrap Window.rdBack
  rcases hj with hj | hj
  · rw [hag j hj, hb]
  · rw [List.getElem?_eq_none hj, List.getElem?_eq_none (show d2.after.length ≤ j by omega), hb]

/-- The read at the first index behind the window is outside the buffer. -/
theorem rd_wrap_size (d : Window) (h : d.before.length + d.after.length < 2 ^ 64) :
    d.rd_wrap d.after.length = .error .oob := by
  unfold Window.rd_wrap Window.rdBack
  rw [List.getElem?_eq_none (le_refl _)]
  simp only []
  rw [if_pos (by omega), List.getElem?_eq_none (by omega)]

theorem delim_back_reads (d : Window) :
    ∀ (n r : Nat), delim_back d n = .ok r →
      r ≤ n ∧ ∀ j, r < j → j ≤ n → ∃ c, d.rd_wrap j = .ok c := by
  intro n
  induction n with
  | zero =>
    intro r h
    unfold delim_back at h
    cases h
    exact ⟨le_refl _, fun j h1 h2 => by omega⟩
  | succ n ih =>
    intro r h
    unfold delim_back at h
    cases hrd : d.rd_wrap (n + 1) with
    | error e => rw [hrd] at h; cases h
    | ok c =>
      rw [hrd] at h
      simp only [ok_bind] at h
      by_cases ha : isalpha c = true
      · rw [if_pos ha] at h
        obtain ⟨hle, hall⟩ := ih r h
        refine ⟨by omega, fun j h1 h2 => ?_⟩
        by_cases hj : j = n + 1
        · subst hj; exact ⟨c, hrd⟩
        · exact hall j h1 (by omega)
      · rw [if_neg ha] at h
        cases h
        exact ⟨le_refl _, fun j h1 h2 => by omega⟩

/-- The result of the backward scan below its start is an index of the window
or of the lookbehind, never one in between. -/
theorem delim_back_good (d : Window) (hM : d.before.length + d.after.length < 2 ^ 64)
    (n r : Nat) (h : delim_back d n = .ok r) (hn : d.after.length ≤ n) :
    d.after.length ≤ r := by
  obtain ⟨_, hall⟩ := delim_back_reads d n r h
  by_contra hcon
  obtain ⟨c, hc⟩ := hall d.after.length (by omega) hn
  rw [rd_wrap_size d hM] at hc
  cases hc

theorem delim_back_agree (d1 d2 : Window) (h : continues d1 d2) :
    ∀ n : Nat, (n < d2.after.length ∨ d1.after.length ≤ n) →
      delim_back d1 n = delim_back d2 n := by
  intro n
  induction n with
  | zero => intro _; rfl
  | succ n ih =>
    intro hn
    unfold delim_back
    rw [rd_wrap_agree d1 d2 h (n + 1) hn]
    cases hrd : d2.rd_wrap (n + 1) with
    | error e => rfl
    | ok c =>
      simp only [ok_bind]
      by_cases ha : isalpha c = true
      · rw [if_pos ha, if_pos ha]
        apply ih
        rcases hn with hn | hn
        · exact Or.inl (by omega)
        · right
          have hrd1 : d1.rd_wrap (n + 1) = .ok c := by
            rw [rd_wrap_agree d1 d2 h (n + 1) (Or.inr hn)]; exact hrd
          have := (rd_wrap_high d1 (n + 1) c hrd1 hn).1
          have hM := h.2.2.2
          omega
      · rw [if_neg ha, if_neg ha]

theorem delim_loop_agree (d1 d2 : Window) (h : continues d1 d2) :
    ∀ (f1 f2 l : Nat), (l ≤ d2.after.length ∨ d1.after.length < l) →
      enough d1 f1 l → enough d2 f2 l →
      delim_loop d1 f1 l = delim_loop d2 f2 l := by
  have hM := h.2.2.2
  have hb : d1.before.length = d2.before.length := by rw [h.1]
  have hle := h.2.1
  have hM2 : d2.before.length + d2.after.length < 2 ^ 64 := by omega
  intro f1
  induction f1 with
  | zero =>
    intro f2 l _ he
    unfold enough at he
    omega
  | succ f1 ih =>
    intro f2 l hl he1 he2
    cases f2 with
    | zero => unfold enough at he2; omega
    | succ f2 =>
      unfold enough at he1 he2
      unfold delim_loop
      by_cases h0 : l > 0
      · have hgood : l - 1 < d2.after.length ∨ d1.after.length ≤ l - 1 := by omega
        rw [if_pos h0, if_pos h0, rd_wrap_agree d1 d2 h (l - 1) hgood]
        cases hrd : d2.rd_wrap (l - 1) with
        | error e => rfl
        | ok c =>
          simp only [ok_bind]
          have hrd1 : d1.rd_wrap (l - 1) = .ok c := by
            rw [rd_wrap_agree d1 d2 h (l - 1) hgood]; exact hrd
          -- in the wrapped regime the read lies in the lookbehind
          have hhigh : d1.after.length < l → 2 ^ 64 ≤ l - 1 + d1.before.length := by
            intro hl1
            exact (rd_wrap_high d1 (l - 1) c hrd1 (by omega)).1
          have hrec1 : delim_loop d1 f1 (l - 1) = delim_loop d2 f2 (l - 1) := by
            apply ih f2 (l - 1)
            · rcases hl with hl | hl
              · exact Or.inl (by omega)
              · have := hhigh hl; right; omega
            · unfold enough
              rcases hl with hl | hl
              · left; omega
              · have := hhigh hl; right; omega
            · unfold enough
              rcases hl with hl | hl
              · left; omega
              · have := hhigh hl; right; omega
          by_cases hs : strchr (bytes "?!.,") c = true
          · rw [if_pos hs, if_pos hs, hrec1]
          · rw [if_neg hs, if_neg hs]
            by_cases hsemi : c = 59
            · rw [if_pos hsemi, if_pos hsemi]
              -- the start of the backward scan
              have hstart : (2 ≤ l ∧ size_sub l 2 = l - 2) ∨
                  (l = 1 ∧ size_sub l 2 = 2 ^ 64 - 1) := by
                by_cases hl2 : 2 ≤ l
                · exact Or.inl ⟨hl2, size_sub_of_le hl2⟩
                · right
                  have hl1 : l = 1 := by omega
                  subst hl1
                  exact ⟨rfl, by decide⟩
              have hgood2 : size_sub l 2 < d2.after.length ∨
                  d1.after.length ≤ size_sub l 2 := by
                rcases hstart with ⟨hl2, e⟩ | ⟨hl1, e⟩
                · rw [e]
                  rcases hl with hl | hl
                  · left; omega
                  · have := hhigh hl; right; omega
                · rw [e]; right; omega
              rw [delim_back_agree d1 d2 h _ hgood2]
              cases hbk : delim_back d2 (size_sub l 2) with
              | error e => rfl
              | ok ne =>
                have hbk1 : delim_back d1 (size_sub l 2) = .ok ne := by
                  rw [delim_back_agree d1 d2 h _ hgood2]; exact hbk
                have hne : ne ≤ size_sub l 2 := (delim_back_reads d2 _ _ hbk).1
                simp only [ok_bind]
                by_cases hlt : ne < size_sub l 2
                · have hreg : (l ≤ d2.after.length ∧ 2 ≤ l ∧ ne + 2 < l) ∨
                      d1.after.length ≤ ne := by
                    rcases hstart with ⟨hl2, e⟩ | ⟨hl1, e⟩
                    · rw [e] at hlt hbk1
                      rcases hl with hl | hl
                      · left; omega
                      · have := hhigh hl
                        right
                        exact delim_back_good d1 hM _ _ hbk1 (by omega)
                    · rw [e] at hbk1
                      right
                      exact delim_back_good d1 hM _ _ hbk1 (by omega)
                  have hgood3 : ne < d2.after.length ∨ d1.after.length ≤ ne := by
                    rcases hreg with hg | hg
                    · left; omega
                    · right; exact hg
                  rw [if_pos hlt, if_pos hlt, rd_wrap_agree d1 d2 h ne hgood3]
                  cases hrd2 : d2.rd_wrap ne with
                  | error e => rfl
                  | ok c2 =>
                    simp only [ok_bind]
                    have hrd21 : d1.rd_wrap ne = .ok c2 := by
                      rw [rd_wrap_agree d1 d2 h ne hgood3]; exact hrd2
                    by_cases hamp : c2 = 38
                    · rw [if_pos hamp, if_pos hamp]
                      have hub : ne + 2 ≤ l ∨ (l = 1 ∧ ne + 2 ≤ 2 ^ 64) := by
                        rcases hstart with ⟨hl2, e⟩ | ⟨hl1, e⟩
                        · rw [e] at hlt; left; omega
                        · rw [e] at hlt; right; omega
                      rcases hreg with hg | hg
                      · apply ih f2 ne (Or.inl (by omega))
                        · unfold enough; left; omega
                        · unfold enough; left; omega
                      · have hh := rd_wrap_high d1 ne c2 hrd21 hg
                        apply ih f2 ne (Or.inr (by omega))
                        · unfold enough; right; omega
                        · unfold enough; right; omega
                    · rw [if_neg hamp, if_neg hamp, hrec1]
                · rw [if_neg hlt, if_neg hlt, hrec1]
            · rw [if_neg hsemi, if_neg hsemi]
      · rw [if_neg h0, if_neg h0]

/-- The trimming loop ends at a length within the first `m` bytes of the
window or at a wrapped value above the window. -/
theorem delim_loop_regime (d : Window) (hM : d.before.length + d.after.length < 2 ^ 64)
    (m : Nat) :
    ∀ (f l r : Nat), (l ≤ m ∨ d.after.length < l) → delim_loop d f l = .ok r →
      (r ≤ m ∨ d.after.length < r) := by
  intro f
  induction f with
  | zero =>
    intro l r _ h
    unfold delim_loop at h
    cases h
  | succ f ih =>
    intro l r hl h
    unfold delim_loop at h
    by_cases h0 : l > 0
    · rw [if_pos h0] at h
      cases hrd : d.rd_wrap (l - 1) with
      | error e => rw [hrd] at h; cases h
      | ok c =>
        rw [hrd] at h
        simp only [ok_bind] at h
        have hhigh : d.after.length < l → 2 ^ 64 ≤ l - 1 + d.before.length := by
          intro hl1
          exact (rd_wrap_high d (l - 1) c hrd (by omega)).1
        have hprev : l - 1 ≤ m ∨ d.after.length < l - 1 := by
          rcases hl with hl | hl
          · left; omega
          · have := hhigh hl; right; omega
        by_cases hs : strchr (bytes "?!.,") c = true
        · rw [if_pos hs] at h
          exact ih _ _ hprev h
        · rw [if_neg hs] at h
          by_cases hsemi : c = 59
          · rw [if_pos hsemi] at h
            have hstart : (2 ≤ l ∧ size_sub l 2 = l - 2) ∨
                (l = 1 ∧ size_sub l 2 = 2 ^ 64 - 1) := by
              by_cases hl2 : 2 ≤ l
              · exact Or.inl ⟨hl2, size_sub_of_le hl2⟩
              · right
                have hl1 : l = 1 := by omega
                subst hl1
                exact ⟨rfl, by decide⟩
            cases hbk : delim_back d (size_sub l 2) with
            | error e => rw [hbk] at h; cases h
            | ok ne =>
              rw [hbk] at h
              simp only [ok_bind] at h
              have hne : ne ≤ size_sub l 2 := (delim_back_reads d _ _ hbk).1
              by_cases hlt : ne < size_sub l 2
              · rw [if_pos hlt] at h
                cases hrd2 : d.rd_wrap ne with
                | error e => rw [hrd2] at h; cases h
                | ok c2 =>
                  rw [hrd2] at h
                  simp only [ok_bind] at h
                  by_cases hamp : c2 = 38
                  · rw [if_pos hamp] at h
                    apply ih _ _ _ h
                    rcases hstart with ⟨hl2, e⟩ | ⟨hl1, e⟩
                    · rw [e] at hlt hbk
                      rcases hl with hl | hl
                      · left; omega
                      · have := hhigh hl
                        have hg := delim_back_good d hM _ _ hbk (by omega)
                        have hh := rd_wrap_high d ne c2 hrd2 hg
                        right; omega
                    · rw [e] at hbk
                      have hg := delim_back_good d hM _ _ hbk (by omega)
                      have hh := rd_wrap_high d ne c2 hrd2 hg
                      right; omega
                  · rw [if_neg hamp] at h
                    exact ih _ _ hprev h
              · rw [if_neg hlt] at h
                exact ih _ _ hprev h
          · rw [if_neg hsemi] at h
            cases h
            exact hl
    · rw [if_neg h0] at h
      cases h
      exact hl

/-- Counting up to a wrapped `link_end` runs off the end of the window. -/
theorem delim_count_oob (d : Window) (hM : d.before.length + d.after.length < 2 ^ 64)
    (l copen cclose : Nat) (hl : d.after.length < l) :
    ∀ (fuel i o c : Nat), i ≤ d.after.length → d.after.length < fuel + i →
      delim_count d l copen cclose fuel i o c = .error .oob := by
  intro fuel
  induction fuel with
  | zero => intro i o c h1 h2; omega
  | succ f ih =>
    intro i o c h1 h2
    unfold delim_count
    rw [if_pos (by omega)]
    by_cases hi : i < d.after.length
    · rw [rd_wrap_of_lt d hi]
      simp only [ok_bind]
      split
      · exact ih _ _ _ (by omega) (by omega)
      · split
        · exact ih _ _ _ (by omega) (by omega)
        · exact ih _ _ _ (by omega) (by omega)
    · have e : i = d.after.length := by omega
      rw [e, rd_wrap_size d hM]
      rfl

theorem take_agree (A B : List Nat) (l : Nat) (h : ∀ j, j < l → A[j]? = B[j]?) :
    A.take l = B.take l := by
  apply List.ext_getElem?
  intro j
  by_cases hj : j < l
  · rw [List.getElem?_take_of_lt hj, List.getElem?_take_of_lt hj, h j hj]
  · rw [List.getElem?_take_eq_none (by omega), List.getElem?_take_eq_none (by omega)]

theorem delim_close_agree (d1 d2 : Window) (h : continues d1 d2) (r : Nat)
    (hr : r ≤ d2.after.length ∨ d1.after.length < r) :
    delim_close d1 r = delim_close d2 r := by
  have hM := h.2.2.2
  have hb : d1.before.length = d2.before.length := by rw [h.1]
  have hle := h.2.1
  unfold delim_close
  by_cases hz : r = 0
  · rw [if_pos hz, if_pos hz]
  · rw [if_neg hz, if_neg hz, rd_wrap_agree d1 d2 h (r - 1) (by omega)]
    cases hrd : d2.rd_wrap (r - 1) with
    | error e => rfl
    | ok c =>
      simp only [ok_bind]
      by_cases hco : copen_of c ≠ 0
      · rw [if_pos hco, if_pos hco]
        rcases hr with hr | hr
        · rw [delim_count_spec d1 r _ _ (by omega) (r + 1) 0 0 0 (by omega) (by omega),
            delim_count_spec d2 r _ _ hr (r + 1) 0 0 0 (by omega) (by omega),
            take_agree _ _ r (fun j hj => h.2.2.1 j (by omega))]
        · rw [delim_count_oob d1 hM r _ _ hr (r + 1) 0 0 0 (by omega) (by omega),
            delim_count_oob d2 (by omega) r _ _ (by omega) (r + 1) 0 0 0 (by omega) (by omega)]
      · rw [if_neg hco, if_neg hco]

theorem delim_tail_agree (d1 d2 : Window) (h : continues d1 d2) (f1 f2 l : Nat)
    (hl : l ≤ d2.after.length) (he1 : enough d1 f1 l) (he2 : enough d2 f2 l) :
    (delim_loop d1 f1 l >>= fun r => delim_close d1 r) =
      (delim_loop d2 f2 l >>= fun r => delim_close d2 r) := by
  have hM := h.2.2.2
  have heq := delim_loop_agree d1 d2 h f1 f2 l (Or.inl hl) he1 he2
  cases hr : delim_loop d2 f2 l with
  | error e => rw [heq, hr]; rfl
  | ok r =>
    rw [hr] at heq
    have hreg := delim_loop_regime d1 hM d2.after.length f1 l r (Or.inl hl) heq
    rw [heq]
    simp only [ok_bind]
    exact delim_close_agree d1 d2 h r hreg

theorem rd_wrap_of_some (w : Window) {i c : Nat} (h : w.after[i]? = some c) :
    w.rd_wrap i = .ok c := by
  unfold Window.rd_wrap
  rw [h]

theorem continues_append (b s t : List Nat) (h : b.length + (s ++ t).length < 2 ^ 64) :
    continues ⟨b, s ++ t⟩ ⟨b, s⟩ :=
  ⟨rfl, by simp, fun _ hj => List.getElem?_append_left hj, h⟩

theorem continues_self (d : Window) (h : d.before.length + d.after.length < 2 ^ 64) :
    continues d d :=
  ⟨rfl, le_refl _, fun _ _ => rfl, h⟩

theorem split_at_lt (s : List Nat) (h : ¬ ∀ c ∈ s, c ≠ 60) :
    ∃ s1 s2, s = s1 ++ 60 :: s2 ∧ ∀ c ∈ s1, c ≠ 60 := by
  induction s with
  | nil => exact absurd (fun c hc => absurd hc (List.not_mem_nil c)) h
  | cons a t ih =>
    by_cases ha : a = 60
    · exact ⟨[], t, by rw [ha]; rfl, fun c hc => absurd hc (List.not_mem_nil c)⟩
    · have ht : ¬ ∀ c ∈ t, c ≠ 60 := by
        intro hall
        apply h
        intro c hc
        rcases List.mem_cons.1 hc with rfl | hc
        · exact ha
        · exact hall c hc
      obtain ⟨s1, s2, rfl, h1⟩ := ih ht
      refine ⟨a :: s1, s2, rfl, ?_⟩
      intro c hc
      rcases List.mem_cons.1 hc with rfl | hc
      · exact ha
      · exact h1 c hc

/-- Trimming `s ++ t` is trimming `s`, in front of the same lookbehind, when `t`
holds no `<` and the trimming loop on `s ++ t` comes down to the end of `s`. -/
theorem autolink_delim_extend (b s t : List Nat) (o1 z1 o2 z2 : Nat)
    (ht : ∀ c ∈ t, c ≠ 60) (hsz : b.length + (s ++ t).length < 2 ^ 64)
    (hstep : (∀ c ∈ s, c ≠ 60) →
      delim_loop ⟨b, s ++ t⟩ ((s ++ t).length + b.length + 3) (s ++ t).length =
        delim_loop ⟨b, s ++ t⟩ (s.length + b.length + 3) s.length) :
    autolink_delim ⟨b, s ++ t⟩ (s ++ t).length o1 z1 =
      autolink_delim ⟨b, s⟩ s.length o2 z2 := by
  have hc := continues_append b s t hsz
  have hlen : (s ++ t).length = s.length + t.length := List.length_append _ _
  rw [autolink_delim_steps, autolink_delim_steps]
  have h1 := delim_lt_spec ⟨b, s ++ t⟩ (s ++ t).length (le_refl _) ((s ++ t).length + 1) 0
    (by omega) (by omega)
  have h2 := delim_lt_spec ⟨b, s⟩ s.length (le_refl _) (s.length + 1) 0 (by omega) (by omega)
  simp only [Nat.zero_add, List.drop_zero, List.take_length] at h1 h2
  rw [h1, h2]
  simp only [ok_bind]
  by_cases hall : ∀ c ∈ s, c ≠ 60
  · have e1 : (s ++ t).takeWhile (fun c => decide (c ≠ 60)) = s ++ t := by
      apply List.takeWhile_eq_self_iff.2
      intro c hc
      rcases List.mem_append.1 hc with hc | hc
      · simpa using hall c hc
      · simpa using ht c hc
    have e2 : s.takeWhile (fun c => decide (c ≠ 60)) = s :=
      List.takeWhile_eq_self_iff.2 (fun c hc => by simpa using hall c hc)
    rw [e1, e2, hstep hall]
    apply delim_tail_agree _ _ hc _ _ _ (le_refl _)
    · unfold enough; left
      show s.length ≤ (s ++ t).length ∧ s.length + b.length + 2 < s.length + b.length + 3
      omega
    · unfold enough; left
      show s.length ≤ s.length ∧ s.length + b.length + 2 < s.length + b.length + 3
      omega
  · obtain ⟨s1, s2, rfl, hs1⟩ := split_at_lt s hall
    have e1 : ((s1 ++ 60 :: s2) ++ t).takeWhile (fun c => decide (c ≠ 60)) = s1 := by
      rw [List.append_assoc, List.takeWhile_append_of_pos (fun c hc => by simpa using hs1 c hc),
        List.cons_append, List.takeWhile_cons_of_neg (by decide), List.append_nil]
    have e2 : (s1 ++ 60 :: s2).takeWhile (fun c => decide (c ≠ 60)) = s1 := by
      rw [List.takeWhile_append_of_pos (fun c hc => by simpa using hs1 c hc),
        List.takeWhile_cons_of_neg (by decide), List.append_nil]
    have hs1len : s1.length ≤ (s1 ++ 60 :: s2).length := by
      rw [List.length_append]; omega
    rw [e1, e2]
    apply delim_tail_agree _ _ hc _ _ _ hs1len
    · unfold enough; left
      show s1.length ≤ ((s1 ++ 60 :: s2) ++ t).length ∧
        s1.length + b.length + 2 < s1.length + b.length + 3
      omega
    · unfold enough; left
      show s1.length ≤ (s1 ++ 60 :: s2).length ∧
        s1.length + b.length + 2 < s1.length + b.length + 3
      omega

/-- One turn of the trimming loop at a `;`. -/
theorem delim_loop_semi (data : Window) (f l : Nat) (hl : 2 ≤ l)
    (hrd : data.rd_wrap (l - 1) = .ok 59) :
    delim_loop data (f + 1) l =
      (delim_back data (l - 2) >>= fun new_end =>
        if new_end < l - 2 then
          data.rd_wrap new_end >>= fun c2 =>
            if c2 = 38 then delim_loop data f new_end else delim_loop data f (l - 1)
        else delim_loop data f (l - 1)) := by
  conv_lhs => unfold delim_loop
  rw [if_pos (by omega), hrd]
  simp only [ok_bind]
  rw [if_neg (by decide), if_pos trivial, size_sub_of_le hl]

/-- The trimming loop does not depend on its fuel once there is enough of it. -/
theorem delim_loop_fuel (d : Window) (hM : d.before.length + d.after.length < 2 ^ 64)
    (f1 f2 l : Nat) (hl : l ≤ d.after.length) (h1 : l + d.before.length + 2 < f1)
    (h2 : l + d.before.length + 2 < f2) : delim_loop d f1 l = delim_loop d f2 l :=
  delim_loop_agree d d (continues_self d hM) f1 f2 l (Or.inl hl) (Or.inl ⟨hl, h1⟩)
    (Or.inl ⟨hl, h2⟩)

theorem delim_entity_step (b s w : List Nat) (hw : w ≠ [])
    (hal : ∀ c ∈ w, isalpha c = true)
    (hsz : b.length + (s ++ 38 :: (w ++ [59])).length < 2 ^ 64) :
    delim_loop ⟨b, s ++ 38 :: (w ++ [59])⟩ ((s ++ 38 :: (w ++ [59])).length + b.length + 3)
        (s ++ 38 :: (w ++ [59])).length =
      delim_loop ⟨b, s ++ 38 :: (w ++ [59])⟩ (s.length + b.length + 3) s.length := by
  have hwpos : 0 < w.length := List.length_pos.2 hw
  have hlen : (s ++ 38 :: (w ++ [59])).length = s.length + w.length + 2 := by
    simp only [List.length_append, List.length_cons, List.length_nil]; omega
  have hlast : (⟨b, s ++ 38 :: (w ++ [59])⟩ : Window).rd_wrap (s.length + w.length + 2 - 1) =
      .ok 59 := by
    apply rd_wrap_of_some
    show (s ++ 38 :: (w ++ [59]))[s.length + w.length + 2 - 1]? = some 59
    have e : s.length + w.length + 2 - 1 - s.length = w.length + 1 := by omega
    rw [List.getElem?_append_right (by omega), e, List.getElem?_cons_succ,
      List.getElem?_append_right (le_refl _), Nat.sub_self]
    rfl
  have hamp : (s ++ 38 :: (w ++ [59]))[s.length]? = some 38 := by
    rw [List.getElem?_append_right (le_refl _), Nat.sub_self]
    simp
  have hword : ∀ j, s.length < j → j ≤ s.length + w.length →
      ∃ c, (s ++ 38 :: (w ++ [59]))[j]? = some c ∧ isalpha c = true := by
    intro j h1 h2
    obtain ⟨k, rfl⟩ : ∃ k, j = s.length + 1 + k := ⟨j - s.length - 1, by omega⟩
    have hk : k < w.length := by omega
    refine ⟨w[k], ?_, hal _ (List.getElem_mem _)⟩
    have e : s.length + 1 + k - s.length = k + 1 := by omega
    rw [List.getElem?_append_right (by omega), e, List.getElem?_cons_succ,
      List.getElem?_append_left hk, List.getElem?_eq_getElem hk]
  obtain ⟨r, hr, hrle, hall, hstop⟩ := delim_back_spec ⟨b, s ++ 38 :: (w ++ [59])⟩
    (s.length + w.length + 2 - 2) (Or.inr (by show _ < (s ++ 38 :: (w ++ [59])).length; omega))
  have hrs : r = s.length := by
    rcases Nat.lt_trichotomy r s.length with h | h | h
    · obtain ⟨c, hc, hca⟩ := hall s.length h (by omega)
      have hc2 : (s ++ 38 :: (w ++ [59]))[s.length]? = some c := hc
      rw [hamp] at hc2
      cases hc2
      exact absurd hca (by decide)
    · exact h
    · obtain ⟨c, hc, hca⟩ := hstop (by omega)
      obtain ⟨c2, hc2, hca2⟩ := hword r h (by omega)
      have hc3 : (s ++ 38 :: (w ++ [59]))[r]? = some c := hc
      rw [hc2] at hc3
      cases hc3
      rw [hca2] at hca
      cases hca
  subst hrs
  have hrd : (⟨b, s ++ 38 :: (w ++ [59])⟩ : Window).rd_wrap s.length = .ok 38 :=
    rd_wrap_of_some _ hamp
  rw [hlen, delim_loop_semi _ _ _ (by omega) hlast, hr]
  simp only [ok_bind]
  rw [if_pos (by omega), hrd]
  simp only [ok_bind]
  rw [if_pos trivial]
  exact delim_loop_fuel _ hsz _ _ _ (by show s.length ≤ (s ++ 38 :: (w ++ [59])).length; omega)
    (by show s.length + b.length + 2 < _; omega) (by show s.length + b.length + 2 < _; omega)

theorem delim_semi_step (b s : List Nat) (hs : s ≠ [])
    (hno : ¬ ∃ p v, s = p ++ bytes "&" ++ v ∧ ∀ c ∈ v, isalpha c = true)
    (hsz : b.length + (s ++ [59]).length < 2 ^ 64) :
    delim_loop ⟨b, s ++ [59]⟩ ((s ++ [59]).length + b.length + 3) (s ++ [59]).length =
      delim_loop ⟨b, s ++ [59]⟩ (s.length + b.length + 3) s.length := by
  have hspos : 0 < s.length := List.length_pos.2 hs
  have hlen : (s ++ [59]).length = s.length + 1 := by
    simp only [List.length_append, List.length_cons, List.length_nil]
  have hlast : (⟨b, s ++ [59]⟩ : Window).rd_wrap (s.length + 1 - 1) = .ok 59 := by
    apply rd_wrap_of_some
    show (s ++ [59])[s.length + 1 - 1]? = some 59
    rw [Nat.add_sub_cancel, List.getElem?_append_right (le_refl _), Nat.sub_self]
    rfl
  obtain ⟨r, hr, hrle, hall, _⟩ := delim_back_spec ⟨b, s ++ [59]⟩
    (s.length + 1 - 2) (Or.inr (by show _ < (s ++ [59]).length; omega))
  have hfin : delim_loop ⟨b, s ++ [59]⟩ (s.length + 1 + b.length + 2) (s.length + 1 - 1) =
      delim_loop ⟨b, s ++ [59]⟩ (s.length + b.length + 3) s.length := by
    rw [Nat.add_sub_cancel]
    exact delim_loop_fuel _ hsz _ _ _ (by show s.length ≤ (s ++ [59]).length; omega)
      (by show s.length + b.length + 2 < _; omega) (by show s.length + b.length + 2 < _; omega)
  rw [hlen, delim_loop_semi _ _ _ (by omega) hlast, hr]
  simp only [ok_bind]
  by_cases hlt : r < s.length + 1 - 2
  · have hrlt : r < s.length := by omega
    have hrd : (⟨b, s ++ [59]⟩ : Window).rd_wrap r = .ok s[r] := by
      apply rd_wrap_of_some
      show (s ++ [59])[r]? = some s[r]
      rw [List.getElem?_append_left hrlt, List.getElem?_eq_getElem hrlt]
    rw [if_pos hlt, hrd]
    simp only [ok_bind]
    have hne : s[r] ≠ 38 := by
      intro h38
      apply hno
      refine ⟨s.take r, s.drop (r + 1), ?_, ?_⟩
      · have hb : bytes "&" = [38] := rfl
        rw [hb, List.append_assoc, List.singleton_append, ← h38,
          ← List.drop_eq_getElem_cons hrlt, List.take_append_drop]
      · intro c hc
        obtain ⟨k, hk, hget⟩ := List.getElem_of_mem hc
        rw [List.length_drop] at hk
        rw [List.getElem_drop] at hget
        obtain ⟨c2, hc2, hca⟩ := hall (r + 1 + k) (by omega) (by omega)
        have hc3 : (s ++ [59])[r + 1 + k]? = some c2 := hc2
        rw [List.getElem?_append_left (by omega), List.getElem?_eq_getElem (by omega)] at hc3
        cases hc3
        rw [← hget]
        exact hca
    rw [if_neg hne]
    exact hfin
  · rw [if_neg hlt]
    exact hfin

theorem delim_back_same (b1 b2 a : List Nat) :
    ∀ n : Nat, n = 0 ∨ n < a.length → delim_back ⟨b1, a⟩ n = delim_back ⟨b2, a⟩ n := by
  intro n
  induction n with
  | zero => intro _; rfl
  | succ n ih =>
    intro hn
    have hlt : n + 1 < a.length := by omega
    unfold delim_back
    rw [rd_wrap_of_lt ⟨b1, a⟩ hlt, rd_wrap_of_lt ⟨b2, a⟩ hlt, ih (by omega)]

theorem delim_loop_same (b1 b2 a : List Nat) (h59 : a.head? ≠ some 59) :
    ∀ (f1 f2 l : Nat), l < f1 → l < f2 → l ≤ a.length →
      delim_loop ⟨b1, a⟩ f1 l = delim_loop ⟨b2, a⟩ f2 l := by
  intro f1
  induction f1 with
  | zero => intro f2 l h; omega
  | succ f1 ih =>
    intro f2 l hf1 hf2 hl
    cases f2 with
    | zero => omega
    | succ f2 =>
      unfold delim_loop
      by_cases h0 : l > 0
      · have hlt : l - 1 < a.length := by omega
        rw [if_pos h0, if_pos h0, rd_wrap_of_lt ⟨b1, a⟩ hlt, rd_wrap_of_lt ⟨b2, a⟩ hlt]
        simp only [ok_bind]
        have hrec : delim_loop ⟨b1, a⟩ f1 (l - 1) = delim_loop ⟨b2, a⟩ f2 (l - 1) :=
          ih f2 (l - 1) (by omega) (by omega) (by omega)
        by_cases hs : strchr (bytes "?!.,") a[l - 1] = true
        · rw [if_pos hs, if_pos hs, hrec]
        · rw [if_neg hs, if_neg hs]
          by_cases hsemi : a[l - 1] = 59
          · rw [if_pos hsemi, if_pos hsemi]
            have hl2 : 2 ≤ l := by
              by_contra hcon
              have hl1 : l = 1 := by omega
              subst hl1
              apply h59
              rw [List.head?_eq_getElem?, List.getElem?_eq_getElem hlt]
              exact congrArg some hsemi
            rw [size_sub_of_le hl2, delim_back_same b1 b2 a (l - 2) (Or.inr (by omega))]
            cases hbk : delim_back ⟨b2, a⟩ (l - 2) with
            | error e => rfl
            | ok ne =>
              have hne : ne ≤ l - 2 := (delim_back_reads _ _ _ hbk).1
              have hnlt : ne < a.length := by omega
              simp only [ok_bind]
              by_cases hlt2 : ne < l - 2
              · rw [if_pos hlt2, if_pos hlt2, rd_wrap_of_lt ⟨b1, a⟩ hnlt,
                  rd_wrap_of_lt ⟨b2, a⟩ hnlt]
                simp only [ok_bind]
                by_cases hamp : a[ne] = 38
                · rw [if_pos hamp, if_pos hamp]
                  exact ih f2 ne (by omega) (by omega) (by omega)
                · rw [if_neg hamp, if_neg hamp, hrec]
              · rw [if_neg hlt2, if_neg hlt2, hrec]
          · rw [if_neg hsemi, if_neg hsemi]
      · rw [if_neg h0, if_neg h0]

/-- The trimmer does not look at the lookbehind of a span that does not start
with `;`. -/
theorem autolink_delim_same (b1 b2 a : List Nat) (n o1 z1 o2 z2 : Nat) (hn : n ≤ a.length)
    (h59 : a.head? ≠ some 59) :
    autolink_delim ⟨b1, a⟩ n o1 z1 = autolink_delim ⟨b2, a⟩ n o2 z2 := by
  rw [autolink_delim_steps, autolink_delim_steps]
  have h1 := delim_lt_spec ⟨b1, a⟩ n hn (n + 1) 0 (by omega) (by omega)
  have h2 := delim_lt_spec ⟨b2, a⟩ n hn (n + 1) 0 (by omega) (by omega)
  simp only [Nat.zero_add, List.drop_zero] at h1 h2
  have hl1 : ((a.take n).takeWhile (fun c => decide (c ≠ 60))).length ≤ n := by
    have := (List.takeWhile_sublist (l := a.take n) (fun c => decide (c ≠ 60))).length_le
    rw [List.length_take] at this
    omega
  rw [h1, h2]
  generalize ((a.take n).takeWhile (fun c => decide (c ≠ 60))).length = l at hl1
  simp only [ok_bind]
  obtain ⟨r, hr, hrl, _⟩ := delim_loop_spec ⟨b2, a⟩ h59 (l + b2.length + 3) l
    (by show l < l + b2.length + 3; omega) (by show l ≤ a.length; omega)
  have hsame := delim_loop_same b1 b2 a h59 (l + b1.length + 3) (l + b2.length + 3) l
    (by omega) (by omega) (by omega)
  show (delim_loop ⟨b1, a⟩ (l + b1.length + 3) l >>= fun r => delim_close ⟨b1, a⟩ r) =
    (delim_loop ⟨b2, a⟩ (l + b2.length + 3) l >>= fun r => delim_close ⟨b2, a⟩ r)
  rw [hsame, hr]
  simp only [ok_bind]
  unfold delim_close
  by_cases hz : r = 0
  · rw [if_pos hz, if_pos hz]
  · have hlt : r - 1 < a.length := by omega
    rw [if_neg hz, if_neg hz, rd_wrap_of_lt ⟨b1, a⟩ hlt, rd_wrap_of_lt ⟨b2, a⟩ hlt]
    simp only [ok_bind]
    by_cases hco : copen_of a[r - 1] ≠ 0
    · rw [if_pos hco, if_pos hco,
        delim_count_spec ⟨b1, a⟩ r _ _ (by show r ≤ a.length; omega) (r + 1) 0 0 0 (by omega)
          (by omega),
        delim_count_spec ⟨b2, a⟩ r _ _ (by show r ≤ a.length; omega) (r + 1) 0 0 0 (by omega)
          (by omega)]
    · rw [if_neg hco, if_neg hco]

/-- C16. Trimming is `autolink_delim` on a whole span, with the outcome a
length or a read outside the buffer; the buffer (lookbehind and span) is shorter
than `2 ^ 64` bytes.  For every byte string `s` and every non-empty string `w`
of ASCII letters, in front of every lookbehind `b`, trimming `s&w;` has the same
outcome as trimming `s`; for every non-empty `s` that does not end in `&`
followed by zero or more letters, trimming `s;` has the same outcome as trimming
`s`; and that outcome is a length of at most `|s|`, the same in front of every
lookbehind, whenever `s` does not start with `;`. -/
theorem delim_semicolon_rule (b s w : List Nat) (o1 z1 o2 z2 : Nat) :
    (w ≠ [] → (∀ c ∈ w, isalpha c = true) →
      b.length + (s ++ bytes "&" ++ w ++ bytes ";").length < 2 ^ 64 →
      autolink_delim ⟨b, s ++ bytes "&" ++ w ++ bytes ";"⟩
          (s ++ bytes "&" ++ w ++ bytes ";").length o1 z1 =
        autolink_delim ⟨b, s⟩ s.length o2 z2) ∧
    (s ≠ [] → (¬ ∃ p v, s = p ++ bytes "&" ++ v ∧ ∀ c ∈ v, isalpha c = true) →
      b.length + (s ++ bytes ";").length < 2 ^ 64 →
      autolink_delim ⟨b, s ++ bytes ";"⟩ (s ++ bytes ";").length o1 z1 =
        autolink_delim ⟨b, s⟩ s.length o2 z2) ∧
    (s.head? ≠ some 59 →
      ∃ r, r ≤ s.length ∧ ∀ b2, autolink_delim ⟨b2, s⟩ s.length o2 z2 = .ok r) := by
  have hb1 : bytes "&" = [38] := rfl
  have hb2 : bytes ";" = [59] := rfl
  refine ⟨?_, ?_, ?_⟩
  · intro hw hal hsz
    have e : s ++ bytes "&" ++ w ++ bytes ";" = s ++ 38 :: (w ++ [59]) := by
      rw [hb1, hb2, List.append_assoc, List.append_assoc, List.singleton_append]
    rw [e] at hsz ⊢
    apply autolink_delim_extend b s (38 :: (w ++ [59])) o1 z1 o2 z2 _ hsz
    · intro _
      exact delim_entity_step b s w hw hal hsz
    · intro c hc
      rcases List.mem_cons.1 hc with rfl | hc
      · decide
      · rcases List.mem_append.1 hc with hc | hc
        · intro h60
          have := hal c hc
          rw [h60] at this
          exact absurd this (by decide)
        · rw [List.mem_singleton] at hc
          rw [hc]
          decide
  · intro hs hno hsz
    rw [hb2] at hsz ⊢
    apply autolink_delim_extend b s [59] o1 z1 o2 z2 _ hsz
    · intro _
      exact delim_semi_step b s hs hno hsz
    · intro c hc
      rw [List.mem_singleton] at hc
      rw [hc]
      decide
  · intro h59
    obtain ⟨r, hr, hle, _⟩ := autolink_delim_spec ⟨b, s⟩ s.length o2 z2 (le_refl _) h59
    refine ⟨r, hle, fun b2 => ?_⟩
    rw [autolink_delim_same b2 b s s.length o2 z2 o2 z2 (le_refl _) h59]
    exact hr

theorem delim_semicolon_rule_witness :
    autolink_delim ⟨[], bytes "http://x.com/a" ++ bytes "&" ++ bytes "amp" ++ bytes ";"⟩
        (bytes "http://x.com/a" ++ bytes "&" ++ bytes "amp" ++ bytes ";").length 0 19 =
      autolink_delim ⟨[], bytes "http://x.com/a"⟩ (bytes "http://x.com/a").length 0 14 ∧
    autolink_delim ⟨(bytes "x&ab").reverse, bytes ";" ++ bytes "&" ++ bytes "amp" ++ bytes ";"⟩
        (bytes ";" ++ bytes "&" ++ bytes "amp" ++ bytes ";").length 4 6 =
      autolink_delim ⟨(bytes "x&ab").reverse, bytes ";"⟩ (bytes ";").length 4 1 :=
  ⟨(delim_semicolon_rule [] (bytes "http://x.com/a") (bytes "amp") 0 19 0 14).1
      (by decide) (by decide) (by decide),
    (delim_semicolon_rule (bytes "x&ab").reverse (bytes ";") (bytes "amp") 4 6 4 1).1
      (by decide) (by decide) (by decide)⟩

/-- The examples of C16: `http://x.com/a&amp;` is cut to `http://x.com/a`
(14 bytes), as `http://x.com/a` trims to itself, and `http://x.com/a&#39;` is cut
to `http://x.com/a&#39` (18 bytes), as `http://x.com/a&#39` trims to itself. -/
theorem delim_semicolon_examples :
    autolink_delim ⟨[], bytes "http://x.com/a&amp;"⟩ 19 0 19 = .ok 14 ∧
    autolink_delim ⟨[], bytes "http://x.com/a"⟩ 14 0 14 = .ok 14 ∧
    autolink_delim ⟨[], bytes "http://x.com/a&#39;"⟩ 19 0 19 = .ok 18 ∧
    autolink_delim ⟨[], bytes "http://x.com/a&#39"⟩ 18 0 18 = .ok 18 :=
  ⟨rfl, rfl, rfl, rfl⟩

/-- C16 on spans that start with `;`, where the loop reaches `link_end = 1` and
the index `link_end - 2` wraps to `data[-1]`: behind a space, `;` and `;&amp;`
are both trimmed to 0; behind `x&ab` both yield the wrapped value `2 ^ 64 - 3`;
without lookbehind both end in a read in front of the buffer. -/
theorem delim_semicolon_wrapped :
    autolink_delim ⟨bytes " ", bytes ";"⟩ 1 1 1 = .ok 0 ∧
    autolink_delim ⟨bytes " ", bytes ";&amp;"⟩ 6 1 6 = .ok 0 ∧
    autolink_delim ⟨(bytes "x&ab").reverse, bytes ";"⟩ 1 4 1 = .ok (2 ^ 64 - 3) ∧
    autolink_delim ⟨(bytes "x&ab").reverse, bytes ";&amp;"⟩ 6 4 6 = .ok (2 ^ 64 - 3) ∧
    autolink_delim ⟨[], bytes ";"⟩ 1 0 1 = .error .oob ∧
    autolink_delim ⟨[], bytes ";&amp;"⟩ 6 0 6 = .error .oob :=
  ⟨rfl, rfl, rfl, rfl, rfl, rfl⟩

/-! ## The reads of the detectors -/

theorem delim_loop_wrap (w : Window) (fuel : Nat) (h59 : w.after.head? = some 59)
    (hb : w.before = []) (hsz : w.size < 2 ^ 64) :
    delim_loop w (fuel + 1) 1 = .error .oob := by
  have h0 : w.rd_wrap 0 = .ok 59 := by
    unfold Window.rd_wrap
    rw [← List.head?_eq_getElem?, h59]
  have hw : size_sub 1 2 = 18446744073709551614 + 1 := by decide
  have hrd : w.rd_wrap (18446744073709551614 + 1) = .error .oob := by
    unfold Window.rd_wrap Window.rdBack
    rw [List.getElem?_eq_none (by unfold Window.size at hsz; omega), hb]
    rfl
  unfold delim_loop
  rw [if_pos (by omega), h0]
  simp only [ok_bind]
  rw [if_neg (by decide), if_pos trivial, hw]
  unfold delim_back
  rw [hrd]
  rfl

theorem check_domain_empty (w : Window) (size : Nat) (h : w.size = 0) :
    check_domain w size = .error .oob := by
  have hrd : w.rd 0 = .error .oob := by
    unfold Window.rd
    rw [List.getElem?_eq_none (by unfold Window.size at h; omega)]
  unfold check_domain
  rw [hrd]
  rfl

theorem www_semicolon (rewind_p : Nat) (link : List Nat) (data : Window)
    (h : data.after.head? = some 59) :
    sd_autolink__www rewind_p link data data.before.length data.after.length =
      .ok ⟨0, rewind_p, link⟩ := by
  apply www_failure
  right; left
  intro hw
  have := congrArg List.head? hw
  rw [List.head?_take, if_neg (by decide), h] at this
  exact absurd this (by decide)

theorem email_semicolon (rewind_p : Nat) (link : List Nat) (data : Window)
    (h : data.after.head? = some 59) :
    sd_autolink__email rewind_p link data data.before.length data.after.length =
      .ok ⟨0, rewind_p, link⟩ := by
  have hrew := email_rewind_spec data (data.before.length + 1) 0 (by omega) (by omega)
  have hfwd := email_forward_exact data (data.after.length + 1) 0 0 0 (by omega) (by omega)
  simp only [Nat.zero_mod, Nat.zero_add, List.drop_zero] at hfwd
  obtain ⟨t, ht⟩ : ∃ t, data.after = 59 :: t := by
    cases hl : data.after with
    | nil => rw [hl] at h; simp at h
    | cons a t =>
      rw [hl] at h
      simp only [List.head?_cons, Option.some.injEq] at h
      exact ⟨t, by rw [h]⟩
  have hnil : (List.enumFrom 0 data.after).takeWhile (email_go data.after.length) = [] := by
    rw [ht, List.enumFrom_cons, List.takeWhile_cons_of_neg]
    simp [email_go, email_byte, isalnum, isalpha, isupper, islower, isdigit]
  rw [hnil] at hfwd
  unfold sd_autolink__email
  rw [hrew]
  simp only [ok_bind]
  split
  · rfl
  · rw [hfwd]
    rfl

theorem url_semicolon (rewind_p : Nat) (link : List Nat) (data : Window)
    (h : data.after.head? = some 59) :
    sd_autolink__url rewind_p link data data.before.length data.after.length =
      .ok ⟨0, rewind_p, link⟩ := by
  obtain ⟨b, hb, hbiff⟩ := url_no_slashes_eval data
  unfold sd_autolink__url
  rw [hb]
  simp only [ok_bind]
  by_cases hb1 : b = true
  · rw [if_pos hb1]
  rw [if_neg hb1]
  rw [url_rewind_spec data _ 0 (by omega) (by omega)]
  simp only [ok_bind, Nat.zero_add, List.drop_zero]
  have hrle : (data.before.takeWhile isalpha).length ≤ data.before.length :=
    (List.takeWhile_sublist _).length_le
  have hpre : ∀ c ∈ (data.before.take (data.before.takeWhile isalpha).length).reverse,
      isalpha c = true := by
    intro c hc
    rw [List.mem_reverse, ← List.prefix_iff_eq_take.1 (List.takeWhile_prefix isalpha)] at hc
    exact List.mem_takeWhile_imp hc
  generalize (data.before.takeWhile isalpha).length = r at hrle hpre
  have hsz : data.after.length + r ≤ (data.sub r).after.length := by
    unfold Window.sub
    simp only [List.length_append, List.length_reverse, List.length_take]
    omega
  obtain ⟨s, hs, hsiff⟩ := issafe_loop_spec (data.sub r) (data.after.length + r) hsz
    valid_uris valid_uris_nonzero
  unfold sd_autolink_issafe
  rw [hs]
  simp only [ok_bind]
  by_cases hs1 : s = true
  · exfalso
    obtain ⟨u, hu, hm⟩ := hsiff.1 hs1
    rw [sub_after_take data r hrle] at hm
    obtain ⟨_, c0, t, c, hl, hcu, hc0⟩ := scheme_head _ _ u hpre hu hm
    rw [hl] at h
    simp only [List.head?_cons, Option.some.injEq] at h
    rw [h] at hc0
    exact valid_uris_no_semicolon u hu c hcu hc0.symm
  · rw [if_pos (by simpa using hs1)]

/-- C3. For every window, the WWW, email and URL detectors (and the safety
classifier, domain validator and trimmer they call) read only bytes of the
window: none of them ends in a fault.  The trimmer's `link_end - 2` step is
reached with `link_end < 2` only on a span whose first byte is `;`; there the
index wraps to `data[-1]`, which is a byte of the lookbehind, or a read in front
of the buffer when there is no lookbehind.  The detectors never get there: on a
window that starts with `;` each of them returns 0 before it calls the trimmer,
and on a span that does not start with `;` the trimmer does not look at the
lookbehind.  Nor do they call the domain validator with `size = 0`, whose first
read would end in `Fault.oob`. -/
theorem detectors_read_inside_window (rewind_p : Nat) (link : List Nat) (data : Window) :
    (∃ res, sd_autolink__www rewind_p link data data.offset data.size = .ok res) ∧
    (∃ res, sd_autolink__email rewind_p link data data.offset data.size = .ok res) ∧
    (∃ res, sd_autolink__url rewind_p link data data.offset data.size = .ok res) ∧
    (data.after.head? = some 59 →
      sd_autolink__www rewind_p link data data.offset data.size = .ok ⟨0, rewind_p, link⟩ ∧
      sd_autolink__email rewind_p link data data.offset data.size = .ok ⟨0, rewind_p, link⟩ ∧
      sd_autolink__url rewind_p link data data.offset data.size = .ok ⟨0, rewind_p, link⟩) ∧
    (∀ (b1 b2 a : List Nat) (n o1 z1 o2 z2 : Nat), n ≤ a.length → a.head? ≠ some 59 →
      autolink_delim ⟨b1, a⟩ n o1 z1 = autolink_delim ⟨b2, a⟩ n o2 z2) ∧
    (∀ (w : Window) (fuel : Nat), w.after.head? = some 59 → w.before = [] →
      w.size < 2 ^ 64 → delim_loop w (fuel + 1) 1 = .error .oob) ∧
    (∀ (w : Window) (size : Nat), w.size = 0 → check_domain w size = .error .oob) := by
  refine ⟨?_, ?_, ?_, fun h => ⟨www_semicolon rewind_p link data h,
    email_semicolon rewind_p link data h, url_semicolon rewind_p link data h⟩,
    fun b1 b2 a n o1 z1 o2 z2 hn h59 => autolink_delim_same b1 b2 a n o1 z1 o2 z2 hn h59,
    delim_loop_wrap, check_domain_empty⟩
  · obtain ⟨res, h, _⟩ := www_cases rewind_p link data
    exact ⟨res, h⟩
  · obtain ⟨res, h, _⟩ := email_cases rewind_p link data
    exact ⟨res, h⟩
  · obtain ⟨res, h, _⟩ := url_cases rewind_p link data
    exact ⟨res, h⟩

end Autolink
